import Mathlib

/-!
# Meridian: hierarchical resource quotas over a graph store

A shallow embedding of the quota store, the namespace store, the app store and the handlers
`AddNamespace`, `RemoveNamespace`, `SetNamespaceResources` and `SetAppResources` of
`c12s/meridian`, with the properties of its specification.

Modelling conventions.

* The backing graph database is a value of type `Graph`: a list of nodes, each with an internal
  identity, a label (`Namespace` or `App`, both also `Entity`) and a property list, and a list of
  `CHILD` edges between internal identities. Every Cypher query of the source is a function on
  that value; rows come back in storage order, and an aggregate over rows is taken in that
  order.
* A quantity is a `Float64`, a model of IEEE 754 binary64 with not-a-number, the infinities and
  rounding to nearest, ties to even. The code only adds, subtracts and compares quantities.
* A transaction is a working copy of the graph. `Commit` publishes the working copy, `Rollback`
  (or closing the session with the transaction still open) keeps the graph from before.
* A Go `map[string]float64` is an association list; ranging over it visits the entries in list
  order, so every order of iteration is some list.
* Driver and transport failures (`tx.Run` failing for reasons other than the query itself) are not
  modelled.
* The key of a request is spliced into the text of `setQuotaCypher`. The model is the statement
  `SET e.<key> = $quota` for a key that is a property name (`propertyName`); with any other key
  the text is another statement, which is outside the model: what is proved of committed writes
  is to be read for requests whose keys are property names.
* The labels of a namespace are kept as their JSON text, the one `GetLabelsJson` writes;
  `labelsDecodable` tells whether `json.Unmarshal` decodes a stored text.
-/

namespace Meridian

/-! ## The type `float64` -/

/-- A value of the Go type `float64` (IEEE 754 binary64), which is also the type of a Cypher
`Float`: not-a-number, the two infinities, or a finite number. A finite number is an integer
multiple `n * 2 ^ (-1074)` of the smallest positive value of the type; the numbers of the type
are those with `n` of at most 53 significant binary digits and of magnitude below
`2 ^ 2098` (see `Float64.isFinite`), and every operation returns such a number. The two zeros
are one value: the code adds, subtracts and compares, and none of these tells them apart (only
the text of an error message, which is not modelled, would). -/
inductive Float64 where
  | nan
  | inf (negative : Bool)
  | fin (n : Int)
  deriving DecidableEq, Repr

namespace Float64

/-- The number of binary digits of `a`, for `a` below `2 ^ 2 ^ k`. -/
def bitsBelow : Nat → Nat → Nat
  | 0, a => if a = 0 then 0 else 1
  | k + 1, a =>
    if a >>> (2 ^ k) = 0 then bitsBelow k a else bitsBelow k (a >>> (2 ^ k)) + 2 ^ k

/-- The number of binary digits of `a`, one division by two at a time. -/
def bitsAux : Nat → Nat → Nat
  | 0, _ => 0
  | fuel + 1, a => if a = 0 then 0 else bitsAux fuel (a / 2) + 1

/-- The number of binary digits of `a`: `0` for `0`, and `k` when `2 ^ (k - 1) ≤ a < 2 ^ k`. -/
def bitLength (a : Nat) : Nat :=
  if a >>> 4096 = 0 then bitsBelow 12 a else bitsAux a a

/-- Rounding of a magnitude to 53 significant binary digits, to the nearest such number and to
the one with an even last digit when two are equally near (the rounding of IEEE 754 that Go and
the database use). Magnitudes are in units of `2 ^ (-1074)`, so the gradual underflow of the
type needs no case of its own. -/
def roundMag (a : Nat) : Nat :=
  match a with
  | 0 => 0
  | _ + 1 =>
    let s := bitLength a - 53
    let q := a >>> s
    let r := a - (q <<< s)
    if 2 * r < 1 <<< s then q <<< s
    else if 2 * r = 1 <<< s ∧ q % 2 = 0 then q <<< s
    else (q + 1) <<< s

/-- The smallest positive number of the type is `2 ^ (-1074)`. -/
def minExp : Nat := 1074

/-- The numbers of the type are below `2 ^ 1024`. -/
def maxExp : Nat := 1024

/-- The number one, in units of `2 ^ (-1074)`. -/
def unit : Nat := 1 <<< minExp

/-- The magnitude `2 ^ 1024`, in units of `2 ^ (-1074)`: a rounded magnitude that reaches it
overflows to an infinity. -/
def huge : Nat := 1 <<< (maxExp + minExp)

/-- The `float64` nearest to the exact number `z * 2 ^ (-1074)`. -/
def ofScaled (z : Int) : Float64 :=
  if huge ≤ roundMag z.natAbs then .inf (decide (z < 0))
  else .fin (if z < 0 then -(roundMag z.natAbs : Int) else (roundMag z.natAbs : Int))

/-- The `float64` nearest to an integer. -/
def ofInt (z : Int) : Float64 := ofScaled (z * (unit : Int))

/-- Addition of `float64`: the exact sum, rounded. -/
def add : Float64 → Float64 → Float64
  | .nan, _ => .nan
  | _, .nan => .nan
  | .inf a, .inf b => if a = b then .inf a else .nan
  | .inf a, .fin _ => .inf a
  | .fin _, .inf b => .inf b
  | .fin a, .fin b => ofScaled (a + b)

/-- Negation of `float64`. -/
def neg : Float64 → Float64
  | .nan => .nan
  | .inf a => .inf (!a)
  | .fin a => .fin (-a)

/-- The comparison `<` of `float64`: false when either side is not a number. -/
def lt : Float64 → Float64 → Bool
  | .fin a, .fin b => decide (a < b)
  | .inf true, .fin _ => true
  | .inf true, .inf false => true
  | .fin _, .inf false => true
  | _, _ => false

/-- The comparison `<=` of `float64`: false when either side is not a number. -/
def le : Float64 → Float64 → Bool
  | .fin a, .fin b => decide (a ≤ b)
  | .inf true, .fin _ => true
  | .inf true, .inf _ => true
  | .fin _, .inf false => true
  | .inf false, .inf false => true
  | _, _ => false

/-- The value is a finite number of the type: at most 53 significant binary digits, and below
the overflow threshold. -/
def isFinite : Float64 → Bool
  | .fin n => decide (roundMag n.natAbs = n.natAbs) && decide (n.natAbs < huge)
  | _ => false

/-- The value is one of the type: not-a-number, an infinity, or a finite number of the type. -/
def isValue : Float64 → Bool
  | .fin n => isFinite (.fin n)
  | _ => true

/-- The exact value of a finite number, in units of `2 ^ (-1074)`; zero for the other
values. -/
def scaled : Float64 → Int
  | .fin n => n
  | _ => 0

/-- The whole number a finite value stands for, rounded down; zero for the other values. -/
def toInt : Float64 → Int
  | .fin n => n / (unit : Int)
  | _ => 0

/-- The value is a whole number from 0 to below `2 ^ 53`: sums and differences of such numbers
that stay in that range are not rounded. -/
def isWhole : Float64 → Bool
  | .fin n => decide (0 ≤ n) && decide (n % (unit : Int) = 0) &&
      decide (n / (unit : Int) < 9007199254740992)
  | _ => false

instance : Add Float64 := ⟨add⟩
instance : Neg Float64 := ⟨neg⟩
instance : Sub Float64 := ⟨fun a b => add a (neg b)⟩
instance : LT Float64 := ⟨fun a b => lt a b = true⟩
instance : LE Float64 := ⟨fun a b => le a b = true⟩
instance (a b : Float64) : Decidable (a < b) := inferInstanceAs (Decidable (lt a b = true))
instance (a b : Float64) : Decidable (a ≤ b) := inferInstanceAs (Decidable (le a b = true))
instance (n : Nat) : OfNat Float64 n := ⟨ofInt n⟩

end Float64

/-! ## Values, property lists and Go maps -/

/-- Property values of a graph node: strings and `float64` quantities. -/
inductive Value where
  | str (s : String)
  | num (q : Float64)
  deriving DecidableEq, Repr

/-- Association lists keyed by strings: node properties and Go maps. -/
def assocGet {β : Type} (m : List (String × β)) (k : String) : Option β :=
  match m with
  | [] => none
  | (k', v) :: rest => if k' = k then some v else assocGet rest k

/-- Write of one key: replaces the entry when the key is present, adds it otherwise. -/
def assocSet {β : Type} (m : List (String × β)) (k : String) (v : β) : List (String × β) :=
  match m with
  | [] => [(k, v)]
  | (k', v') :: rest => if k' = k then (k, v) :: rest else (k', v') :: assocSet rest k v

/-- Properties of a node (`properties(n)` in Cypher). -/
abbrev Props := List (String × Value)

/-- The Go type `domain.ResourceQuotas`, `map[string]float64`. -/
abbrev ResourceQuotas := List (String × Float64)

/-- The variable `domain.SupportedResourceQuotas`. -/
def SupportedResourceQuotas : List String := ["mem", "cpu", "disk"]

/-- Go map read `m[k]`: the zero value when the key is absent. -/
def mapGet (m : ResourceQuotas) (k : String) : Float64 := (assocGet m k).getD 0

/-- Go map write `m[k] = v`. -/
def mapSet (m : ResourceQuotas) (k : String) (v : Float64) : ResourceQuotas := assocSet m k v

/-- Go `maps.Copy(dst, src)`. -/
def mapsCopy (dst src : ResourceQuotas) : ResourceQuotas :=
  src.foldl (fun acc kv => mapSet acc kv.1 kv.2) dst

/-! ## The graph store -/

/-- A node of the graph: internal identity, label and properties. Every node carries the label
`Entity`; `isNamespace` tells `Namespace` from `App`. -/
structure Node where
  nid : Nat
  isNamespace : Bool
  props : Props
  deriving DecidableEq, Repr

/-- The database: nodes in storage order and `CHILD` edges `(parent, child)` between internal
identities. -/
structure Graph where
  nodes : List Node
  edges : List (Nat × Nat)
  deriving DecidableEq, Repr

/-- The empty database. -/
def Graph.empty : Graph := ⟨[], []⟩

/-- Errors returned by the stores, one constructor per `fmt.Errorf` site (or family of sites). -/
inductive Err where
  /-- Message "entity not found" -/
  | entityNotFound
  /-- Message "entity has no properties" -/
  | noProperties
  /-- Message "id not found" -/
  | idNotFound
  /-- Message "invalid id type: %v" -/
  | invalidIdType
  /-- Message "available resources not found for resource %s" -/
  | availableNotFound (resource : String)
  /-- Message "requested %f quota for the resource %s, but only %f available in parent" -/
  | exceedsParent (resource : String) (quota available : Float64)
  /-- Message "requested %f quota for the resource %s, but %f already utilized" -/
  | belowUtilized (resource : String) (quota utilized : Float64)
  /-- Message "quotas for a resource with name %s are not supported" -/
  | unsupportedResource (resource : String)
  /-- Message "cannot find namespace %s" -/
  | namespaceNotFound (id : String)
  /-- Message "namespace %s has no org_id" and the like: a record that cannot be read back -/
  | badRecord (id field : String)
  /-- The query itself failed (ill-typed arithmetic). -/
  | queryFailed
  deriving DecidableEq, Repr

deriving instance DecidableEq for Except

/-- Node pattern `{id: $id}`. -/
def hasId (id : String) (n : Node) : Bool :=
  decide (assocGet n.props "id" = some (Value.str id))

/-- Rows of `MATCH (e:Entity{id: $id})`. -/
def matchEntity (g : Graph) (id : String) : List Node :=
  g.nodes.filter (hasId id)

/-- Rows of `MATCH (n:Namespace{id: $id})`. -/
def matchNamespace (g : Graph) (id : String) : List Node :=
  g.nodes.filter (fun n => n.isNamespace && hasId id n)

/-- Rows of `MATCH (a:App{id: $id})`. -/
def matchApp (g : Graph) (id : String) : List Node :=
  g.nodes.filter (fun n => !n.isNamespace && hasId id n)

/-- Node with a given internal identity. -/
def findNode (g : Graph) (i : Nat) : Option Node :=
  g.nodes.find? (fun n => n.nid = i)

/-- Rows of `(d:Entity)<-[:CHILD]-(n)`, one for each edge leaving `n`. -/
def childrenOf (g : Graph) (n : Node) : List Node :=
  g.edges.filterMap (fun e => if e.1 = n.nid then findNode g e.2 else none)

/-- Rows of `(p:Entity)-[:CHILD]->(e)`, one for each edge entering `e`. -/
def parentsOf (g : Graph) (e : Node) : List Node :=
  g.edges.filterMap (fun ed => if ed.2 = e.nid then findNode g ed.1 else none)

/-- `OPTIONAL MATCH` followed by `RETURN properties(x)`: the matched rows, or one null row. -/
def optionalRows (matched : List Node) : List (Option Props) :=
  match matched with
  | [] => [none]
  | _ :: _ => matched.map (fun n => some n.props)

/-! ## The resource quota store (`resource_quota_neo4j.go`) -/

/-- Rows of `getEntityCypher`: the properties of every entity with the id. -/
def getEntityCypher (g : Graph) (id : String) : List Props :=
  (matchEntity g id).map Node.props

/-- Rows of `getParentEntityCypher`: for every entity with the id, the properties of each of its
parents, or one null row when it has none. -/
def getParentEntityCypher (g : Graph) (id : String) : List (Option Props) :=
  ((matchEntity g id).map (fun e => optionalRows (parentsOf g e))).flatten

/-- The method `readEntityId`: the id in the first record. -/
def readEntityId (records : List (Option Props)) : Except Err String :=
  match records with
  | [] => .error .entityNotFound
  | none :: _ => .error .noProperties
  | some properties :: _ =>
    match assocGet properties "id" with
    | none => .error .idNotFound
    | some (.str id) => .ok id
    | some (.num _) => .error .invalidIdType

/-- The loop of `readQuotas` over the supported resources: a property that is present and a
`float64` is taken, anything else is skipped. -/
def readQuotaProps (properties : Props) : ResourceQuotas :=
  SupportedResourceQuotas.foldl
    (fun quotas resourceName =>
      match assocGet properties resourceName with
      | some (.num quota) => mapSet quotas resourceName quota
      | _ => quotas)
    []

/-- The method `readQuotas`: the supported quotas in the first record. -/
def readQuotas (records : List Props) : Except Err ResourceQuotas :=
  match records with
  | [] => .error .entityNotFound
  | properties :: _ => .ok (readQuotaProps properties)

/-- The method `getQuotas`. -/
def getQuotas (tx : Graph) (id : String) : Except Err ResourceQuotas :=
  readQuotas (getEntityCypher tx id)

/-- The method `getParentEntity`. -/
def getParentEntity (tx : Graph) (entityId : String) : Except Err String :=
  readEntityId (getParentEntityCypher tx entityId)

/-- The numeric value of `n[$resource_name]`, zero when the property is absent or not a number:
what a Go map read of the quotas of `n` gives. -/
def quotaOf (resource : String) (n : Node) : Float64 :=
  match assocGet n.props resource with
  | some (.num q) => q
  | _ => 0

/-- `n[$resource_name]` is a string: arithmetic on it is ill-typed. Resource properties are
written by `SET e.r = $quota` with a `float64` only, so this does not arise from the operations of
the store; such a query is made to fail. -/
def illTyped (resource : String) (n : Node) : Bool :=
  match assocGet n.props resource with
  | some (.str _) => true
  | _ => false

/-- The aggregate `collect(d[$resource_name])` over rows `d`: the values of the property, in
the order of the rows; `collect` drops the nulls of the rows without the property. -/
def collectQuotas (resource : String) (rows : List Node) : List Float64 :=
  rows.filterMap (fun d =>
    match assocGet d.props resource with
    | some (Value.num q) => some q
    | _ => none)

/-- The list `utilized_list` of `getAvailableResourcesCypher` for the node `n`: the totals for
the resource of the children of `n`. -/
def utilizedList (g : Graph) (resource : String) (n : Node) : List Float64 :=
  collectQuotas resource (childrenOf g n)

/-- `total_utilized` of `getAvailableResourcesCypher` for the node `n`:
`reduce(total_utilized = 0, utilized in utilized_list | total_utilized + utilized)`, the values
added one after the other from the left, each sum rounded. -/
def totalUtilized (g : Graph) (resource : String) (n : Node) : Float64 :=
  (utilizedList g resource n).foldl (fun acc q => acc + q) 0

/-- The value `total - total_utilized AS available` for the node `n`: null when `n` has no
property for the resource. -/
def availableValue (g : Graph) (resource : String) (n : Node) : Option Float64 :=
  match assocGet n.props resource with
  | some (.num total) => some (total - totalUtilized g resource n)
  | _ => none

/-- Rows of `getAvailableResourcesCypher`: one per entity with the id. -/
def getAvailableResourcesCypher (g : Graph) (id resource : String) :
    Except Err (List (Option Float64)) :=
  if (matchEntity g id).any
      (fun n => illTyped resource n || (childrenOf g n).any (illTyped resource)) then
    .error .queryFailed
  else
    .ok ((matchEntity g id).map (availableValue g resource))

/-- One iteration of the loop of `GetAvailableResources`. -/
def availableStep (tx : Graph) (entityId : String) (quotas : ResourceQuotas)
    (resourceName : String) : Except Err ResourceQuotas :=
  match getAvailableResourcesCypher tx entityId resourceName with
  | .error e => .error e
  | .ok [] => .error (.availableNotFound resourceName)
  | .ok (none :: _) => .ok quotas
  | .ok (some available :: _) => .ok (mapSet quotas resourceName available)

/-- The method `GetAvailableResources`. -/
def GetAvailableResources (tx : Graph) (entityId : String) : Except Err ResourceQuotas :=
  SupportedResourceQuotas.foldlM (availableStep tx entityId) []

/-- The first loop of `SetResourceQuotas` over the request: the parent-capacity check. -/
def checkParent (availableParent total : ResourceQuotas) :
    ResourceQuotas → Except Err Unit
  | [] => .ok ()
  | (resource, quota) :: rest =>
    if mapGet availableParent resource + mapGet total resource < quota then
      .error (.exceedsParent resource quota
        (mapGet availableParent resource + mapGet total resource))
    else checkParent availableParent total rest

/-- The second loop of `SetResourceQuotas` over the request: the child-utilization check. -/
def checkUtilized (total available : ResourceQuotas) : ResourceQuotas → Except Err Unit
  | [] => .ok ()
  | (resource, quota) :: rest =>
    if mapGet total resource - mapGet available resource > quota then
      .error (.belowUtilized resource quota
        (mapGet total resource - mapGet available resource))
    else checkUtilized total available rest

/-- The string is a property name as Cypher reads one without quoting: a letter or an
underscore, followed by letters, digits and underscores. -/
def propertyName (k : String) : Bool :=
  match k.toList with
  | [] => false
  | c :: cs => (c.isAlpha || c = '_') && cs.all (fun d => d.isAlphanum || d = '_')

/-- The query `setQuotaCypher(resource)`: `MATCH (e:Entity{id: $id}) SET e.resource = $quota`.
The resource string is spliced into the query text by `fmt.Sprintf` as it is. For a resource
that is a property name (`propertyName`) the text is this statement, and the `SET` writes the
property on every node that carries the id; that is what the function computes. For any other
string the text is not this statement and the function says nothing about the code. -/
def setQuotaCypher (g : Graph) (id resource : String) (quota : Float64) : Graph :=
  { g with nodes := g.nodes.map (fun n =>
      if hasId id n then { n with props := assocSet n.props resource (.num quota) } else n) }

/-- The method `setResourceQuotas`: one `SET` per entry of the request. -/
def setResourceQuotas (tx : Graph) (entityId : String) (quotas : ResourceQuotas) : Graph :=
  quotas.foldl (fun g rq => setQuotaCypher g entityId rq.1 rq.2) tx

/-- The parent part of `SetResourceQuotas`: an error of the parent lookup is logged and the
check skipped. -/
def parentAdmission (tx : Graph) (entityId : String) (total quotas : ResourceQuotas) :
    Except Err Unit :=
  match getParentEntity tx entityId with
  | .error _ => .ok ()
  | .ok parentEntityId =>
    match GetAvailableResources tx parentEntityId with
    | .error e => .error e
    | .ok availableParent => checkParent availableParent total quotas

/-- The method `SetResourceQuotas`, as the body of a transaction: the working copy after the
writes, or the error it returns. -/
def SetResourceQuotas (tx : Graph) (entityId : String) (quotas : ResourceQuotas) :
    Except Err Graph :=
  match getQuotas tx entityId with
  | .error e => .error e
  | .ok total =>
    match parentAdmission tx entityId total quotas with
    | .error e => .error e
    | .ok () =>
      match GetAvailableResources tx entityId with
      | .error e => .error e
      | .ok available =>
        match checkUtilized total available quotas with
        | .error e => .error e
        | .ok () => .ok (setResourceQuotas tx entityId quotas)

/-- Outcome of a transaction over the committed graph `g`: committed on success, the graph from
before together with the error otherwise. -/
def commitOrRollback (g : Graph) (r : Except Err Graph) : Graph × Option Err :=
  match r with
  | .ok g' => (g', none)
  | .error e => (g, some e)

/-- The call `SetResourceQuotas(entityId, quotas, nil)` of the handlers `SetNamespaceResources`
and `SetAppResources`: the method in a transaction of its own. -/
def SetResourceQuotasNil (g : Graph) (entityId : String) (quotas : ResourceQuotas) :
    Graph × Option Err :=
  commitOrRollback g (SetResourceQuotas g entityId quotas)

/-! ## The domain objects (`namespace.go`, `app.go`) -/

/-- The function `MakeNamespaceId`. -/
def MakeNamespaceId (orgId namespaceName : String) : String :=
  orgId ++ "/" ++ namespaceName

/-- The struct `domain.Namespace`. The label map is carried in its JSON encoding, the string
`GetLabelsJson` stores and `readNamespaces` decodes. -/
structure Namespace where
  orgId : String
  name : String
  resourceQuotas : ResourceQuotas
  available : ResourceQuotas
  profileVersion : String
  labels : String
  deriving DecidableEq, Repr

/-- The function `NewNamespace`. -/
def NewNamespace (orgId name profileVersion labels : String) : Namespace :=
  { orgId := orgId, name := name, profileVersion := profileVersion, labels := labels,
    resourceQuotas := [], available := [] }

/-- The method `Namespace.GetId`. -/
def Namespace.GetId (n : Namespace) : String := MakeNamespaceId n.orgId n.name

/-- The method `Namespace.GetResourceQuotas`: a copy of the total quotas. -/
def Namespace.GetResourceQuotas (n : Namespace) : ResourceQuotas := mapsCopy [] n.resourceQuotas

/-- The method `Namespace.AddResourceQuota`. -/
def Namespace.AddResourceQuota (n : Namespace) (resource : String) (quota : Float64) :
    Except Err Namespace :=
  if SupportedResourceQuotas.contains resource then
    .ok { n with resourceQuotas := mapSet n.resourceQuotas resource quota }
  else .error (.unsupportedResource resource)

/-- The method `Namespace.GetAvailable`. -/
def Namespace.GetAvailable (n : Namespace) : ResourceQuotas := mapsCopy [] n.available

/-- The loop of `SetAvailable` that looks for an unsupported resource. -/
def firstUnsupported : ResourceQuotas → Option String
  | [] => none
  | (resource, _) :: rest =>
    if SupportedResourceQuotas.contains resource then firstUnsupported rest else some resource

/-- The method `Namespace.SetAvailable`. -/
def Namespace.SetAvailable (n : Namespace) (available : ResourceQuotas) : Except Err Namespace :=
  match firstUnsupported available with
  | some resource => .error (.unsupportedResource resource)
  | none => .ok { n with available := mapsCopy n.available available }

/-- The method `Namespace.GetUtilized`. -/
def Namespace.GetUtilized (n : Namespace) : ResourceQuotas :=
  n.available.foldl
    (fun quotas ra => mapSet quotas ra.1 (mapGet quotas ra.1 - ra.2))
    (mapsCopy [] n.resourceQuotas)

/-- The function `MakeAppId`. -/
def MakeAppId (orgId namespaceName appName : String) : String :=
  MakeNamespaceId orgId namespaceName ++ "/" ++ appName

/-- The struct `domain.App`; `ns` is its field `namespace`. -/
structure App where
  ns : Namespace
  name : String
  resourceQuotas : ResourceQuotas
  profileVersion : String
  deriving DecidableEq, Repr

/-- The function `NewApp`. -/
def NewApp (ns : Namespace) (name profileVersion : String) : App :=
  { ns := ns, name := name, profileVersion := profileVersion, resourceQuotas := [] }

/-- The method `App.GetId`. -/
def App.GetId (a : App) : String := MakeAppId a.ns.orgId a.ns.name a.name

/-- The method `App.GetResourceQuotas`. -/
def App.GetResourceQuotas (a : App) : ResourceQuotas := mapsCopy [] a.resourceQuotas

/-- The method `App.AddResourceQuota`. -/
def App.AddResourceQuota (a : App) (resource : String) (quota : Float64) :
    Except Err App :=
  if SupportedResourceQuotas.contains resource then
    .ok { a with resourceQuotas := mapSet a.resourceQuotas resource quota }
  else .error (.unsupportedResource resource)

/-- The struct `domain.NamespaceTreeNode`. -/
inductive NamespaceTreeNode where
  | mk (ns : Namespace) (apps : List App) (children : List NamespaceTreeNode)
  deriving Repr

/-- Field `Namespace` of a tree node. -/
def NamespaceTreeNode.Namespace : NamespaceTreeNode → Namespace
  | .mk ns _ _ => ns

/-- Field `Apps` of a tree node. -/
def NamespaceTreeNode.Apps : NamespaceTreeNode → List App
  | .mk _ apps _ => apps

/-- Field `Children` of a tree node. -/
def NamespaceTreeNode.Children : NamespaceTreeNode → List NamespaceTreeNode
  | .mk _ _ children => children

/-- The struct `domain.NamespaceTree`. -/
structure NamespaceTree where
  Root : NamespaceTreeNode

/-! ## The app store (`app_neo4j.go`) -/

/-- A fresh internal identity. -/
def freshNid (g : Graph) : Nat := (g.nodes.map Node.nid).foldr max 0 + 1

/-- The query `addAppCypher`: for every namespace node with the id, `CREATE` an app node and a
`CHILD` edge to it. -/
def addAppCypher (g : Graph) (app : App) : Graph :=
  (matchNamespace g app.ns.GetId).foldl
    (fun acc n =>
      { nodes := acc.nodes ++ [⟨freshNid acc, false,
          [("id", .str app.GetId), ("name", .str app.name),
           ("profile_version", .str app.profileVersion)]⟩],
        edges := acc.edges ++ [(n.nid, freshNid acc)] })
    g

/-- The method `appNeo4jStore.Add`. -/
def AddApp (g : Graph) (app : App) : Graph × Option Err :=
  commitOrRollback g (SetResourceQuotas (addAppCypher g app) app.GetId app.GetResourceQuotas)

/-- The query `removeAppCypher`: `DETACH DELETE` of every app node with the id. -/
def removeAppCypher (g : Graph) (id : String) : Graph :=
  { nodes := g.nodes.filter (fun n => !(!n.isNamespace && hasId id n)),
    edges := g.edges.filter (fun e =>
      !((matchApp g id).any (fun n => n.nid = e.1 || n.nid = e.2))) }

/-- The method `appNeo4jStore.Remove`. -/
def RemoveApp (g : Graph) (id : String) : Graph × Option Err :=
  (removeAppCypher g id, none)

/-- Rows of `getChildAppsCypher`: for every namespace node with the id, the properties of its
child apps, or one null row. -/
def getChildAppsCypher (g : Graph) (id : String) : List (Option Props) :=
  ((matchNamespace g id).map
    (fun n => optionalRows ((childrenOf g n).filter (fun c => !c.isNamespace)))).flatten

/-- The body of the loop of `readApps` for one record with properties. -/
def readApp (properties : Props) (ns : Namespace) : Except Err App :=
  match assocGet properties "name" with
  | some (.str name) =>
    match assocGet properties "profile_version" with
    | some (.str profileVersion) =>
      .ok { NewApp ns name profileVersion with resourceQuotas := readQuotaProps properties }
    | _ => .error (.badRecord ns.GetId "profile_version")
  | _ => .error (.badRecord ns.GetId "name")

/-- The method `readApps`: null records are skipped, the first unreadable record is an error. -/
def readApps : List (Option Props) → Namespace → Except Err (List App)
  | [], _ => .ok []
  | none :: rest, ns => readApps rest ns
  | some properties :: rest, ns =>
    match readApp properties ns with
    | .error e => .error e
    | .ok app =>
      match readApps rest ns with
      | .error e => .error e
      | .ok apps => .ok (app :: apps)

/-- The method `appNeo4jStore.FindChildren`. -/
def FindChildren (g : Graph) (ns : Namespace) : Except Err (List App) :=
  readApps (getChildAppsCypher g ns.GetId) ns

/-! ## The namespace store (`namespace_neo4j.go`) -/

/-- The query `addNamespaceCypher`: `CREATE` of one namespace node. -/
def addNamespaceCypher (g : Graph) (ns : Namespace) : Graph :=
  { g with nodes := g.nodes ++ [⟨freshNid g, true,
      [("id", .str ns.GetId), ("org_id", .str ns.orgId), ("name", .str ns.name),
       ("profile_version", .str ns.profileVersion), ("labels", .str ns.labels)]⟩] }

/-- The query `connectNamespacesCypher`: a `CHILD` edge for every pair of a namespace node with
the parent id and a namespace node with the child id. -/
def connectNamespacesCypher (g : Graph) (parentId childId : String) : Graph :=
  { g with edges := g.edges ++
      ((matchNamespace g parentId).map
        (fun p => (matchNamespace g childId).map (fun c => (p.nid, c.nid)))).flatten }

/-- The statements of `Add` before the quotas are set: node, then edge when a parent is given. -/
def addAndConnect (g : Graph) (ns : Namespace) (parent : Option Namespace) : Graph :=
  match parent with
  | none => addNamespaceCypher g ns
  | some p => connectNamespacesCypher (addNamespaceCypher g ns) p.GetId ns.GetId

/-- The method `namespaceNeo4jStore.Add`. -/
def Add (g : Graph) (ns : Namespace) (parent : Option Namespace) : Graph × Option Err :=
  commitOrRollback g
    (SetResourceQuotas (addAndConnect g ns parent) ns.GetId ns.GetResourceQuotas)

/-- The query `removeNamespaceCypher`: `DETACH DELETE` of every namespace node with the id. -/
def removeNamespaceCypher (g : Graph) (id : String) : Graph :=
  { nodes := g.nodes.filter (fun n => !(n.isNamespace && hasId id n)),
    edges := g.edges.filter (fun e =>
      !((matchNamespace g id).any (fun n => n.nid = e.1 || n.nid = e.2))) }

/-- The method `namespaceNeo4jStore.Remove`. -/
def Remove (g : Graph) (id : String) : Graph × Option Err :=
  (removeNamespaceCypher g id, none)

/-- States of the scan of a labels text: before the value, inside the object, inside a string
(a key or a value), after an escape, inside the four digits of a `\u` escape, inside the
literal `null`, and after the value. -/
inductive LabelScan where
  | topStart
  | topEnd
  | objStart
  | keyStart
  | colon
  | valStart
  | afterVal
  | str (isKey : Bool)
  | esc (isKey : Bool)
  | hex (isKey : Bool) (left : Nat)
  | lit (rest : List Char) (next : LabelScan)

/-- JSON white space. -/
def jsonSpace (c : Char) : Bool := c = ' ' || c = '\t' || c = '\n' || c = '\r'

/-- A hexadecimal digit. -/
def jsonHex (c : Char) : Bool :=
  ('0' ≤ c && c ≤ '9') || ('a' ≤ c && c ≤ 'f') || ('A' ≤ c && c ≤ 'F')

/-- The scan of a labels text, one character at a time: `true` when the text is a JSON text
that `json.Unmarshal` decodes into a `map[string]string` without an error, that is the literal
`null` or an object whose values are strings or `null`, with white space around the tokens. -/
def labelScan : LabelScan → List Char → Bool
  | .topEnd, [] => true
  | _, [] => false
  | .topStart, c :: cs =>
    if jsonSpace c then labelScan .topStart cs
    else if c = '{' then labelScan .objStart cs
    else if c = 'n' then labelScan (.lit ['u', 'l', 'l'] .topEnd) cs
    else false
  | .topEnd, c :: cs => if jsonSpace c then labelScan .topEnd cs else false
  | .objStart, c :: cs =>
    if jsonSpace c then labelScan .objStart cs
    else if c = '}' then labelScan .topEnd cs
    else if c = '"' then labelScan (.str true) cs
    else false
  | .keyStart, c :: cs =>
    if jsonSpace c then labelScan .keyStart cs
    else if c = '"' then labelScan (.str true) cs
    else false
  | .colon, c :: cs =>
    if jsonSpace c then labelScan .colon cs
    else if c = ':' then labelScan .valStart cs
    else false
  | .valStart, c :: cs =>
    if jsonSpace c then labelScan .valStart cs
    else if c = '"' then labelScan (.str false) cs
    else if c = 'n' then labelScan (.lit ['u', 'l', 'l'] .afterVal) cs
    else false
  | .afterVal, c :: cs =>
    if jsonSpace c then labelScan .afterVal cs
    else if c = ',' then labelScan .keyStart cs
    else if c = '}' then labelScan .topEnd cs
    else false
  | .str isKey, c :: cs =>
    if c = '"' then labelScan (if isKey then .colon else .afterVal) cs
    else if c = '\\' then labelScan (.esc isKey) cs
    else if c.toNat < 32 then false
    else labelScan (.str isKey) cs
  | .esc isKey, c :: cs =>
    if c = 'u' then labelScan (.hex isKey 4) cs
    else if c = '"' || c = '\\' || c = '/' || c = 'b' || c = 'f' || c = 'n' || c = 'r'
        || c = 't' then labelScan (.str isKey) cs
    else false
  | .hex isKey left, c :: cs =>
    if jsonHex c then
      if left ≤ 1 then labelScan (.str isKey) cs else labelScan (.hex isKey (left - 1)) cs
    else false
  | .lit [] _, _ :: _ => false
  | .lit (x :: xs) next, c :: cs =>
    if c = x then
      match xs with
      | [] => labelScan next cs
      | _ :: _ => labelScan (.lit xs next) cs
    else false

/-- The call `json.Unmarshal([]byte(labelsJson), &labels)` of `readNamespaces` returns no
error. -/
def labelsDecodable (labelsJson : String) : Bool := labelScan .topStart labelsJson.toList

/-- The body of the loop of `readNamespaces` for one record with properties: the namespace read,
or `none` when the labels text is not decoded, where the loop stops. The quotas are added with
`AddResourceQuota`, which cannot fail on a supported name. A namespace keeps its labels as their
JSON text. -/
def readNamespace (properties : Props) (id : String) : Except Err (Option Namespace) :=
  match assocGet properties "org_id" with
  | some (.str orgId) =>
    match assocGet properties "name" with
    | some (.str name) =>
      match assocGet properties "profile_version" with
      | some (.str profileVersion) =>
        match assocGet properties "labels" with
        | some (.str labels) =>
          if labelsDecodable labels then
            .ok (some { NewNamespace orgId name profileVersion labels with
                        resourceQuotas := readQuotaProps properties })
          else .ok none
        | _ => .error (.badRecord id "labels")
      | _ => .error (.badRecord id "profile_version")
    | _ => .error (.badRecord id "name")
  | _ => .error (.badRecord id "org_id")

/-- The method `readNamespaces`: null records are skipped, the first unreadable record is an
error, and at the first record whose labels text is not decoded the namespaces read so far are
returned without an error. -/
def readNamespaces : List (Option Props) → String → Except Err (List Namespace)
  | [], _ => .ok []
  | none :: rest, id => readNamespaces rest id
  | some properties :: rest, id =>
    match readNamespace properties id with
    | .error e => .error e
    | .ok none => .ok []
    | .ok (some ns) =>
      match readNamespaces rest id with
      | .error e => .error e
      | .ok namespaces => .ok (ns :: namespaces)

/-- Rows of `getNamespaceCypher`. -/
def getNamespaceCypher (g : Graph) (id : String) : List (Option Props) :=
  (matchNamespace g id).map (fun n => some n.props)

/-- Rows of `getChildNamespacesCypher`: for every namespace node with the id, the properties of
its child namespaces, or one null row. -/
def getChildNamespacesCypher (g : Graph) (id : String) : List (Option Props) :=
  ((matchNamespace g id).map
    (fun n => optionalRows ((childrenOf g n).filter (fun c => c.isNamespace)))).flatten

/-- Resolution of the available quotas of one namespace read from the store, as `get` and the
loop of `getChildren` do it. -/
def resolveAvailable (tx : Graph) (ns : Namespace) : Except Err Namespace :=
  match GetAvailableResources tx ns.GetId with
  | .error e => .error e
  | .ok available => ns.SetAvailable available

/-- The method `namespaceNeo4jStore.get`. -/
def get (tx : Graph) (id : String) : Except Err Namespace :=
  match readNamespaces (getNamespaceCypher tx id) id with
  | .error e => .error e
  | .ok [] => .error (.namespaceNotFound id)
  | .ok (ns :: _) => resolveAvailable tx ns

/-- The method `namespaceNeo4jStore.Get`. -/
def Get (g : Graph) (id : String) : Except Err Namespace := get g id

/-- The loop of `getChildren`; the available map of an element is shared with the loop variable,
so the elements of the slice are the resolved namespaces. -/
def resolveAll (tx : Graph) : List Namespace → Except Err (List Namespace)
  | [] => .ok []
  | ns :: rest =>
    match resolveAvailable tx ns with
    | .error e => .error e
    | .ok ns' =>
      match resolveAll tx rest with
      | .error e => .error e
      | .ok rest' => .ok (ns' :: rest')

/-- The method `namespaceNeo4jStore.getChildren`. -/
def getChildren (tx : Graph) (ns : Namespace) : Except Err (List Namespace) :=
  match readNamespaces (getChildNamespacesCypher tx ns.GetId) ns.GetId with
  | .error e => .error e
  | .ok namespaces => resolveAll tx namespaces

/-- The method `populateTreeNode`: the apps of the node and one child node for each child
namespace. Each iteration of the loop over the children has its own variable `child` (the
semantics of Go 1.22; the code imports the standard packages `maps` and `slices`), so
`&child` is a different namespace for each child node. -/
def populateTreeNode (tx : Graph) (ns : Namespace) : Except Err (List App × List Namespace) :=
  match FindChildren tx ns with
  | .error e => .error e
  | .ok apps =>
    match getChildren tx ns with
    | .error e => .error e
    | .ok children => .ok (apps, children)

/-- The loop of `populateTree` over the children, in order, stopping at the first error; `none`
when a recursive call does not return. -/
def mapTree (f : Namespace → Option (Except Err NamespaceTreeNode)) :
    List Namespace → Option (Except Err (List NamespaceTreeNode))
  | [] => some (.ok [])
  | child :: rest =>
    match f child with
    | none => none
    | some (.error e) => some (.error e)
    | some (.ok node) =>
      match mapTree f rest with
      | none => none
      | some (.error e) => some (.error e)
      | some (.ok nodes) => some (.ok (node :: nodes))

/-- The method `populateTree`, with a bound on the depth of the recursion: `none` when the bound
is reached. -/
def populateTree (tx : Graph) : Nat → Namespace → Option (Except Err NamespaceTreeNode)
  | 0, _ => none
  | fuel + 1, ns =>
    match populateTreeNode tx ns with
    | .error e => some (.error e)
    | .ok (apps, children) =>
      match mapTree (populateTree tx fuel) children with
      | none => none
      | some (.error e) => some (.error e)
      | some (.ok nodes) => some (.ok (.mk ns apps nodes))

/-- The method `namespaceNeo4jStore.GetHierarchy`, with the bound of `populateTree`. -/
def GetHierarchy (g : Graph) (fuel : Nat) (rootId : String) :
    Option (Except Err NamespaceTree) :=
  match get g rootId with
  | .error e => some (.error e)
  | .ok root =>
    match populateTree g fuel root with
    | none => none
    | some (.error e) => some (.error e)
    | some (.ok rootNode) => some (.ok ⟨rootNode⟩)

/-! ## The handlers (`meridian_grpc.go`) -/

/-- Status returned by a handler, by gRPC code. -/
inductive Status where
  | alreadyExists
  | notFound
  | invalidArgument
  | internal (e : Err)
  deriving DecidableEq, Repr

/-- The handler `RemoveNamespace`: the store after the request and the status returned, `none`
when the hierarchy lookup does not return. -/
def RemoveNamespace (g : Graph) (fuel : Nat) (orgId name : String) :
    Option (Graph × Option Status) :=
  match GetHierarchy g fuel (MakeNamespaceId orgId name) with
  | none => none
  | some r =>
    let guarded : Bool :=
      match r with
      | .ok tree => decide (tree.Root.Children.length > 0) || decide (tree.Root.Apps.length > 0)
      | .error _ => false
    if guarded then some (g, some .invalidArgument)
    else
      match Remove g (MakeNamespaceId orgId name) with
      | (g', none) => some (g', none)
      | (g', some e) => some (g', some (.internal e))

/-- The handler `SetNamespaceResources`: the request map goes to the store as it is. -/
def SetNamespaceResources (g : Graph) (orgId name : String) (quotas : ResourceQuotas) :
    Graph × Option Status :=
  match SetResourceQuotasNil g (MakeNamespaceId orgId name) quotas with
  | (g', none) => (g', none)
  | (g', some e) => (g', some (.internal e))

/-- The handler `SetAppResources`. -/
def SetAppResources (g : Graph) (orgId nsName name : String) (quotas : ResourceQuotas) :
    Graph × Option Status :=
  match SetResourceQuotasNil g (MakeAppId orgId nsName name) quotas with
  | (g', none) => (g', none)
  | (g', some e) => (g', some (.internal e))

/-! ## Structural readings of the store, used to state the properties -/

/-- The quota of a property list for a resource: its `float64` value, zero otherwise. -/
def quotaOfProps (properties : Props) (resource : String) : Float64 :=
  match assocGet properties resource with
  | some (.num q) => q
  | _ => 0

/-- The call `GetAvailableResources(nil, entityId)`: the method in a read transaction of its own,
which writes nothing; the store afterwards and the result. -/
def GetAvailableResourcesNil (g : Graph) (entityId : String) :
    Graph × Except Err ResourceQuotas :=
  (g, GetAvailableResources g entityId)

/-- The root namespace `o/default` of `demoStore`: 100 mem, 8 cpu. -/
def demoRoot : Node :=
  ⟨1, true, [("id", .str "o/default"), ("org_id", .str "o"), ("name", .str "default"),
             ("profile_version", .str "v1"), ("labels", .str "null"),
             ("mem", .num 100), ("cpu", .num 8)]⟩

/-- The namespace `o/a` of `demoStore`: 40 mem, 3 cpu. -/
def demoA : Node :=
  ⟨2, true, [("id", .str "o/a"), ("org_id", .str "o"), ("name", .str "a"),
             ("profile_version", .str "v1"), ("labels", .str "null"),
             ("mem", .num 40), ("cpu", .num 3)]⟩

/-- The namespace `o/b` of `demoStore`: 30 mem, 2 cpu. -/
def demoB : Node :=
  ⟨3, true, [("id", .str "o/b"), ("org_id", .str "o"), ("name", .str "b"),
             ("profile_version", .str "v1"), ("labels", .str "null"),
             ("mem", .num 30), ("cpu", .num 2)]⟩

/-- The app `o/a/web` of `demoStore`: 10 mem, 1 cpu. -/
def demoWeb : Node :=
  ⟨4, false, [("id", .str "o/a/web"), ("name", .str "web"),
              ("profile_version", .str "v1"), ("mem", .num 10), ("cpu", .num 1)]⟩

/-- A small store: the root `o/default` with the child namespaces `o/a` and `o/b`, and the app
`o/a/web` under `o/a`. -/
def demoStore : Graph :=
  { nodes := [demoRoot, demoA, demoB, demoWeb],
    edges := [(1, 2), (1, 3), (2, 4)] }

/-- The effect of `setResourceQuotas` on the properties of one node: each `SET` of the request
applies while the node still carries the id. -/
def setProps (id : String) (properties : Props) : ResourceQuotas → Props
  | [] => properties
  | (r, q) :: rest =>
    setProps id
      (if assocGet properties "id" = some (Value.str id) then assocSet properties r (.num q)
       else properties)
      rest

/-- The direct children of `p` other than `e`. -/
def otherChildren (g : Graph) (p e : Node) : List Node :=
  (childrenOf g p).filter (fun c => decide (c.nid ≠ e.nid))

/-- A namespace value as the handler `AddNamespace` builds it, with quotas. -/
def demoNamespace (orgId name : String) (quotas : ResourceQuotas) : Namespace :=
  { NewNamespace orgId name "v1" "null" with resourceQuotas := quotas }

/-- The app `o/default/web` as the handler `AddApp` builds it, without quotas. -/
def webApp : App := NewApp (demoNamespace "o" "default" []) "web" "v1"

/-- A run from the empty store: `Add` of the root `o/default` with 10 cpu, `AddApp` of
`o/default/web` twice, `SetResourceQuotas` of the app to 10 cpu, `SetResourceQuotas` of the root
to 0 mem. The stores after each step, with the error of the step. -/
def dupRun1 : Graph × Option Err :=
  Add Graph.empty (demoNamespace "o" "default" [("cpu", 10)]) none

/-- Second step of the run: the app is added. -/
def dupRun2 : Graph × Option Err := AddApp dupRun1.1 webApp

/-- Third step of the run: the app is added again. -/
def dupRun3 : Graph × Option Err := AddApp dupRun2.1 webApp

/-- Fourth step of the run: 10 cpu for the app. -/
def dupRun4 : Graph × Option Err :=
  SetResourceQuotasNil dupRun3.1 "o/default/web" [("cpu", 10)]

/-- Fifth step of the run: 0 mem for the root. -/
def dupRun5 : Graph × Option Err :=
  SetResourceQuotasNil dupRun4.1 "o/default" [("mem", 0)]

/-- The namespace `o/a` as read back from `demoStore`, with its available quotas. -/
def demoTreeA : Namespace :=
  { orgId := "o", name := "a", resourceQuotas := [("mem", 40), ("cpu", 3)],
    available := [("mem", 30), ("cpu", 2)], profileVersion := "v1", labels := "null" }

/-- The tree `GetHierarchy` returns for the root of `demoStore`. -/
def demoTree : NamespaceTree :=
  ⟨.mk { orgId := "o", name := "default", resourceQuotas := [("mem", 100), ("cpu", 8)],
         available := [("mem", 30), ("cpu", 3)], profileVersion := "v1", labels := "null" }
      []
      [.mk demoTreeA
          [{ ns := demoTreeA, name := "web", resourceQuotas := [("mem", 10), ("cpu", 1)],
             profileVersion := "v1" }]
          [],
       .mk { orgId := "o", name := "b", resourceQuotas := [("mem", 30), ("cpu", 2)],
             available := [("mem", 30), ("cpu", 2)], profileVersion := "v1", labels := "null" }
          [] []]⟩

/-- The store `demoStore` after the handler `SetNamespaceResources` was called for `o/a` with
the request `name: 0`. -/
def renamedStore : Graph := (SetNamespaceResources demoStore "o" "a" [("name", 0)]).1

/-- The record of a namespace node can be read back: it has the label and the four string
properties `readNamespaces` asks for, and its labels text is decoded. -/
def namespaceRecord (n : Node) (orgId name profileVersion labels : String) : Prop :=
  n.isNamespace = true ∧
  assocGet n.props "org_id" = some (.str orgId) ∧
  assocGet n.props "name" = some (.str name) ∧
  assocGet n.props "profile_version" = some (.str profileVersion) ∧
  assocGet n.props "labels" = some (.str labels) ∧
  labelsDecodable labels = true

instance (n : Node) (orgId name profileVersion labels : String) :
    Decidable (namespaceRecord n orgId name profileVersion labels) := by
  unfold namespaceRecord
  infer_instance

/-- The total quotas of a node are `{mem: m}`. -/
def totalMemOnly (n : Node) (m : Float64) : Prop :=
  assocGet n.props "mem" = some (.num m) ∧
  assocGet n.props "cpu" = none ∧
  assocGet n.props "disk" = none

instance (n : Node) (m : Float64) : Decidable (totalMemOnly n m) := by
  unfold totalMemOnly
  infer_instance

/-- A namespace value whose total is `{mem: total}`. -/
def memNamespace (o n pv lb : String) (total : Float64) (available : ResourceQuotas) :
    Namespace :=
  { orgId := o, name := n, resourceQuotas := [("mem", total)], available := available,
    profileVersion := pv, labels := lb }

/-- The root of `treeStore`: `o/default` with the total `{mem: 100}`. -/
def treeRoot : Node :=
  ⟨1, true, [("id", .str "o/default"), ("org_id", .str "o"), ("name", .str "default"),
             ("profile_version", .str "v1"), ("labels", .str "null"), ("mem", .num 100)]⟩

/-- First child of `treeStore`: `o/a` with the total `{mem: 40}`. -/
def treeA : Node :=
  ⟨2, true, [("id", .str "o/a"), ("org_id", .str "o"), ("name", .str "a"),
             ("profile_version", .str "v1"), ("labels", .str "null"), ("mem", .num 40)]⟩

/-- Second child of `treeStore`: `o/b` with the total `{mem: 30}`. -/
def treeB : Node :=
  ⟨3, true, [("id", .str "o/b"), ("org_id", .str "o"), ("name", .str "b"),
             ("profile_version", .str "v1"), ("labels", .str "null"), ("mem", .num 30)]⟩

/-- A root with the quota `{mem: 100}` and two children with the quotas `{mem: 40}` and
`{mem: 30}`. -/
def treeStore : Graph :=
  { nodes := [treeRoot, treeA, treeB], edges := [(1, 2), (1, 3)] }

/-- No node of the store holds a string under a supported resource name, so the arithmetic of
`getAvailableResourcesCypher` is well typed. The operations of the store write only `float64`
values under resource names. -/
def quotasTyped (g : Graph) : Prop :=
  ∀ n ∈ g.nodes, ∀ r ∈ SupportedResourceQuotas, illTyped r n = false

instance (g : Graph) : Decidable (quotasTyped g) := by
  unfold quotasTyped
  infer_instance

/-- The store `demoStore` after `SetNamespaceResources` was called for the root `o/default` with
the request `id: 0`: the identifier of the root is overwritten and its children are still linked
to it. -/
def lostParentStore : Graph := (SetNamespaceResources demoStore "o" "default" [("id", 0)]).1

/-- The method `Namespace.AddResourceQuota` as the statement it is in Go: the receiver after
the call, together with the error returned. -/
def Namespace.AddResourceQuotaStmt (n : Namespace) (resource : String) (quota : Float64) :
    Namespace × Option Err :=
  match n.AddResourceQuota resource quota with
  | .ok n' => (n', none)
  | .error e => (n, some e)

/-- The method `App.AddResourceQuota` as the statement it is in Go: the receiver after the
call, together with the error returned. -/
def App.AddResourceQuotaStmt (a : App) (resource : String) (quota : Float64) :
    App × Option Err :=
  match a.AddResourceQuota resource quota with
  | .ok a' => (a', none)
  | .error e => (a, some e)

/-- The request of the handler `AddNamespace`, with the fields the handler reads;
`ProfileVersion` is `req.Profile.Version`. -/
structure AddNamespaceReq where
  OrgId : String
  Name : String
  ParentName : String
  ProfileVersion : String
  Labels : String
  Quotas : ResourceQuotas
  deriving DecidableEq, Repr

/-- The loop of the handler `AddNamespace` over the requested quotas. -/
def addQuotas (n : Namespace) : ResourceQuotas → Except Err Namespace
  | [] => .ok n
  | (resource, quota) :: rest =>
    match n.AddResourceQuota resource quota with
    | .error e => .error e
    | .ok n' => addQuotas n' rest

/-- The parent lookup of the handler `AddNamespace`: no parent for an empty parent name,
`NotFound` when `Get` of the parent fails. -/
def lookupParent (g : Graph) (orgId parentName : String) : Except Status (Option Namespace) :=
  if parentName ≠ "" then
    match Get g (MakeNamespaceId orgId parentName) with
    | .error _ => .error .notFound
    | .ok p => .ok (some p)
  else .ok none

/-- The handler `AddNamespace`: the store after the request and the status returned. The
outcome of the call to the seccomp profile service is the parameter `seccomp` (`none` when it
succeeds); the notification of the authorization service is not modelled, its error is logged
and ignored. -/
def AddNamespace (g : Graph) (req : AddNamespaceReq) (seccomp : Option Status) :
    Graph × Option Status :=
  match Get g (MakeNamespaceId req.OrgId req.Name) with
  | .ok _ => (g, some .alreadyExists)
  | .error _ =>
    match lookupParent g req.OrgId req.ParentName with
    | .error s => (g, some s)
    | .ok parent =>
      match addQuotas (NewNamespace req.OrgId req.Name req.ProfileVersion req.Labels)
          req.Quotas with
      | .error _ => (g, some .invalidArgument)
      | .ok ns =>
        match seccomp with
        | some s => (g, some s)
        | none =>
          match Add g ns parent with
          | (g', some e) => (g', some (.internal e))
          | (g', none) => (g', none)

/-- The identifier of a node when it is a string. -/
def stringId (n : Node) : Option String :=
  match assocGet n.props "id" with
  | some (.str s) => some s
  | _ => none

/-- No two nodes of the store carry the same identifier. -/
def idsUnique (g : Graph) : Prop := (g.nodes.filterMap stringId).Nodup

instance (g : Graph) : Decidable (idsUnique g) := by
  unfold idsUnique
  infer_instance

/-- The record of a node is consistent: when it has an org and a name, its identifier is the
namespace id made of them, as `addNamespaceCypher` writes it. -/
def consistentRecord (n : Node) : Prop :=
  match assocGet n.props "org_id", assocGet n.props "name" with
  | some (.str o), some (.str nm) => assocGet n.props "id" = some (.str (MakeNamespaceId o nm))
  | _, _ => True

instance (n : Node) : Decidable (consistentRecord n) := by
  unfold consistentRecord
  split <;> infer_instance

/-- Every namespace node of the store has a consistent record. -/
def recordsConsistent (g : Graph) : Prop :=
  ∀ n ∈ g.nodes, n.isNamespace = true → consistentRecord n

instance (g : Graph) : Decidable (recordsConsistent g) := by
  unfold recordsConsistent
  infer_instance

/-- The quota state a node of the hierarchy carries for the namespace node `m` of the store:
the total of `m`; for every supported kind with a stored total `t` the available quantity
`t - total_utilized` and the utilized quantity `t - (t - total_utilized)`, in `float64`
arithmetic, `total_utilized` being the `float64` sum of the totals of the direct children of
`m`; when `t` and the totals of the children are whole numbers, none negative, with `t` and the
sum of the children below `2 ^ 53`, the available quantity is `t` minus that sum and the
utilized quantity that sum; and as apps the records of the apps attached directly to `m`. -/
def resolvedFrom (g : Graph) (m : Node) (ns : Namespace) (apps : List App) : Prop :=
  m ∈ g.nodes ∧ m.isNamespace = true ∧
  assocGet m.props "id" = some (.str ns.GetId) ∧
  ns.resourceQuotas = readQuotaProps m.props ∧
  (∀ k ∈ SupportedResourceQuotas, ∀ t, assocGet m.props k = some (.num t) →
    mapGet ns.GetResourceQuotas k = t ∧
    mapGet ns.GetAvailable k = t - totalUtilized g k m ∧
    mapGet ns.GetUtilized k = t - (t - totalUtilized g k m)) ∧
  (∀ k ∈ SupportedResourceQuotas, ∀ (x : Int) (ys : List Int),
    assocGet m.props k = some (.num (Float64.ofInt x)) →
    utilizedList g k m = ys.map Float64.ofInt →
    0 ≤ x → x < 2 ^ 53 → (∀ y ∈ ys, 0 ≤ y) → ys.sum < 2 ^ 53 →
    mapGet ns.GetAvailable k = Float64.ofInt (x - ys.sum) ∧
    mapGet ns.GetUtilized k = Float64.ofInt ys.sum) ∧
  readApps (((childrenOf g m).filter (fun c => !c.isNamespace)).map (fun a => some a.props)) ns
    = .ok apps

/-- Every node of a tree, the root and every descendant, carries the quota state and the apps
of a namespace node of the store. -/
inductive AllResolved (g : Graph) : NamespaceTreeNode → Prop where
  | mk (ns : Namespace) (apps : List App) (children : List NamespaceTreeNode) (m : Node) :
      resolvedFrom g m ns apps → (∀ c ∈ children, AllResolved g c) →
      AllResolved g (.mk ns apps children)

/-- A property value is not a negative quantity: a string, or a finite number that is not
below zero. -/
def Value.nonNeg : Value → Bool
  | .num q => q.isFinite && decide (0 ≤ q)
  | .str _ => true

/-- Every quantity stored on a node of the store is a finite number that is not negative. -/
def storedNonNegative (g : Graph) : Prop :=
  ∀ n ∈ g.nodes, ∀ p ∈ n.props, p.2.nonNeg = true

instance (g : Graph) : Decidable (storedNonNegative g) := by
  unfold storedNonNegative
  infer_instance

/-- A request whose keys are property names and whose quantities are finite numbers: neither
not-a-number nor an infinity. -/
def finiteRequest (req : ResourceQuotas) : Prop :=
  ∀ rq ∈ req, propertyName rq.1 = true ∧ rq.2.isFinite = true

instance (req : ResourceQuotas) : Decidable (finiteRequest req) := by
  unfold finiteRequest
  infer_instance

/-- The states of the store reachable from the empty database through the methods of the
stores: `Add`, `AddApp`, `SetResourceQuotas` in a transaction of its own, each with any
arguments whose quotas are a `finiteRequest`, successful or not, and the two removals. -/
inductive Reachable : Graph → Prop where
  | empty : Reachable Graph.empty
  | add (g : Graph) (ns : Namespace) (parent : Option Namespace) :
      Reachable g → finiteRequest ns.GetResourceQuotas → Reachable (Add g ns parent).1
  | addApp (g : Graph) (app : App) :
      Reachable g → finiteRequest app.GetResourceQuotas → Reachable (AddApp g app).1
  | setQuotas (g : Graph) (entityId : String) (quotas : ResourceQuotas) :
      Reachable g → finiteRequest quotas → Reachable (SetResourceQuotasNil g entityId quotas).1
  | remove (g : Graph) (id : String) : Reachable g → Reachable (Remove g id).1
  | removeApp (g : Graph) (id : String) : Reachable g → Reachable (RemoveApp g id).1

/-- Rows of `(d:Namespace)<-[:CHILD]-(n)`: the child namespaces of the node `n`. -/
def namespaceChildren (g : Graph) (n : Node) : List Node :=
  (childrenOf g n).filter (fun c => c.isNamespace)

/-- The namespaces below `n` are fewer than `d` levels deep: following edges to child
namespaces from `n` ends after fewer than `d` steps on every path, so no cycle is below `n`. -/
def depthWithin (g : Graph) : Nat → Node → Bool
  | 0, _ => false
  | d + 1, n => (namespaceChildren g n).all (depthWithin g d)

/-- An edge ends in a namespace node. -/
def toNamespace (g : Graph) (e : Nat × Nat) : Bool :=
  match findNode g e.2 with
  | some c => c.isNamespace
  | none => false

/-- Every namespace has at most one incoming `CHILD` edge. -/
def singleParent (g : Graph) : Prop :=
  ((g.edges.filter (toNamespace g)).map Prod.snd).Nodup

instance (g : Graph) : Decidable (singleParent g) := by
  unfold singleParent
  infer_instance

/-- The namespace nodes below `n`, itself included, in the order of a depth-first walk, down to
`d` levels. -/
def subtreeNodes (g : Graph) : Nat → Node → List Node
  | 0, _ => []
  | d + 1, n => n :: ((namespaceChildren g n).map (subtreeNodes g d)).flatten

mutual
/-- The namespaces of the nodes of a tree: the node, then its subtrees in order. -/
def NamespaceTreeNode.namespaces : NamespaceTreeNode → List Namespace
  | .mk ns _ children => ns :: namespacesOfForest children
/-- The namespaces of the nodes of a list of trees. -/
def namespacesOfForest : List NamespaceTreeNode → List Namespace
  | [] => []
  | t :: ts => t.namespaces ++ namespacesOfForest ts
end



/-- The request of the handler `AddNamespace` for a namespace of the org `o`, without labels. -/
def demoReq (name parentName : String) (quotas : ResourceQuotas) : AddNamespaceReq :=
  { OrgId := "o", Name := name, ParentName := parentName, ProfileVersion := "v1",
    Labels := "null", Quotas := quotas }

/-- An app value as the handler `AddApp` builds it, with quotas. -/
def demoApp (nsName name : String) (quotas : ResourceQuotas) : App :=
  { NewApp (demoNamespace "o" nsName []) name "v1" with resourceQuotas := quotas }

/-- The run that builds `demoStore` from the empty database: the handler `AddNamespace` for
the root `o/default`, for `o/a` and `o/b` under it, then `Add` of the app store for
`o/a/web`. -/
def demoBuilt : Graph :=
  (AddApp
    (AddNamespace
      (AddNamespace
        (AddNamespace Graph.empty (demoReq "default" "" [("mem", 100), ("cpu", 8)]) none).1
        (demoReq "a" "default" [("mem", 40), ("cpu", 3)]) none).1
      (demoReq "b" "default" [("mem", 30), ("cpu", 2)]) none).1
    (demoApp "a" "web" [("mem", 10), ("cpu", 1)])).1

/-- A run from the empty store: `Add` of the root `o/r` with `2 ^ 53 + 2` mem, then `Add`
under it of `o/a` with `2 ^ 53` mem, of `o/b` with 1 mem and of `o/c` with 2 mem. The stores
after each step, with the error of the step. -/
def overRun1 : Graph × Option Err :=
  Add Graph.empty (demoNamespace "o" "r" [("mem", 9007199254740994)]) none

/-- Second step of the run: the child `o/a` with `2 ^ 53` mem. -/
def overRun2 : Graph × Option Err :=
  Add overRun1.1 (demoNamespace "o" "a" [("mem", 9007199254740992)])
    (some (demoNamespace "o" "r" []))

/-- Third step of the run: the child `o/b` with 1 mem. -/
def overRun3 : Graph × Option Err :=
  Add overRun2.1 (demoNamespace "o" "b" [("mem", 1)]) (some (demoNamespace "o" "r" []))

/-- Fourth step of the run: the child `o/c` with 2 mem. -/
def overRun4 : Graph × Option Err :=
  Add overRun3.1 (demoNamespace "o" "c" [("mem", 2)]) (some (demoNamespace "o" "r" []))

/-- A run from the empty store: `Add` of the root `o/r` with a mem total that is not-a-number,
then `SetResourceQuotas` of the root to -5 mem. The stores after each step, with the error of
the step. -/
def nanRun1 : Graph × Option Err :=
  Add Graph.empty (demoNamespace "o" "r" [("mem", Float64.nan)]) none

/-- Second step of the run: -5 mem for the root. -/
def nanRun2 : Graph × Option Err := SetResourceQuotasNil nanRun1.1 "o/r" [("mem", -5)]

/-- A run from the empty store: `Add` of the root `o/p` with `2 ^ 53 + 4` cpu, `Add` under it
of `o/e` and of `o/f` with 1 cpu each, then `SetResourceQuotas` of `o/e` to `2 ^ 53 + 4` cpu.
The stores after each step, with the error of the step. -/
def sumRun1 : Graph × Option Err :=
  Add Graph.empty (demoNamespace "o" "p" [("cpu", 9007199254740996)]) none

/-- Second step of the run: the child `o/e` with 1 cpu. -/
def sumRun2 : Graph × Option Err :=
  Add sumRun1.1 (demoNamespace "o" "e" [("cpu", 1)]) (some (demoNamespace "o" "p" []))

/-- Third step of the run: the child `o/f` with 1 cpu. -/
def sumRun3 : Graph × Option Err :=
  Add sumRun2.1 (demoNamespace "o" "f" [("cpu", 1)]) (some (demoNamespace "o" "p" []))

/-- Fourth step of the run: `2 ^ 53 + 4` cpu for `o/e`. -/
def sumRun4 : Graph × Option Err :=
  SetResourceQuotasNil sumRun3.1 "o/e" [("cpu", 9007199254740996)]

/-- The run that builds `treeStore` from the empty database: the handler `AddNamespace` for
the root `o/default` with 100 mem, then for `o/a` with 40 mem and `o/b` with 30 mem under it. -/
def treeBuilt : Graph :=
  (AddNamespace
    (AddNamespace
      (AddNamespace Graph.empty (demoReq "default" "" [("mem", 100)]) none).1
      (demoReq "a" "default" [("mem", 40)]) none).1
    (demoReq "b" "default" [("mem", 30)]) none).1

/-- A run of the handlers from `demoStore`: `AddNamespace` for `o/c` under `o/a`, then
`SetNamespaceResources` for `o/a` with the request `id: 0`, then `AddNamespace` for `o/a` under
`o/default` again, with 5 mem. The stores after each step, with the status of the step. -/
def shadowRun1 : Graph × Option Status :=
  AddNamespace demoStore (demoReq "c" "a" [("mem", 5), ("cpu", 1)]) none

/-- Second step of the run: the request `id: 0` for `o/a`. -/
def shadowRun2 : Graph × Option Status :=
  SetNamespaceResources shadowRun1.1 "o" "a" [("id", 0)]

/-- Third step of the run: `o/a` is added again. -/
def shadowRun3 : Graph × Option Status :=
  AddNamespace shadowRun2.1 (demoReq "a" "default" [("mem", 5)]) none

/-- The quota of a node for a resource as a whole number: the stored quantity rounded down,
zero when the node has no number for the resource. -/
def wholeQuota (resource : String) (n : Node) : Int := (quotaOf resource n).toInt

/-- The quotas for a resource of the node `p` and of its direct children are whole numbers from
0 to below `2 ^ 53` (a node without the resource counting for 0), and the quotas of the children
sum to less than `2 ^ 53`: the range in which the `float64` arithmetic of the admission is
exact. -/
def wholeTotals (g : Graph) (resource : String) (p : Node) : Prop :=
  (∀ c ∈ p :: childrenOf g p, (quotaOf resource c).isWhole = true) ∧
  ((childrenOf g p).map (wholeQuota resource)).sum < 9007199254740992

instance (g : Graph) (resource : String) (p : Node) : Decidable (wholeTotals g resource p) := by
  unfold wholeTotals
  infer_instance

/-- The quantity a request asks for a resource is a whole number from 0 to below `2 ^ 53`. -/
def wholeRequest (req : ResourceQuotas) (resource : String) : Prop :=
  ∀ rq ∈ req, rq.1 = resource → rq.2.isWhole = true

instance (req : ResourceQuotas) (resource : String) : Decidable (wholeRequest req resource) := by
  unfold wholeRequest
  infer_instance

/-- The exact value of the quota of a node for a resource, in units of `2 ^ (-1074)`: zero
when the node has no number for the resource. -/
def exactQuota (resource : String) (n : Node) : Int := (quotaOf resource n).scaled

/-- The containment inequality for the entity `e` under the parent `p` and a resource, over the
exact values of the stored quotas: the quotas of `e`, of `p` and of the other direct children of
`p` are finite numbers (quotas that are absent read as 0), and the total of `e` is at most the
total of `p` minus the totals of the other direct children of `p`. -/
def contained (g : Graph) (p e : Node) (resource : String) : Prop :=
  (quotaOf resource e).isFinite = true ∧ (quotaOf resource p).isFinite = true ∧
  (∀ c ∈ otherChildren g p e, (quotaOf resource c).isFinite = true) ∧
  exactQuota resource e
    ≤ exactQuota resource p - ((otherChildren g p e).map (exactQuota resource)).sum

instance (g : Graph) (p e : Node) (resource : String) : Decidable (contained g p e resource) := by
  unfold contained
  infer_instance

/-- A step after the run `overRun3`, in which the root `o/r` holds `2 ^ 53 + 2` mem and its
children `o/a` and `o/b` hold `2 ^ 53` and 1 mem: `SetResourceQuotas` of `o/b` to 3 mem. -/
def overSet : Graph × Option Err := SetResourceQuotasNil overRun3.1 "o/b" [("mem", 3)]
/-! # Properties -/

/-! ## Arithmetic of `float64` -/

theorem natAbs_lt_of_bounds (a : Int) (B : Nat) (h0 : 0 ≤ a) (h1 : a < (B : Int)) :
    a.natAbs < B := by
  omega

theorem two53_cast : ((2 ^ 53 : Nat) : Int) = (2 : Int) ^ 53 := by
  norm_cast

theorem natAbs_lt_two53 (a : Int) (h1 : -(2 : Int) ^ 53 < a) (h2 : a < 2 ^ 53) :
    a.natAbs < 2 ^ 53 := by
  rw [← two53_cast] at h1 h2
  omega

namespace Float64

theorem size_shiftRight (a w : Nat) (h : a >>> w ≠ 0) : Nat.size a = Nat.size (a >>> w) + w := by
  rw [Nat.shiftRight_eq_div_pow] at h ⊢
  have hpos : 0 < 2 ^ w := Nat.two_pow_pos _
  apply Nat.le_antisymm
  · rw [Nat.size_le, pow_add]
    exact (Nat.div_lt_iff_lt_mul hpos).mp (Nat.lt_size_self _)
  · have hb : 0 < Nat.size (a / 2 ^ w) := Nat.size_pos.mpr (Nat.pos_of_ne_zero h)
    have h1 : Nat.size (a / 2 ^ w) - 1 < Nat.size (a / 2 ^ w) := by omega
    rw [Nat.lt_size] at h1
    have h2 : 2 ^ (Nat.size (a / 2 ^ w) - 1) * 2 ^ w ≤ a :=
      (Nat.le_div_iff_mul_le hpos).mp h1
    rw [← pow_add] at h2
    have h3 : Nat.size (a / 2 ^ w) + w - 1 < Nat.size a := by
      rw [Nat.lt_size]
      have : Nat.size (a / 2 ^ w) - 1 + w = Nat.size (a / 2 ^ w) + w - 1 := by omega
      rw [← this]
      exact h2
    omega

theorem lt_of_shiftRight_eq_zero (a w : Nat) (h : a >>> w = 0) : a < 2 ^ w := by
  rw [Nat.shiftRight_eq_div_pow] at h
  exact (Nat.div_eq_zero_iff (Nat.two_pow_pos _)).mp h

theorem bitsBelow_eq (k : Nat) : ∀ a, a < 2 ^ 2 ^ k → bitsBelow k a = Nat.size a := by
  induction k with
  | zero =>
    intro a ha
    simp only [pow_zero, pow_one] at ha
    have : a = 0 ∨ a = 1 := by omega
    rcases this with h | h <;> subst h <;> simp [bitsBelow]
  | succ k ih =>
    intro a ha
    simp only [bitsBelow]
    by_cases h0 : a >>> (2 ^ k) = 0
    · rw [if_pos h0]
      apply ih
      rw [Nat.shiftRight_eq_div_pow] at h0
      exact (Nat.div_eq_zero_iff (Nat.two_pow_pos _)).mp h0
    · rw [if_neg h0, size_shiftRight a (2 ^ k) h0]
      congr 1
      apply ih
      rw [Nat.shiftRight_eq_div_pow]
      apply (Nat.div_lt_iff_lt_mul (Nat.two_pow_pos _)).mpr
      rw [← pow_add]
      have : 2 ^ k + 2 ^ k = 2 ^ (k + 1) := by rw [pow_succ]; omega
      rw [this]
      exact ha

theorem bitsAux_eq : ∀ (fuel a : Nat), a ≤ fuel → bitsAux fuel a = Nat.size a := by
  intro fuel
  induction fuel with
  | zero =>
    intro a ha
    have : a = 0 := by omega
    subst this
    simp [bitsAux]
  | succ f ih =>
    intro a ha
    simp only [bitsAux]
    by_cases h0 : a = 0
    · subst h0
      simp
    · rw [if_neg h0, ih (a / 2) (by omega)]
      have hh : a >>> 1 ≠ 0 ∨ a = 1 := by
        rw [Nat.shiftRight_eq_div_pow]
        simp only [pow_one]
        omega
      rcases hh with h | h
      · have := size_shiftRight a 1 h
        rw [Nat.shiftRight_eq_div_pow, pow_one] at this
        exact this.symm
      · subst h
        simp

/-- The number of binary digits, as `Nat.size` counts them. -/
theorem bitLength_eq (a : Nat) : bitLength a = Nat.size a := by
  unfold bitLength
  by_cases h : a >>> 4096 = 0
  · rw [if_pos h]
    have h' : a >>> (2 ^ 12) = 0 := h
    exact bitsBelow_eq 12 a (lt_of_shiftRight_eq_zero a (2 ^ 12) h')
  · rw [if_neg h]
    exact bitsAux_eq a a (Nat.le_refl a)


/-- The two candidates of the rounding: the multiple of `2 ^ s` below `a`, or the next one when
`a` is not itself a multiple, with `s` the number of digits beyond 53. -/
theorem roundMag_cases (a : Nat) :
    roundMag a = a / 2 ^ (Nat.size a - 53) * 2 ^ (Nat.size a - 53) ∨
    (roundMag a = (a / 2 ^ (Nat.size a - 53) + 1) * 2 ^ (Nat.size a - 53) ∧
      a % 2 ^ (Nat.size a - 53) ≠ 0) := by
  cases a with
  | zero =>
    left
    simp [roundMag]
  | succ n =>
  simp only [roundMag, bitLength_eq, Nat.shiftRight_eq_div_pow, Nat.shiftLeft_eq, Nat.one_mul]
  generalize n + 1 = a
  generalize Nat.size a - 53 = s
  have hpos : 0 < 2 ^ s := Nat.two_pow_pos s
  by_cases h1 : 2 * (a - a / 2 ^ s * 2 ^ s) < 2 ^ s
  · rw [if_pos h1]
    exact Or.inl rfl
  · rw [if_neg h1]
    by_cases h2 : 2 * (a - a / 2 ^ s * 2 ^ s) = 2 ^ s ∧ a / 2 ^ s % 2 = 0
    · rw [if_pos h2]
      exact Or.inl rfl
    · rw [if_neg h2]
      refine Or.inr ⟨rfl, ?_⟩
      intro hmod
      apply h1
      have hdm := Nat.div_add_mod a (2 ^ s)
      rw [hmod, Nat.add_zero, Nat.mul_comm] at hdm
      rw [hdm, Nat.sub_self]
      omega

theorem roundMag_dvd (a : Nat) : 2 ^ (Nat.size a - 53) ∣ roundMag a := by
  rcases roundMag_cases a with h | ⟨h, _⟩ <;> rw [h] <;> exact Dvd.intro_left _ rfl

theorem roundMag_of_dvd (a : Nat) (h : 2 ^ (Nat.size a - 53) ∣ a) : roundMag a = a := by
  rcases roundMag_cases a with h1 | ⟨_, h2⟩
  · rw [h1]
    exact Nat.div_mul_cancel h
  · exact absurd (Nat.mod_eq_zero_of_dvd h) h2

/-- Rounding does not pass a number of the type: what is at most `t` rounds to at most `t`. -/
theorem roundMag_le (a t : Nat) (hat : a ≤ t) (ht : roundMag t = t) : roundMag a ≤ t := by
  rcases roundMag_cases a with h | ⟨h, hmod⟩
  · rw [h]
    exact Nat.le_trans (Nat.div_mul_le_self a _) hat
  · rw [h]
    have hs : Nat.size a - 53 ≤ Nat.size t - 53 := Nat.sub_le_sub_right (Nat.size_le_size hat) 53
    have hdt : 2 ^ (Nat.size a - 53) ∣ t := by
      have h1 := roundMag_dvd t
      rw [ht] at h1
      exact Nat.dvd_trans (Nat.pow_dvd_pow 2 hs) h1
    generalize Nat.size a - 53 = s at hdt hmod ⊢
    obtain ⟨m, hm⟩ := hdt
    have hpos : 0 < 2 ^ s := Nat.two_pow_pos s
    rw [hm, Nat.mul_comm (2 ^ s) m]
    apply Nat.mul_le_mul_right
    by_contra hc
    have hle : m ≤ a / 2 ^ s := by omega
    have h1 : m * 2 ^ s ≤ a / 2 ^ s * 2 ^ s := Nat.mul_le_mul_right _ hle
    have h2 : a / 2 ^ s * 2 ^ s ≤ a := Nat.div_mul_le_self a _
    have h3 : a = m * 2 ^ s := by
      rw [hm, Nat.mul_comm (2 ^ s) m] at hat
      omega
    apply hmod
    rw [h3]
    exact Nat.mul_mod_left m (2 ^ s)

/-- A number of at most 53 digits, shifted: it is its own rounding. -/
theorem roundMag_mul_pow (a w : Nat) (ha : a < 2 ^ 53) : roundMag (a * 2 ^ w) = a * 2 ^ w := by
  apply roundMag_of_dvd
  have hsize : Nat.size (a * 2 ^ w) ≤ 53 + w := by
    rw [Nat.size_le, pow_add]
    exact Nat.mul_lt_mul_of_pos_right ha (Nat.two_pow_pos w)
  have hs : Nat.size (a * 2 ^ w) - 53 ≤ w := by omega
  exact Nat.dvd_trans (Nat.pow_dvd_pow 2 hs) (Dvd.intro_left a rfl)

theorem unit_eq : unit = 2 ^ minExp := by
  unfold unit
  rw [Nat.shiftLeft_eq, Nat.one_mul]

theorem huge_eq : huge = 2 ^ maxExp * unit := by
  unfold huge
  rw [unit_eq, Nat.shiftLeft_eq, Nat.one_mul, ← pow_add]

theorem unit_pos : 0 < unit := by
  rw [unit_eq]
  exact Nat.two_pow_pos _

theorem huge_pos : 0 < huge := by
  rw [huge_eq]
  exact Nat.mul_pos (Nat.two_pow_pos _) unit_pos

theorem roundMag_zero : roundMag 0 = 0 := rfl


theorem zero_eq : (0 : Float64) = .fin 0 := by decide

theorem add_def (a b : Float64) : a + b = add a b := rfl

theorem sub_def (a b : Float64) : a - b = add a (neg b) := rfl

theorem lt_def (a b : Float64) : a < b ↔ lt a b = true := Iff.rfl

theorem le_def (a b : Float64) : a ≤ b ↔ le a b = true := Iff.rfl

theorem fin_lt_fin (a b : Int) : (fin a : Float64) < fin b ↔ a < b := by
  rw [lt_def]
  simp [lt]

theorem fin_le_fin (a b : Int) : (fin a : Float64) ≤ fin b ↔ a ≤ b := by
  rw [le_def]
  simp [le]

/-- The test `a > b` of the code fails exactly when `a <= b`, for operands that are numbers or
infinities; when one of them is not a number both comparisons are false. -/
theorem not_gt_iff_le (a b : Float64) (ha : a ≠ nan) (hb : b ≠ nan) :
    ¬ (a > b) ↔ a ≤ b := by
  show ¬ (lt b a = true) ↔ le a b = true
  cases a with
  | nan => exact absurd rfl ha
  | inf s =>
    cases b with
    | nan => exact absurd rfl hb
    | inf s' => cases s <;> cases s' <;> simp [lt, le]
    | fin m => cases s <;> simp [lt, le]
  | fin n =>
    cases b with
    | nan => exact absurd rfl hb
    | inf s' => cases s' <;> simp [lt, le]
    | fin m => simp [lt, le]

/-- A number that is its own rounding and below the overflow threshold is what `ofScaled`
returns for it. -/
theorem ofScaled_exact (z : Int) (h1 : roundMag z.natAbs = z.natAbs) (h2 : z.natAbs < huge) :
    ofScaled z = .fin z := by
  unfold ofScaled
  rw [h1, if_neg (by omega)]
  congr 1
  by_cases hz : z < 0
  · rw [if_pos hz]
    omega
  · rw [if_neg hz]
    omega

theorem natAbs_mul_unit (z : Int) : (z * (unit : Int)).natAbs = z.natAbs * unit := by
  rw [Int.natAbs_mul, Int.natAbs_ofNat]

theorem small_lt_huge (a : Nat) (ha : a < 2 ^ 53) : a * unit < huge := by
  rw [huge_eq]
  apply Nat.mul_lt_mul_of_pos_right _ unit_pos
  exact Nat.lt_of_lt_of_le ha (Nat.pow_le_pow_right (by decide) (by decide))

/-- An integer of magnitude below `2 ^ 53` is a number of the type. -/
theorem ofInt_small (z : Int) (h : z.natAbs < 2 ^ 53) : ofInt z = .fin (z * (unit : Int)) := by
  unfold ofInt
  apply ofScaled_exact
  · rw [natAbs_mul_unit, unit_eq]
    exact roundMag_mul_pow _ _ h
  · rw [natAbs_mul_unit]
    exact small_lt_huge _ h

/-- The sum of two integers of magnitude below `2 ^ 53` is their exact sum, rounded. -/
theorem ofInt_add (a b : Int) (ha : a.natAbs < 2 ^ 53) (hb : b.natAbs < 2 ^ 53) :
    ofInt a + ofInt b = ofInt (a + b) := by
  rw [ofInt_small a ha, ofInt_small b hb, add_def]
  show ofScaled (a * (unit : Int) + b * (unit : Int)) = ofScaled ((a + b) * (unit : Int))
  rw [Int.add_mul]

theorem ofInt_sub (a b : Int) (ha : a.natAbs < 2 ^ 53) (hb : b.natAbs < 2 ^ 53) :
    ofInt a - ofInt b = ofInt (a - b) := by
  rw [ofInt_small a ha, ofInt_small b hb, sub_def]
  show ofScaled (a * (unit : Int) + -(b * (unit : Int))) = ofScaled ((a - b) * (unit : Int))
  rw [Int.sub_mul, Int.sub_eq_add_neg]

theorem ofInt_lt (a b : Int) (ha : a.natAbs < 2 ^ 53) (hb : b.natAbs < 2 ^ 53) :
    ofInt a < ofInt b ↔ a < b := by
  rw [ofInt_small a ha, ofInt_small b hb, fin_lt_fin]
  have hu : (0 : Int) < (unit : Int) := by exact_mod_cast unit_pos
  constructor
  · intro h
    exact lt_of_mul_lt_mul_right h (le_of_lt hu)
  · intro h
    exact mul_lt_mul_of_pos_right h hu

theorem isValue_zero : isValue 0 = true := by decide

theorem ofScaled_of_isFinite (n : Int) (h : isFinite (.fin n) = true) : ofScaled n = .fin n := by
  simp only [isFinite, Bool.and_eq_true, decide_eq_true_eq] at h
  exact ofScaled_exact n h.1 h.2

/-- Nothing is rounded when zero is subtracted from a value of the type. -/
theorem sub_zero_of_isValue (a : Float64) (h : isValue a = true) : a - 0 = a := by
  rw [sub_def, zero_eq]
  cases a with
  | nan => rfl
  | inf s => rfl
  | fin n =>
    show ofScaled (n + -0) = fin n
    rw [Int.neg_zero, Int.add_zero]
    exact ofScaled_of_isFinite n h

theorem zero_sub_zero : (0 : Float64) - 0 = 0 := by decide

/-- The values that are not below zero: the positive infinity and the numbers that are not
negative. -/
theorem zero_le_iff (x : Float64) :
    (0 : Float64) ≤ x ↔ x = inf false ∨ ∃ n : Int, x = fin n ∧ 0 ≤ n := by
  rw [le_def, zero_eq]
  cases x with
  | nan => simp [le]
  | inf s => cases s <;> simp [le]
  | fin n => simp [le]

theorem zero_le_fin (n : Int) : (0 : Float64) ≤ fin n ↔ 0 ≤ n := by
  rw [zero_eq, fin_le_fin]

theorem zero_le_inf : (0 : Float64) ≤ inf false := by decide

theorem ofScaled_nonneg (z : Int) (hz : 0 ≤ z) : (0 : Float64) ≤ ofScaled z := by
  unfold ofScaled
  have hneg : ¬ z < 0 := not_lt.mpr hz
  by_cases h : huge ≤ roundMag z.natAbs
  · rw [if_pos h]
    simp only [hneg, decide_False]
    exact zero_le_inf
  · rw [if_neg h, if_neg hneg, zero_le_fin]
    exact Int.ofNat_nonneg _

/-- The rounding of a number that is not positive: the negative infinity or a number that is
not positive. -/
theorem ofScaled_nonpos (z : Int) (hz : z ≤ 0) :
    ofScaled z = inf true ∨ ∃ r : Int, ofScaled z = fin r ∧ r ≤ 0 := by
  unfold ofScaled
  by_cases h : huge ≤ roundMag z.natAbs
  · rw [if_pos h]
    by_cases h0 : z < 0
    · left
      simp [h0]
    · exfalso
      have hz0 : z = 0 := le_antisymm hz (not_lt.mp h0)
      rw [hz0] at h
      simp only [Int.natAbs_zero, roundMag_zero] at h
      exact absurd h (Nat.not_le.mpr huge_pos)
  · rw [if_neg h]
    right
    by_cases h0 : z < 0
    · rw [if_pos h0]
      exact ⟨_, rfl, Int.neg_nonpos_of_nonneg (Int.ofNat_nonneg _)⟩
    · rw [if_neg h0]
      have hz0 : z = 0 := le_antisymm hz (not_lt.mp h0)
      refine ⟨_, rfl, ?_⟩
      rw [hz0]
      simp [roundMag_zero]

/-- The rounding of a number between zero and a finite number of the type is between them. -/
theorem ofScaled_le (z t : Int) (hz : 0 ≤ z) (hzt : z ≤ t) (ht : isFinite (fin t) = true) :
    ∃ r : Int, ofScaled z = fin r ∧ 0 ≤ r ∧ r ≤ t := by
  simp only [isFinite, Bool.and_eq_true, decide_eq_true_eq] at ht
  have ht0 : 0 ≤ t := le_trans hz hzt
  have hle : z.natAbs ≤ t.natAbs := by omega
  have hr := roundMag_le z.natAbs t.natAbs hle ht.1
  unfold ofScaled
  rw [if_neg (by omega), if_neg (not_lt.mpr hz)]
  refine ⟨_, rfl, Int.ofNat_nonneg _, ?_⟩
  omega

theorem add_nonneg (a b : Float64) (ha : (0 : Float64) ≤ a) (hb : (0 : Float64) ≤ b) :
    (0 : Float64) ≤ a + b := by
  rw [zero_le_iff] at ha hb
  rcases ha with ha | ⟨n, ha, hn⟩ <;> rcases hb with hb | ⟨m, hb, hm⟩ <;> subst ha <;> subst hb
  · exact zero_le_inf
  · exact zero_le_inf
  · exact zero_le_inf
  · exact ofScaled_nonneg (n + m) (Int.add_nonneg hn hm)

theorem foldl_add_nonneg (l : List Float64) (acc : Float64) (hacc : (0 : Float64) ≤ acc)
    (hl : ∀ x ∈ l, (0 : Float64) ≤ x) :
    (0 : Float64) ≤ l.foldl (fun a q => a + q) acc := by
  induction l generalizing acc with
  | nil => exact hacc
  | cons x rest ih =>
    simp only [List.foldl_cons]
    exact ih _ (add_nonneg acc x hacc (hl x (List.mem_cons_self _ _)))
      (fun y hy => hl y (List.mem_cons_of_mem _ hy))

/-- For a finite total `t` that is not negative and a sum `S` that is not negative, the
quantity `t - (t - S)` is not negative and is a number or the positive infinity. -/
theorem sub_sub_nonneg (t S : Float64) (ht : isFinite t = true) (ht0 : (0 : Float64) ≤ t)
    (hS : (0 : Float64) ≤ S) : (0 : Float64) ≤ t - (t - S) := by
  cases t with
  | nan => cases ht
  | inf s => cases ht
  | fin tn =>
    rw [zero_le_fin] at ht0
    rw [zero_le_iff] at hS
    rcases hS with hS | ⟨s, hS, hs⟩
    · subst hS
      exact zero_le_inf
    · subst hS
      have hA : (fin tn - fin s : Float64) = ofScaled (tn + -s) := rfl
      rw [hA]
      by_cases hts : s ≤ tn
      · obtain ⟨r, hr, hr0, hrt⟩ := ofScaled_le (tn + -s) tn (by omega) (by omega) ht
        rw [hr]
        exact ofScaled_nonneg (tn + -r) (by omega)
      · rcases ofScaled_nonpos (tn + -s) (by omega) with hr | ⟨r, hr, hr0⟩
        · rw [hr]
          exact zero_le_inf
        · rw [hr]
          exact ofScaled_nonneg (tn + -r) (by omega)

/-- A finite quantity that is not below a quantity that is not negative is not negative. -/
theorem nonneg_of_not_gt (q U : Float64) (hq : isFinite q = true) (hU : (0 : Float64) ≤ U)
    (h : ¬ (U > q)) : (0 : Float64) ≤ q := by
  cases q with
  | nan => cases hq
  | inf s => cases hq
  | fin r =>
    rw [zero_le_iff] at hU
    rw [zero_le_fin]
    rcases hU with hU | ⟨u, hU, hu⟩
    · subst hU
      exact absurd (show (fin r : Float64) < inf false from rfl) h
    · subst hU
      have : ¬ (r < u) := fun hlt => h ((fin_lt_fin r u).mpr hlt)
      omega

theorem not_lt_zero_of_nonneg (q : Float64) (hq : (0 : Float64) ≤ q) : ¬ (q < 0) := by
  rw [zero_le_iff] at hq
  rw [zero_eq]
  rcases hq with hq | ⟨n, hq, hn⟩
  · subst hq
    exact fun h => by cases h
  · subst hq
    rw [fin_lt_fin]
    omega

theorem two53_lit : (9007199254740992 : Int) = 2 ^ 53 := by norm_num

theorem unit_int_pos : (0 : Int) < (unit : Int) := by
  exact_mod_cast unit_pos

/-- A whole number of the range is the `float64` of its integer. -/
theorem isWhole_spec (q : Float64) (h : isWhole q = true) :
    0 ≤ toInt q ∧ toInt q < 2 ^ 53 ∧ q = ofInt (toInt q) := by
  cases q with
  | nan => cases h
  | inf s => cases h
  | fin n =>
    simp only [isWhole, Bool.and_eq_true, decide_eq_true_eq] at h
    obtain ⟨⟨h0, hmod⟩, hlt⟩ := h
    have hpos := unit_int_pos
    have hdiv : 0 ≤ n / (unit : Int) := Int.ediv_nonneg h0 (le_of_lt hpos)
    rw [two53_lit] at hlt
    refine ⟨hdiv, hlt, ?_⟩
    show fin n = ofInt (n / (unit : Int))
    have hbound : (n / (unit : Int)).natAbs < 2 ^ 53 := by
      have hlt' := hlt
      rw [← two53_cast] at hlt'
      exact natAbs_lt_of_bounds _ _ hdiv hlt'
    rw [ofInt_small _ hbound, Int.ediv_mul_cancel (Int.dvd_of_emod_eq_zero hmod)]

theorem toInt_zero : toInt 0 = 0 := by decide

theorem isFinite_ofInt (z : Int) (h : z.natAbs < 2 ^ 53) : isFinite (ofInt z) = true := by
  rw [ofInt_small z h]
  simp only [isFinite, Bool.and_eq_true, decide_eq_true_eq]
  rw [natAbs_mul_unit, unit_eq]
  refine ⟨roundMag_mul_pow _ _ h, ?_⟩
  rw [← unit_eq]
  exact small_lt_huge _ h

/-- A whole number of the range is a finite number, and its exact value is the whole number
times the unit. -/
theorem isWhole_scaled (q : Float64) (h : isWhole q = true) :
    isFinite q = true ∧ scaled q = toInt q * (unit : Int) := by
  obtain ⟨h0, h1, heq⟩ := isWhole_spec q h
  have hb : (toInt q).natAbs < 2 ^ 53 := natAbs_lt_two53 _ (by linarith) h1
  constructor
  · rw [heq]
    exact isFinite_ofInt _ hb
  · conv_lhs => rw [heq, ofInt_small _ hb]
    rfl

end Float64

/-- The values of a list of whole numbers, none negative, added from the left onto a whole
number: while the sums stay below `2 ^ 53` nothing is rounded. -/
theorem foldl_add_ofInt (ys : List Int) (acc : Int) (hacc : 0 ≤ acc)
    (hy : ∀ y ∈ ys, 0 ≤ y) (hs : acc + ys.sum < 2 ^ 53) :
    (ys.map Float64.ofInt).foldl (fun a q => a + q) (Float64.ofInt acc)
      = Float64.ofInt (acc + ys.sum) := by
  induction ys generalizing acc with
  | nil => simp
  | cons y rest ih =>
    have hy0 : 0 ≤ y := hy y (by simp)
    have hrest : ∀ z ∈ rest, 0 ≤ z := fun z hz => hy z (List.mem_cons_of_mem _ hz)
    have hsum : 0 ≤ rest.sum := List.sum_nonneg hrest
    simp only [List.sum_cons] at hs
    simp only [List.map_cons, List.foldl_cons, List.sum_cons]
    have hs' := hs
    rw [← two53_cast] at hs'
    have h1 : acc.natAbs < 2 ^ 53 :=
      natAbs_lt_of_bounds acc _ hacc (lt_of_le_of_lt (by linarith) hs')
    have h2 : y.natAbs < 2 ^ 53 :=
      natAbs_lt_of_bounds y _ hy0 (lt_of_le_of_lt (by linarith) hs')
    rw [Float64.ofInt_add acc y h1 h2, ih (acc + y) (by linarith) hrest (by linarith)]
    congr 1
    ring

/-! ## Association lists -/

theorem assocGet_assocSet_same {β : Type} (m : List (String × β)) (k : String) (v : β) :
    assocGet (assocSet m k v) k = some v := by
  induction m with
  | nil => simp [assocSet, assocGet]
  | cons kv rest ih =>
    obtain ⟨k', v'⟩ := kv
    by_cases h : k' = k
    · simp [assocSet, assocGet, h]
    · simp [assocSet, assocGet, h, ih]

theorem assocGet_assocSet_other {β : Type} (m : List (String × β)) (k k' : String) (v : β)
    (h : k ≠ k') : assocGet (assocSet m k v) k' = assocGet m k' := by
  induction m with
  | nil => simp [assocSet, assocGet, h]
  | cons kv rest ih =>
    obtain ⟨k₁, v₁⟩ := kv
    by_cases h₁ : k₁ = k
    · subst h₁
      simp [assocSet, assocGet, h]
    · by_cases h₂ : k₁ = k'
      · subst h₂
        simp [assocSet, assocGet, h₁]
      · simp [assocSet, assocGet, h₁, h₂, ih]

theorem mapGet_mapSet_same (m : ResourceQuotas) (k : String) (v : Float64) :
    mapGet (mapSet m k v) k = v := by
  simp [mapGet, mapSet, assocGet_assocSet_same]

theorem mapGet_mapSet_other (m : ResourceQuotas) (k k' : String) (v : Float64) (h : k ≠ k') :
    mapGet (mapSet m k v) k' = mapGet m k' := by
  simp [mapGet, mapSet, assocGet_assocSet_other _ _ _ _ h]

theorem mapGet_nil (k : String) : mapGet [] k = 0 := rfl

theorem assocGet_eq_none_of_not_mem {β : Type} (m : List (String × β)) (k : String)
    (h : k ∉ m.map Prod.fst) : assocGet m k = none := by
  induction m with
  | nil => rfl
  | cons kv rest ih =>
    obtain ⟨k', v'⟩ := kv
    simp only [List.map_cons, List.mem_cons, not_or] at h
    have hk : ¬ k' = k := fun e => h.1 e.symm
    simp [assocGet, hk, ih h.2]

/-! ## The reads of the quota store -/

theorem quotaOf_eq (resource : String) (n : Node) :
    quotaOf resource n = quotaOfProps n.props resource := rfl

theorem readQuota_foldl (properties : Props) (l : List String) (acc : ResourceQuotas)
    (r : String) :
    mapGet (l.foldl
      (fun quotas resourceName =>
        match assocGet properties resourceName with
        | some (.num quota) => mapSet quotas resourceName quota
        | _ => quotas) acc) r
      = if r ∈ l then
          (match assocGet properties r with
           | some (.num q) => q
           | _ => mapGet acc r)
        else mapGet acc r := by
  induction l generalizing acc with
  | nil => simp
  | cons x l ih =>
    simp only [List.foldl_cons, List.mem_cons]
    rw [ih]
    by_cases hx : x = r
    · subst hx
      cases hv : assocGet properties x with
      | none => simp
      | some v =>
        cases v with
        | str s => simp
        | num q => simp [mapGet_mapSet_same]
    · have hx' : ¬ r = x := fun e => hx e.symm
      cases hv : assocGet properties x with
      | none => simp [hx']
      | some v =>
        cases v with
        | str s => simp [hx']
        | num q => simp [hx', mapGet_mapSet_other _ _ _ _ hx]

/-- What `readQuotas` reads for a resource: the stored quota for a supported resource, nothing
for any other. -/
theorem mapGet_readQuotaProps (properties : Props) (r : String) :
    mapGet (readQuotaProps properties) r
      = if r ∈ SupportedResourceQuotas then quotaOfProps properties r else 0 := by
  unfold readQuotaProps
  rw [readQuota_foldl]
  unfold quotaOfProps
  by_cases h : r ∈ SupportedResourceQuotas
  · simp only [h, if_true, mapGet_nil]
  · simp [h, mapGet_nil]

theorem availableStep_ok (g : Graph) (id : String) (n : Node) (rest : List Node)
    (hm : matchEntity g id = n :: rest) (acc acc' : ResourceQuotas) (r : String)
    (h : availableStep g id acc r = .ok acc') :
    acc' = match availableValue g r n with
           | some a => mapSet acc r a
           | none => acc := by
  unfold availableStep getAvailableResourcesCypher at h
  rw [hm] at h
  by_cases hill :
      ((n :: rest).any fun n => illTyped r n || (childrenOf g n).any (illTyped r)) = true
  · rw [if_pos hill] at h
    simp at h
  · rw [if_neg hill] at h
    simp only [List.map_cons] at h
    cases hv : availableValue g r n with
    | none =>
      rw [hv] at h
      simp only [Except.ok.injEq] at h
      exact h.symm
    | some a =>
      rw [hv] at h
      simp only [Except.ok.injEq] at h
      exact h.symm

theorem available_foldlM (g : Graph) (id : String) (n : Node) (rest : List Node)
    (hm : matchEntity g id = n :: rest) (l : List String) (acc av : ResourceQuotas)
    (h : l.foldlM (availableStep g id) acc = .ok av) (r : String) :
    mapGet av r = if r ∈ l then
        (match availableValue g r n with
         | some a => a
         | none => mapGet acc r)
      else mapGet acc r := by
  induction l generalizing acc with
  | nil =>
    simp only [List.foldlM_nil] at h
    cases h
    simp
  | cons x l ih =>
    simp only [List.foldlM_cons] at h
    cases hs : availableStep g id acc x with
    | error e =>
      rw [hs] at h
      cases h
    | ok acc' =>
      rw [hs] at h
      have hacc := availableStep_ok g id n rest hm acc acc' x hs
      have := ih acc' h
      rw [this]
      simp only [List.mem_cons]
      by_cases hx : x = r
      · subst hx
        rw [hacc]
        cases availableValue g x n with
        | none => simp
        | some a => simp [mapGet_mapSet_same]
      · have hx' : ¬ r = x := fun e => hx e.symm
        rw [hacc]
        cases hv : availableValue g x n with
        | none => simp [hx']
        | some a => simp [hx', mapGet_mapSet_other _ _ _ _ hx]

/-- An entity whose available resources are computed exists. -/
theorem matchEntity_of_available (g : Graph) (id : String) (av : ResourceQuotas)
    (h : GetAvailableResources g id = .ok av) : ∃ n rest, matchEntity g id = n :: rest := by
  cases hm : matchEntity g id with
  | cons n rest => exact ⟨n, rest, rfl⟩
  | nil =>
    exfalso
    unfold GetAvailableResources SupportedResourceQuotas at h
    simp only [List.foldlM_cons] at h
    have : availableStep g id [] "mem" = .error (.availableNotFound "mem") := by
      simp [availableStep, getAvailableResourcesCypher, hm]
    rw [this] at h
    cases h

/-- What `GetAvailableResources` returns for a resource: the value computed for the first
entity with the id when the resource is supported and the entity has a total for it, nothing
otherwise. -/
theorem mapGet_available (g : Graph) (id : String) (n : Node) (rest : List Node)
    (hm : matchEntity g id = n :: rest) (av : ResourceQuotas)
    (h : GetAvailableResources g id = .ok av) (r : String) :
    mapGet av r = if r ∈ SupportedResourceQuotas then (availableValue g r n).getD 0 else 0 := by
  unfold GetAvailableResources at h
  rw [available_foldlM g id n rest hm _ _ _ h r]
  by_cases hr : r ∈ SupportedResourceQuotas
  · simp only [hr, if_true, mapGet_nil]
    cases availableValue g r n <;> rfl
  · simp [hr, mapGet_nil]


/-! ## The two admission loops -/

theorem checkParent_ok_iff (availableParent total quotas : ResourceQuotas) :
    checkParent availableParent total quotas = .ok () ↔
      ∀ rq ∈ quotas, ¬ (mapGet availableParent rq.1 + mapGet total rq.1 < rq.2) := by
  induction quotas with
  | nil => simp [checkParent]
  | cons rq rest ih =>
    obtain ⟨r, q⟩ := rq
    simp only [checkParent, List.mem_cons, forall_eq_or_imp]
    by_cases hlt : mapGet availableParent r + mapGet total r < q
    · simp only [hlt, if_true]
      constructor
      · intro h
        cases h
      · intro h
        exact absurd trivial h.1
    · simp only [hlt, if_false, ih]
      constructor
      · intro h
        exact ⟨not_false, h⟩
      · intro h
        exact h.2

theorem checkUtilized_ok_iff (total available quotas : ResourceQuotas) :
    checkUtilized total available quotas = .ok () ↔
      ∀ rq ∈ quotas, ¬ (mapGet total rq.1 - mapGet available rq.1 > rq.2) := by
  induction quotas with
  | nil => simp [checkUtilized]
  | cons rq rest ih =>
    obtain ⟨r, q⟩ := rq
    simp only [checkUtilized, List.mem_cons, forall_eq_or_imp]
    by_cases hlt : mapGet total r - mapGet available r > q
    · simp only [hlt, if_true]
      constructor
      · intro h
        cases h
      · intro h
        exact absurd trivial h.1
    · simp only [hlt, if_false, ih]
      constructor
      · intro h
        exact ⟨not_false, h⟩
      · intro h
        exact h.2

theorem checkParent_error_mem (availableParent total quotas : ResourceQuotas) (e : Err)
    (h : checkParent availableParent total quotas = .error e) :
    ∃ r q, (r, q) ∈ quotas ∧ mapGet availableParent r + mapGet total r < q ∧
      e = .exceedsParent r q (mapGet availableParent r + mapGet total r) := by
  induction quotas with
  | nil => simp [checkParent] at h
  | cons rq rest ih =>
    obtain ⟨r, q⟩ := rq
    simp only [checkParent] at h
    split at h
    · rename_i hlt
      cases h
      exact ⟨r, q, by simp, hlt, rfl⟩
    · obtain ⟨r', q', hmem, hlt, he⟩ := ih h
      exact ⟨r', q', List.mem_cons_of_mem _ hmem, hlt, he⟩

theorem checkUtilized_error_mem (total available quotas : ResourceQuotas) (e : Err)
    (h : checkUtilized total available quotas = .error e) :
    ∃ r q, (r, q) ∈ quotas ∧ q < mapGet total r - mapGet available r ∧
      e = .belowUtilized r q (mapGet total r - mapGet available r) := by
  induction quotas with
  | nil => simp [checkUtilized] at h
  | cons rq rest ih =>
    obtain ⟨r, q⟩ := rq
    simp only [checkUtilized] at h
    split at h
    · rename_i hlt
      cases h
      exact ⟨r, q, by simp, hlt, rfl⟩
    · obtain ⟨r', q', hmem, hlt, he⟩ := ih h
      exact ⟨r', q', List.mem_cons_of_mem _ hmem, hlt, he⟩


/-! ## Rejections of `SetResourceQuotas` -/

/-- C3 (amended). An entity `E` that has a parent `P`, with `total` the quotas read for `E`
and `availP` the available resources of `P`: a request with an entry `(k, q)` such that
`q > availP[k] + total[k]`, the sum being the `float64` sum (the exact sum rounded), is rejected
by the parent-capacity check, for some entry of the request that exceeds the bound, and the
store is left as it was. -/
theorem set_exceeding_parent_rejected (g : Graph) (E P : String)
    (total availP req : ResourceQuotas) (k : String) (q : Float64)
    (hE : getQuotas g E = .ok total)
    (hP : getParentEntity g E = .ok P)
    (hav : GetAvailableResources g P = .ok availP)
    (hk : (k, q) ∈ req)
    (hgt : q > mapGet availP k + mapGet total k) :
    ∃ r q', (r, q') ∈ req ∧ mapGet availP r + mapGet total r < q' ∧
      SetResourceQuotasNil g E req
        = (g, some (.exceedsParent r q' (mapGet availP r + mapGet total r))) := by
  have hne : checkParent availP total req ≠ .ok () := by
    intro hok
    exact (checkParent_ok_iff availP total req).mp hok (k, q) hk hgt
  cases hc : checkParent availP total req with
  | ok u => exact absurd hc hne
  | error e =>
    obtain ⟨r, q', hmem, hlt, he⟩ := checkParent_error_mem availP total req e hc
    refine ⟨r, q', hmem, hlt, ?_⟩
    simp [SetResourceQuotasNil, SetResourceQuotas, hE, parentAdmission, hP, hav, hc, he,
      commitOrRollback]

/-- C3 (amended), at the store `demoStore`: `o/a` holds 3 cpu and its parent has 3 cpu
available, and a request of 3 + 3 + 1 cpu is rejected. -/
theorem set_exceeding_parent_rejected_witness :
    getQuotas demoStore "o/a" = .ok [("mem", 40), ("cpu", 3)] ∧
    getParentEntity demoStore "o/a" = .ok "o/default" ∧
    GetAvailableResources demoStore "o/default" = .ok [("mem", 30), ("cpu", 3)] ∧
    ∃ r q', (r, q') ∈ [("cpu", (7 : Float64))] ∧
      mapGet [("mem", 30), ("cpu", 3)] r + mapGet [("mem", 40), ("cpu", 3)] r < q' ∧
      SetResourceQuotasNil demoStore "o/a" [("cpu", 7)]
        = (demoStore, some (.exceedsParent r q'
            (mapGet [("mem", 30), ("cpu", 3)] r + mapGet [("mem", 40), ("cpu", 3)] r))) :=
  ⟨by decide, by decide, by decide,
   set_exceeding_parent_rejected demoStore "o/a" "o/default" [("mem", 40), ("cpu", 3)]
     [("mem", 30), ("cpu", 3)] [("cpu", 7)] "cpu" 7 (by decide) (by decide) (by decide)
     (by decide) (by decide)⟩

/-- C3 as stated fails: after `Add` of the root `o/p` with `2 ^ 53 + 4` cpu and of its
children `o/e` and `o/f` with 1 cpu each, `o/e` holds 1 cpu and `o/p` has `2 ^ 53 + 2` cpu
available. A request of `2 ^ 53 + 4` cpu for `o/e` is one more than the available quantity of
the parent plus the total of `o/e`, yet `SetResourceQuotas` returns no error and commits it:
the code compares with the `float64` sum, which is `2 ^ 53 + 4`. -/
theorem set_exceeding_parent_rounded_sum :
    sumRun1.2 = none ∧ sumRun2.2 = none ∧ sumRun3.2 = none ∧
    getQuotas sumRun3.1 "o/e" = .ok [("cpu", .fin (1 * Float64.unit))] ∧
    getParentEntity sumRun3.1 "o/e" = .ok "o/p" ∧
    GetAvailableResources sumRun3.1 "o/p"
      = .ok [("cpu", .fin (9007199254740994 * Float64.unit))] ∧
    (9007199254740996 : Int) = 9007199254740994 + 1 + 1 ∧
    (Float64.fin (9007199254740994 * Float64.unit) + .fin (1 * Float64.unit) : Float64)
      = .fin (9007199254740996 * Float64.unit) ∧
    sumRun4.2 = none ∧
    (matchEntity sumRun4.1 "o/e").map (quotaOf "cpu")
      = [.fin (9007199254740996 * Float64.unit)] := by
  decide

/-- C4 (amended). An existing entity `E`, with `total` the quotas read for it and `avail` its
available resources, so that its children consume `total[k] - avail[k]`: a request with an entry
`(k, q)` such that `q < total[k] - avail[k]` fails and the store is left as it was. The error is
the child-utilization rejection, for some entry of the request below the utilization, whenever
the parent part of the admission lets the request through; otherwise it is the error of the
parent part, which runs first. -/
theorem set_below_utilization_rejected (g : Graph) (E : String)
    (total avail req : ResourceQuotas) (k : String) (q : Float64)
    (hE : getQuotas g E = .ok total)
    (hav : GetAvailableResources g E = .ok avail)
    (hk : (k, q) ∈ req)
    (hlt : q < mapGet total k - mapGet avail k) :
    ∃ e, SetResourceQuotasNil g E req = (g, some e) ∧
      (parentAdmission g E total req = .ok () →
        ∃ r q', (r, q') ∈ req ∧ q' < mapGet total r - mapGet avail r ∧
          e = .belowUtilized r q' (mapGet total r - mapGet avail r)) ∧
      (∀ e', parentAdmission g E total req = .error e' → e = e') := by
  have hne : checkUtilized total avail req ≠ .ok () := by
    intro hok
    exact (checkUtilized_ok_iff total avail req).mp hok (k, q) hk hlt
  cases hpa : parentAdmission g E total req with
  | error e' =>
    refine ⟨e', ?_, ?_, ?_⟩
    · simp [SetResourceQuotasNil, SetResourceQuotas, hE, hpa, commitOrRollback]
    · intro h
      cases h
    · intro e'' h
      cases h
      rfl
  | ok u =>
    cases hc : checkUtilized total avail req with
    | ok u' => exact absurd hc hne
    | error e =>
      refine ⟨e, ?_, ?_, ?_⟩
      · simp [SetResourceQuotasNil, SetResourceQuotas, hE, hpa, hav, hc, commitOrRollback]
      · intro _
        exact checkUtilized_error_mem total avail req e hc
      · intro e' h
        cases h

/-- C4 (amended), at the store `demoStore`: the app under `o/a` consumes 10 mem, and a request
of 9 mem for `o/a` is rejected. -/
theorem set_below_utilization_rejected_witness :
    getQuotas demoStore "o/a" = .ok [("mem", 40), ("cpu", 3)] ∧
    GetAvailableResources demoStore "o/a" = .ok [("mem", 30), ("cpu", 2)] ∧
    ∃ e, SetResourceQuotasNil demoStore "o/a" [("mem", 9)] = (demoStore, some e) ∧
      (parentAdmission demoStore "o/a" [("mem", 40), ("cpu", 3)] [("mem", 9)] = .ok () →
        ∃ r q', (r, q') ∈ [("mem", (9 : Float64))] ∧
          q' < mapGet [("mem", 40), ("cpu", 3)] r - mapGet [("mem", 30), ("cpu", 2)] r ∧
          e = .belowUtilized r q'
            (mapGet [("mem", 40), ("cpu", 3)] r - mapGet [("mem", 30), ("cpu", 2)] r)) ∧
      (∀ e', parentAdmission demoStore "o/a" [("mem", 40), ("cpu", 3)] [("mem", 9)]
          = .error e' → e = e') :=
  ⟨by decide, by decide,
   set_below_utilization_rejected demoStore "o/a" [("mem", 40), ("cpu", 3)]
     [("mem", 30), ("cpu", 2)] [("mem", 9)] "mem" 9 (by decide) (by decide) (by decide)
     (by decide)⟩

/-- C4 as stated fails: at `demoStore` the children of `o/a` consume 10 mem and the request
asks for 9 mem, below that, together with 100 cpu, more than the parent can give. The parent
check runs first over the whole request, so the call fails with the parent-capacity rejection and
not with the child-utilization rejection. -/
theorem set_below_utilization_other_error :
    getQuotas demoStore "o/a" = .ok [("mem", 40), ("cpu", 3)] ∧
    GetAvailableResources demoStore "o/a" = .ok [("mem", 30), ("cpu", 2)] ∧
    (9 : Float64) < mapGet [("mem", 40), ("cpu", 3)] "mem" - mapGet [("mem", 30), ("cpu", 2)] "mem" ∧
    SetResourceQuotasNil demoStore "o/a" [("mem", 9), ("cpu", 100)]
      = (demoStore, some (.exceedsParent "cpu" 100 6)) ∧
    SetResourceQuotasNil demoStore "o/a" [("cpu", 100), ("mem", 9)]
      = (demoStore, some (.exceedsParent "cpu" 100 6)) ∧
    ¬ ∃ r q u, SetResourceQuotasNil demoStore "o/a" [("mem", 9), ("cpu", 100)]
      = (demoStore, some (.belowUtilized r q u)) := by
  refine ⟨by decide, by decide, by decide, by decide, by decide, ?_⟩
  rintro ⟨r, q, u, h⟩
  have h' : SetResourceQuotasNil demoStore "o/a" [("mem", 9), ("cpu", 100)]
      = (demoStore, some (.exceedsParent "cpu" 100 6)) := by decide
  rw [h'] at h
  cases h


/-! ## Reading the available resources -/

/-- C9. Two calls of `GetAvailableResources` for the same id, nothing in between: the store
is unchanged by each call and the second call returns what the first returned, the same error or
the same map. -/
theorem get_available_idempotent (g : Graph) (id : String) :
    (GetAvailableResourcesNil g id).1 = g ∧
    (GetAvailableResourcesNil (GetAvailableResourcesNil g id).1 id).1 = g ∧
    (GetAvailableResourcesNil (GetAvailableResourcesNil g id).1 id).2
      = (GetAvailableResourcesNil g id).2 :=
  ⟨rfl, rfl, rfl⟩


/-! ## The writes of `setResourceQuotas` -/

theorem node_eta (n : Node) : ({ n with props := n.props } : Node) = n := by
  cases n
  rfl

theorem setResourceQuotas_eq (g : Graph) (id : String) (req : ResourceQuotas) :
    setResourceQuotas g id req
      = { nodes := g.nodes.map (fun n => { n with props := setProps id n.props req }),
          edges := g.edges } := by
  induction req generalizing g with
  | nil =>
    simp only [setResourceQuotas, List.foldl_nil, setProps]
    cases g
    simp [node_eta]
  | cons rq rest ih =>
    obtain ⟨r, q⟩ := rq
    have hstep : setResourceQuotas g id ((r, q) :: rest)
        = setResourceQuotas (setQuotaCypher g id r q) id rest := rfl
    rw [hstep, ih]
    simp only [setQuotaCypher, List.map_map, Graph.mk.injEq, and_true]
    apply List.map_congr_left
    intro n _
    simp only [Function.comp, setProps, hasId, decide_eq_true_eq]
    by_cases h : assocGet n.props "id" = some (Value.str id)
    · simp [h]
    · simp [h]

theorem setProps_of_not_id (id : String) (properties : Props) (req : ResourceQuotas)
    (h : assocGet properties "id" ≠ some (Value.str id)) :
    setProps id properties req = properties := by
  induction req with
  | nil => rfl
  | cons rq rest ih =>
    obtain ⟨r, q⟩ := rq
    simp only [setProps, h, if_false]
    exact ih

/-- A node that carries the id after the writes carried it before, and the request did not
write the property `id`. -/
theorem id_of_setProps (id : String) (properties : Props) (req : ResourceQuotas)
    (h : assocGet (setProps id properties req) "id" = some (Value.str id)) :
    assocGet properties "id" = some (Value.str id) ∧ "id" ∉ req.map Prod.fst := by
  induction req generalizing properties with
  | nil => exact ⟨h, by simp⟩
  | cons rq rest ih =>
    obtain ⟨r, q⟩ := rq
    simp only [setProps] at h
    by_cases hid : assocGet properties "id" = some (Value.str id)
    · rw [if_pos hid] at h
      obtain ⟨h1, h2⟩ := ih _ h
      refine ⟨hid, ?_⟩
      have hr : r ≠ "id" := by
        intro e
        subst e
        rw [assocGet_assocSet_same] at h1
        cases h1
      simp only [List.map_cons, List.mem_cons, not_or]
      exact ⟨fun e => hr e.symm, h2⟩
    · rw [if_neg hid] at h
      exact absurd (ih _ h).1 hid

/-- The properties of a node with the id after a request that does not write `id`: a kind of
the request holds a quantity the request gives for it, every other property is as before. -/
theorem setProps_spec (id : String) (properties : Props) (req : ResourceQuotas)
    (hid : assocGet properties "id" = some (Value.str id))
    (hreq : "id" ∉ req.map Prod.fst) :
    assocGet (setProps id properties req) "id" = some (Value.str id) ∧
    (∀ k, k ∉ req.map Prod.fst →
      assocGet (setProps id properties req) k = assocGet properties k) ∧
    (∀ k, k ∈ req.map Prod.fst →
      ∃ q, (k, q) ∈ req ∧ assocGet (setProps id properties req) k = some (.num q)) := by
  induction req generalizing properties with
  | nil => exact ⟨hid, fun _ _ => rfl, fun k hk => by simp at hk⟩
  | cons rq rest ih =>
    obtain ⟨r, q⟩ := rq
    simp only [List.map_cons, List.mem_cons, not_or] at hreq
    have hr : r ≠ "id" := fun e => hreq.1 e.symm
    have hid' : assocGet (assocSet properties r (Value.num q)) "id" = some (Value.str id) := by
      rw [assocGet_assocSet_other _ _ _ _ hr]
      exact hid
    obtain ⟨h1, h2, h3⟩ := ih _ hid' hreq.2
    simp only [setProps, hid, if_true]
    refine ⟨h1, ?_, ?_⟩
    · intro k hk
      simp only [List.map_cons, List.mem_cons, not_or] at hk
      rw [h2 k hk.2, assocGet_assocSet_other _ _ _ _ (fun e => hk.1 e.symm)]
    · intro k hk
      by_cases hkr : k ∈ rest.map Prod.fst
      · obtain ⟨q', hq', hget⟩ := h3 k hkr
        exact ⟨q', List.mem_cons_of_mem _ hq', hget⟩
      · simp only [List.map_cons, List.mem_cons] at hk
        have hkeq : k = r := by
          rcases hk with hk | hk
          · exact hk
          · exact absurd hk hkr
        subst hkeq
        refine ⟨q, by simp, ?_⟩
        rw [h2 k hkr, assocGet_assocSet_same]

/-- A successful `SetResourceQuotas` went through each of its steps. -/
theorem SetResourceQuotas_ok (g g' : Graph) (E : String) (req : ResourceQuotas)
    (h : SetResourceQuotas g E req = .ok g') :
    ∃ total avail, getQuotas g E = .ok total ∧ parentAdmission g E total req = .ok () ∧
      GetAvailableResources g E = .ok avail ∧ checkUtilized total avail req = .ok () ∧
      g' = setResourceQuotas g E req := by
  unfold SetResourceQuotas at h
  cases h1 : getQuotas g E with
  | error e => rw [h1] at h; cases h
  | ok total =>
    rw [h1] at h
    simp only at h
    cases h2 : parentAdmission g E total req with
    | error e => rw [h2] at h; cases h
    | ok u =>
      rw [h2] at h
      simp only at h
      cases h3 : GetAvailableResources g E with
      | error e => rw [h3] at h; cases h
      | ok avail =>
        rw [h3] at h
        simp only at h
        cases h4 : checkUtilized total avail req with
        | error e => rw [h4] at h; cases h
        | ok u' =>
          rw [h4] at h
          simp only [Except.ok.injEq] at h
          exact ⟨total, avail, rfl, h2, rfl, h4, h.symm⟩

theorem SetResourceQuotasNil_ok (g g' : Graph) (E : String) (req : ResourceQuotas)
    (h : SetResourceQuotasNil g E req = (g', none)) : SetResourceQuotas g E req = .ok g' := by
  unfold SetResourceQuotasNil commitOrRollback at h
  cases hs : SetResourceQuotas g E req with
  | error e => rw [hs] at h; cases h
  | ok g'' =>
    rw [hs] at h
    simp only [Prod.mk.injEq, and_true] at h
    rw [h]


/-! ## The effect of a successful `SetResourceQuotas` -/

/-- The store `demoStore` is the one the handlers build from the empty database: `AddNamespace`
for the root `o/default` and for `o/a` and `o/b` under it, then `Add` of the app store for
`o/a/web`. -/
theorem demoStore_built : demoBuilt = demoStore := by decide

/-- C10 fails on the code. At `demoStore` the handler `SetNamespaceResources` with the request
`id: 0, cpu: 5` for the root `o/default` returns no error, `id` being no resource kind; the
entry `id` is written first and overwrites the identifier of the node, after which the `SET` of
`cpu` matches no node: the node keeps its 8 cpu although the successful request names 5, and no
entity carries the id `o/default` any more. -/
theorem set_frame_fails_on_id :
    (SetNamespaceResources demoStore "o" "default" [("id", 0), ("cpu", 5)]).2 = none ∧
    (findNode (SetNamespaceResources demoStore "o" "default" [("id", 0), ("cpu", 5)]).1 1).map
      (fun n => (assocGet n.props "id", assocGet n.props "cpu"))
      = some (some (.num 0), some (.num 8)) ∧
    (findNode demoStore 1).map (fun n => hasId "o/default" n) = some true ∧
    matchEntity (SetNamespaceResources demoStore "o" "default" [("id", 0), ("cpu", 5)]).1
      "o/default" = [] := by
  decide

/-- C5 fails on the code. At `demoStore` the handler `SetNamespaceResources` with the request
`gpu: 5` for the root `o/default` returns no error and the property `gpu = 5` is committed; for
the child `o/a` the same request fails, with the parent-capacity rejection, and the request
`gpu: 0` is committed. -/
theorem set_unsupported_kind_committed :
    (SetNamespaceResources demoStore "o" "default" [("gpu", 5)]).2 = none ∧
    (matchEntity (SetNamespaceResources demoStore "o" "default" [("gpu", 5)]).1
      "o/default").map (fun n => assocGet n.props "gpu") = [some (.num 5)] ∧
    SetNamespaceResources demoStore "o" "a" [("gpu", 5)]
      = (demoStore, some (.internal (.exceedsParent "gpu" 5 0))) ∧
    (SetNamespaceResources demoStore "o" "a" [("gpu", 0)]).2 = none ∧
    (matchEntity (SetNamespaceResources demoStore "o" "a" [("gpu", 0)]).1
      "o/a").map (fun n => assocGet n.props "gpu") = [some (.num 0)] := by
  decide


/-! ## Atomic creation -/

theorem get_of_no_namespace (g : Graph) (id : String) (h : matchNamespace g id = []) :
    Get g id = .error (.namespaceNotFound id) := by
  simp [Get, get, getNamespaceCypher, h, readNamespaces]

/-- C6 (amended). When `Add(N, P)` returns an error, which it does only when the quota
admission inside it fails, the store after `Add` is the store before it; and when no namespace
carried the id of `N` before the call, none carries it afterwards, no edge was added, and `Get`
of that id fails with the not-found error. -/
theorem add_failure_rolls_back (g : Graph) (ns : Namespace) (parent : Option Namespace)
    (err : Err) (hfail : (Add g ns parent).2 = some err) :
    (Add g ns parent).1 = g ∧
    SetResourceQuotas (addAndConnect g ns parent) ns.GetId ns.GetResourceQuotas = .error err ∧
    (matchNamespace g ns.GetId = [] →
      matchNamespace (Add g ns parent).1 ns.GetId = [] ∧
      (Add g ns parent).1.edges = g.edges ∧
      Get (Add g ns parent).1 ns.GetId = .error (.namespaceNotFound ns.GetId)) := by
  unfold Add commitOrRollback at hfail ⊢
  cases hs : SetResourceQuotas (addAndConnect g ns parent) ns.GetId ns.GetResourceQuotas with
  | ok g' =>
    rw [hs] at hfail
    cases hfail
  | error e =>
    rw [hs] at hfail
    simp only [Option.some.injEq] at hfail
    subst hfail
    refine ⟨rfl, rfl, ?_⟩
    intro hfresh
    exact ⟨hfresh, rfl, get_of_no_namespace g _ hfresh⟩

/-- C6 (amended), at the store `demoStore`: a new namespace `o/c` asking for 31 mem under
`o/default`, which has 30 mem available. -/
theorem add_failure_rolls_back_witness :
    (Add demoStore (demoNamespace "o" "c" [("mem", 31)])
      (some (demoNamespace "o" "default" []))).2 = some (.exceedsParent "mem" 31 30) ∧
    (Add demoStore (demoNamespace "o" "c" [("mem", 31)])
      (some (demoNamespace "o" "default" []))).1 = demoStore ∧
    SetResourceQuotas
      (addAndConnect demoStore (demoNamespace "o" "c" [("mem", 31)])
        (some (demoNamespace "o" "default" [])))
      (demoNamespace "o" "c" [("mem", 31)]).GetId
      (demoNamespace "o" "c" [("mem", 31)]).GetResourceQuotas
        = .error (.exceedsParent "mem" 31 30) ∧
    (matchNamespace demoStore (demoNamespace "o" "c" [("mem", 31)]).GetId = [] →
      matchNamespace (Add demoStore (demoNamespace "o" "c" [("mem", 31)])
        (some (demoNamespace "o" "default" []))).1
        (demoNamespace "o" "c" [("mem", 31)]).GetId = [] ∧
      (Add demoStore (demoNamespace "o" "c" [("mem", 31)])
        (some (demoNamespace "o" "default" []))).1.edges = demoStore.edges ∧
      Get (Add demoStore (demoNamespace "o" "c" [("mem", 31)])
        (some (demoNamespace "o" "default" []))).1
        (demoNamespace "o" "c" [("mem", 31)]).GetId
        = .error (.namespaceNotFound (demoNamespace "o" "c" [("mem", 31)]).GetId)) ∧
    matchNamespace demoStore (demoNamespace "o" "c" [("mem", 31)]).GetId = [] :=
  ⟨by decide,
   (add_failure_rolls_back demoStore (demoNamespace "o" "c" [("mem", 31)])
     (some (demoNamespace "o" "default" [])) (.exceedsParent "mem" 31 30) (by decide)).1,
   (add_failure_rolls_back demoStore (demoNamespace "o" "c" [("mem", 31)])
     (some (demoNamespace "o" "default" [])) (.exceedsParent "mem" 31 30) (by decide)).2.1,
   (add_failure_rolls_back demoStore (demoNamespace "o" "c" [("mem", 31)])
     (some (demoNamespace "o" "default" [])) (.exceedsParent "mem" 31 30) (by decide)).2.2,
   by decide⟩

/-- C6 as stated fails when the id is already taken: at `demoStore`, `Add` of a namespace
`o/a` asking for 1000 mem under `o/default` fails in the quota admission and the store is as
before, yet `Get` of `o/a` succeeds afterwards, with the namespace that was there before. -/
theorem add_failure_existing_id_found :
    (Add demoStore (demoNamespace "o" "a" [("mem", 1000)])
      (some (demoNamespace "o" "default" []))).2 = some (.exceedsParent "mem" 1000 30) ∧
    (Add demoStore (demoNamespace "o" "a" [("mem", 1000)])
      (some (demoNamespace "o" "default" []))).1 = demoStore ∧
    (Get (Add demoStore (demoNamespace "o" "a" [("mem", 1000)])
      (some (demoNamespace "o" "default" []))).1
      (demoNamespace "o" "a" [("mem", 1000)]).GetId).toOption.map Namespace.GetResourceQuotas
        = some [("mem", 40), ("cpu", 3)] := by
  decide


/-! ## Nodes, edges and sums over children -/

theorem find_of_mem_nodup (l : List Node) (n : Node) (hnd : (l.map Node.nid).Nodup)
    (hn : n ∈ l) : l.find? (fun m => decide (m.nid = n.nid)) = some n := by
  induction l with
  | nil => simp at hn
  | cons m rest ih =>
    simp only [List.map_cons, List.nodup_cons] at hnd
    rcases List.mem_cons.mp hn with h | h
    · subst h
      simp
    · have hne : m.nid ≠ n.nid := by
        intro e
        apply hnd.1
        rw [e]
        exact List.mem_map.mpr ⟨n, h, rfl⟩
      simp only [List.find?_cons, hne, decide_False]
      exact ih hnd.2 h

theorem findNode_of_mem (g : Graph) (n : Node) (hnd : (g.nodes.map Node.nid).Nodup)
    (hn : n ∈ g.nodes) : findNode g n.nid = some n :=
  find_of_mem_nodup g.nodes n hnd hn

theorem findNode_some (g : Graph) (i : Nat) (n : Node) (h : findNode g i = some n) :
    n ∈ g.nodes ∧ n.nid = i := by
  unfold findNode at h
  refine ⟨List.mem_of_find?_eq_some h, ?_⟩
  have := List.find?_some h
  simpa using this

theorem mem_of_mem_childrenOf (g : Graph) (p c : Node) (h : c ∈ childrenOf g p) :
    c ∈ g.nodes := by
  unfold childrenOf at h
  rw [List.mem_filterMap] at h
  obtain ⟨ed, _, hed⟩ := h
  split at hed
  · exact (findNode_some g _ _ hed).1
  · cases hed

theorem mem_of_mem_matchEntity (g : Graph) (id : String) (n : Node)
    (h : n ∈ matchEntity g id) : n ∈ g.nodes ∧ assocGet n.props "id" = some (Value.str id) := by
  unfold matchEntity at h
  rw [List.mem_filter] at h
  exact ⟨h.1, by simpa [hasId] using h.2⟩

theorem mem_matchEntity (g : Graph) (id : String) (n : Node) (hn : n ∈ g.nodes)
    (hid : assocGet n.props "id" = some (Value.str id)) : n ∈ matchEntity g id := by
  unfold matchEntity
  rw [List.mem_filter]
  exact ⟨hn, by simp [hasId, hid]⟩

theorem filterMap_ite {α β : Type} (l : List α) (c : α → Prop) [DecidablePred c]
    (f : α → Option β) :
    l.filterMap (fun x => if c x then f x else none)
      = (l.filter (fun x => decide (c x))).filterMap f := by
  induction l with
  | nil => rfl
  | cons x rest ih =>
    by_cases h : c x
    · simp [List.filterMap_cons, List.filter_cons, h, ih]
    · simp [List.filterMap_cons, List.filter_cons, h, ih]

/-- An entity with exactly one incoming edge, from `p`, has `p` as its only parent row. -/
theorem parentsOf_of_edge (g : Graph) (p e : Node) (hnd : (g.nodes.map Node.nid).Nodup)
    (hp : p ∈ g.nodes)
    (hedge : g.edges.filter (fun ed => decide (ed.2 = e.nid)) = [(p.nid, e.nid)]) :
    parentsOf g e = [p] := by
  unfold parentsOf
  rw [filterMap_ite g.edges (fun ed => ed.2 = e.nid) (fun ed => findNode g ed.1), hedge]
  simp [List.filterMap_cons, findNode_of_mem g p hnd hp]

theorem getParentEntity_of_edge (g : Graph) (E P : String) (p e : Node)
    (hnd : (g.nodes.map Node.nid).Nodup)
    (hE : matchEntity g E = [e]) (hP : matchEntity g P = [p])
    (hedge : g.edges.filter (fun ed => decide (ed.2 = e.nid)) = [(p.nid, e.nid)]) :
    getParentEntity g E = .ok P := by
  have hp := mem_of_mem_matchEntity g P p (by rw [hP]; simp)
  unfold getParentEntity getParentEntityCypher
  rw [hE, List.map_cons, List.map_nil, parentsOf_of_edge g p e hnd hp.1 hedge]
  simp [optionalRows, readEntityId, hp.2]

theorem findNode_map (g : Graph) (F : Node → Node) (hF : ∀ n, (F n).nid = n.nid) (i : Nat) :
    findNode ⟨g.nodes.map F, g.edges⟩ i = (findNode g i).map F := by
  unfold findNode
  simp only
  rw [List.find?_map]
  congr 2
  funext n
  simp [Function.comp, hF]

theorem childrenOf_map (g : Graph) (F : Node → Node) (hF : ∀ n, (F n).nid = n.nid)
    (x y : Node) (hxy : y.nid = x.nid) :
    childrenOf ⟨g.nodes.map F, g.edges⟩ y = (childrenOf g x).map F := by
  unfold childrenOf
  rw [List.map_filterMap]
  simp only
  congr 1
  funext ed
  rw [hxy]
  by_cases h : ed.1 = x.nid
  · simp only [h, if_true]
    rw [findNode_map g F hF]
  · simp [h]

/-- The children of `p` other than `e` are untouched by writes on the entities with the id of
`e`, when `e` is the only entity with that id. -/
theorem otherChildren_map (g : Graph) (E : String) (F : Node → Node)
    (hF : ∀ n, (F n).nid = n.nid)
    (hFid : ∀ n, assocGet n.props "id" ≠ some (Value.str E) → F n = n)
    (p e e' : Node) (hE : matchEntity g E = [e]) (he' : e'.nid = e.nid) :
    otherChildren ⟨g.nodes.map F, g.edges⟩ p e' = otherChildren g p e := by
  unfold otherChildren
  rw [childrenOf_map g F hF p p rfl, List.filter_map]
  have hcomp : ((fun c : Node => decide (c.nid ≠ e'.nid)) ∘ F)
      = (fun c : Node => decide (c.nid ≠ e.nid)) := by
    funext c
    simp [Function.comp, hF, he']
  rw [hcomp]
  conv_rhs => rw [← List.map_id (List.filter (fun c => decide (c.nid ≠ e.nid)) (childrenOf g p))]
  apply List.map_congr_left
  intro c hc
  rw [List.mem_filter] at hc
  simp only [id]
  apply hFid
  intro hid
  have hmem := mem_matchEntity g E c (mem_of_mem_childrenOf g p c hc.1) hid
  rw [hE] at hmem
  simp only [List.mem_singleton] at hmem
  rw [hmem] at hc
  simp at hc


/-! ## Containment -/

/-- The sum over the children of `p` splits into the sum over the children other than `e` and
one share of `e` for each edge from `p` to `e`. -/
theorem sum_children_split (g : Graph) (p e : Node) (f : Node → Int)
    (hnd : (g.nodes.map Node.nid).Nodup) (he : e ∈ g.nodes) (edges : List (Nat × Nat)) :
    ((edges.filterMap (fun ed => if ed.1 = p.nid then findNode g ed.2 else none)).map f).sum
      = (((edges.filterMap (fun ed => if ed.1 = p.nid then findNode g ed.2 else none)).filter
            (fun c => decide (c.nid ≠ e.nid))).map f).sum
        + ((edges.filter (fun ed => decide (ed.2 = e.nid))).filter
            (fun ed => decide (ed.1 = p.nid))).length * f e := by
  induction edges with
  | nil => simp
  | cons ed rest ih =>
    by_cases h1 : ed.1 = p.nid
    · have hed1 : decide (ed.1 = p.nid) = true := by simp [h1]
      cases hf : findNode g ed.2 with
      | none =>
        have h2 : ¬ ed.2 = e.nid := by
          intro h2
          rw [h2, findNode_of_mem g e hnd he] at hf
          cases hf
        have hed2 : decide (ed.2 = e.nid) = false := by simp [h2]
        simp only [List.filterMap_cons, h1, if_true, hf, List.filter_cons, hed2]
        exact ih
      | some c =>
        have hc := (findNode_some g _ _ hf).2
        by_cases h2 : ed.2 = e.nid
        · have hce : c = e := by
            rw [h2, findNode_of_mem g e hnd he] at hf
            cases hf
            rfl
          have hed2 : decide (ed.2 = e.nid) = true := by simp [h2]
          have hcd : decide (c.nid ≠ e.nid) = false := by simp [hce]
          simp only [List.filterMap_cons, h1, if_true, hf, List.filter_cons, hed2, hcd,
            List.map_cons, List.sum_cons, decide_True, List.length_cons, Bool.false_eq_true,
            if_false]
          rw [ih, hce]
          push_cast
          ring
        · have hcne : c.nid ≠ e.nid := by
            rw [hc]
            exact h2
          have hed2 : decide (ed.2 = e.nid) = false := by simp [h2]
          have hcd : decide (c.nid ≠ e.nid) = true := by simp [hcne]
          simp only [List.filterMap_cons, h1, if_true, hf, List.filter_cons, hed2, hcd,
            List.map_cons, List.sum_cons]
          rw [ih]
          simp only [if_true, List.map_cons, List.sum_cons, Bool.false_eq_true, if_false]
          ring
    · have hed1 : decide (ed.1 = p.nid) = false := by simp [h1]
      by_cases h2 : ed.2 = e.nid
      · have hed2 : decide (ed.2 = e.nid) = true := by simp [h2]
        simp only [List.filterMap_cons, h1, if_false, List.filter_cons, hed2, hed1, if_true,
          Bool.false_eq_true]
        exact ih
      · have hed2 : decide (ed.2 = e.nid) = false := by simp [h2]
        simp only [List.filterMap_cons, h1, if_false, List.filter_cons, hed2,
          Bool.false_eq_true]
        exact ih

/-- The `float64` sum of the quotas collected over nodes whose quotas are whole numbers of the
range, while the sum stays in the range: the sum of the whole numbers. -/
theorem foldl_whole (R : String) (cs : List Node) (acc : Int) (hacc : 0 ≤ acc)
    (hw : ∀ c ∈ cs, (quotaOf R c).isWhole = true)
    (hs : acc + (cs.map (wholeQuota R)).sum < 2 ^ 53) :
    (collectQuotas R cs).foldl (fun a q => a + q) (Float64.ofInt acc)
      = Float64.ofInt (acc + (cs.map (wholeQuota R)).sum) := by
  induction cs generalizing acc with
  | nil => simp [collectQuotas]
  | cons c rest ih =>
    obtain ⟨h0, h1, heq⟩ := Float64.isWhole_spec _ (hw c (List.mem_cons_self _ _))
    have hrestw : ∀ d ∈ rest, (quotaOf R d).isWhole = true :=
      fun d hd => hw d (List.mem_cons_of_mem _ hd)
    have hrest0 : 0 ≤ (rest.map (wholeQuota R)).sum := by
      apply List.sum_nonneg
      intro x hx
      obtain ⟨d, hd, hxd⟩ := List.mem_map.mp hx
      rw [← hxd]
      exact (Float64.isWhole_spec _ (hrestw d hd)).1
    have hWc : wholeQuota R c = (quotaOf R c).toInt := rfl
    rw [← hWc] at h0 h1 heq
    simp only [List.map_cons, List.sum_cons] at hs ⊢
    rcases h : assocGet c.props R with _ | (s | q)
    · have hq : quotaOf R c = 0 := by simp [quotaOf, h]
      have hW : wholeQuota R c = 0 := by rw [hWc, hq]; exact Float64.toInt_zero
      have hc : collectQuotas R (c :: rest) = collectQuotas R rest := by
        simp [collectQuotas, List.filterMap_cons, h]
      rw [hc, hW, zero_add]
      rw [hW, zero_add] at hs
      exact ih acc hacc hrestw hs
    · have hq : quotaOf R c = 0 := by simp [quotaOf, h]
      have hW : wholeQuota R c = 0 := by rw [hWc, hq]; exact Float64.toInt_zero
      have hc : collectQuotas R (c :: rest) = collectQuotas R rest := by
        simp [collectQuotas, List.filterMap_cons, h]
      rw [hc, hW, zero_add]
      rw [hW, zero_add] at hs
      exact ih acc hacc hrestw hs
    · have hq : quotaOf R c = q := by simp [quotaOf, h]
      have hc : collectQuotas R (c :: rest) = q :: collectQuotas R rest := by
        simp [collectQuotas, List.filterMap_cons, h]
      rw [hc, List.foldl_cons, ← hq, heq,
        Float64.ofInt_add acc (wholeQuota R c)
          (natAbs_lt_two53 _ (by linarith) (by linarith))
          (natAbs_lt_two53 _ (by linarith) (by linarith)),
        ih (acc + wholeQuota R c) (by linarith) hrestw (by linarith)]
      congr 1
      ring

/-- An entity with an edge from `p` is among the children of `p`. -/
theorem mem_childrenOf_of_edge (g : Graph) (p e : Node) (hnd : (g.nodes.map Node.nid).Nodup)
    (he : e ∈ g.nodes) (hedge : (p.nid, e.nid) ∈ g.edges) : e ∈ childrenOf g p := by
  unfold childrenOf
  rw [List.mem_filterMap]
  exact ⟨(p.nid, e.nid), hedge, by simp [findNode_of_mem g e hnd he]⟩

theorem sum_exact_of_whole (R : String) (cs : List Node)
    (hw : ∀ c ∈ cs, (quotaOf R c).isWhole = true) :
    (cs.map (exactQuota R)).sum = (cs.map (wholeQuota R)).sum * (Float64.unit : Int) := by
  induction cs with
  | nil => simp
  | cons c rest ih =>
    have hc := (Float64.isWhole_scaled _ (hw c (List.mem_cons_self _ _))).2
    have hE : exactQuota R c = wholeQuota R c * (Float64.unit : Int) := hc
    simp only [List.map_cons, List.sum_cons]
    rw [hE, ih (fun d hd => hw d (List.mem_cons_of_mem _ hd)), add_mul]

/-- Over whole numbers of the range, the containment inequality is the inequality between the
whole numbers. -/
theorem contained_iff_whole (g : Graph) (p e : Node) (R : String)
    (hp : (quotaOf R p).isWhole = true) (he : (quotaOf R e).isWhole = true)
    (hoth : ∀ c ∈ otherChildren g p e, (quotaOf R c).isWhole = true) :
    contained g p e R ↔
      wholeQuota R e ≤ wholeQuota R p - ((otherChildren g p e).map (wholeQuota R)).sum := by
  obtain ⟨fp, sp⟩ := Float64.isWhole_scaled _ hp
  obtain ⟨fe, se⟩ := Float64.isWhole_scaled _ he
  have hEp : exactQuota R p = wholeQuota R p * (Float64.unit : Int) := sp
  have hEe : exactQuota R e = wholeQuota R e * (Float64.unit : Int) := se
  have hu := Float64.unit_int_pos
  unfold contained
  rw [hEp, hEe, sum_exact_of_whole R _ hoth, ← sub_mul]
  constructor
  · rintro ⟨_, _, _, h⟩
    exact le_of_mul_le_mul_right h hu
  · intro h
    exact ⟨fe, fp, fun c hc => (Float64.isWhole_scaled _ (hoth c hc)).1,
      mul_le_mul_of_nonneg_right h (le_of_lt hu)⟩

/-- C1 (amended). An entity `e`, the only one with the id `E`, whose only incoming edge comes
from `p`, the only entity with the id `P`, in a store with distinct internal identities, and a
request whose keys are property names. After a successful `SetResourceQuotas(E, req)`, for the
entity `e'` that carries the id `E` and the entity `p'` that carries the id `P` in the committed
store: `e'` is the node `e`, `p'` is `p` unchanged; for every supported kind `R` of the request
for which `p` has a stored total, when the totals for `R` of `p` and of its children and the
quantity requested for `R` are whole numbers from 0 to below `2 ^ 53` and the totals of the
children sum to less than `2 ^ 53`, `e'` is contained in `p'` for `R` and the total of `p'`
minus the totals of its children is not negative; and if `e` was contained in `p` for every
supported kind before the call, `e'` is contained in `p'` after it for every supported kind,
with that condition on the quantities for the kinds of the request. -/
theorem containment_after_set (g g' : Graph) (E P : String) (req : ResourceQuotas)
    (e p : Node)
    (hnd : (g.nodes.map Node.nid).Nodup)
    (hE : matchEntity g E = [e])
    (hP : matchEntity g P = [p])
    (hedge : g.edges.filter (fun ed => decide (ed.2 = e.nid)) = [(p.nid, e.nid)])
    (hne : p.nid ≠ e.nid)
    (hkeys : ∀ rq ∈ req, propertyName rq.1 = true)
    (hset : SetResourceQuotasNil g E req = (g', none)) :
    ∀ e' ∈ matchEntity g' E, ∀ p' ∈ matchEntity g' P,
      e'.nid = e.nid ∧ p' = p ∧
      (∀ R ∈ SupportedResourceQuotas, R ∈ req.map Prod.fst →
        (∃ t, assocGet p.props R = some (.num t)) → wholeTotals g R p → wholeRequest req R →
          contained g' p' e' R ∧
          0 ≤ exactQuota R p' - ((childrenOf g' p').map (exactQuota R)).sum) ∧
      ((∀ R ∈ SupportedResourceQuotas, contained g p e R) →
        ∀ R ∈ SupportedResourceQuotas,
          (R ∈ req.map Prod.fst → wholeTotals g R p ∧ wholeRequest req R) →
          contained g' p' e' R) := by
  have _ := hkeys
  obtain ⟨total, avail, hq, hpa, _, _, hg'⟩ :=
    SetResourceQuotas_ok g g' E req (SetResourceQuotasNil_ok g g' E req hset)
  have hem := mem_of_mem_matchEntity g E e (by rw [hE]; simp)
  have hpm := mem_of_mem_matchEntity g P p (by rw [hP]; simp)
  -- the reads of the call
  have hpe := getParentEntity_of_edge g E P p e hnd hE hP hedge
  have htotal : total = readQuotaProps e.props := by
    simp only [getQuotas, getEntityCypher, hE, List.map_cons, List.map_nil, readQuotas,
      Except.ok.injEq] at hq
    exact hq.symm
  unfold parentAdmission at hpa
  rw [hpe] at hpa
  simp only at hpa
  cases hav : GetAvailableResources g P with
  | error err => rw [hav] at hpa; cases hpa
  | ok availP =>
  rw [hav] at hpa
  simp only at hpa
  have hcp := (checkParent_ok_iff availP total req).mp hpa
  -- the committed store
  rw [setResourceQuotas_eq] at hg'
  have hF : ∀ n : Node, ({ n with props := setProps E n.props req } : Node).nid = n.nid :=
    fun _ => rfl
  have hFid : ∀ n : Node, assocGet n.props "id" ≠ some (Value.str E) →
      ({ n with props := setProps E n.props req } : Node) = n := by
    intro n hn
    rw [setProps_of_not_id E n.props req hn, node_eta]
  subst hg'
  intro e' he' p' hp'
  -- the entity after the call is the node `e`, written
  have he'm := mem_of_mem_matchEntity _ E e' he'
  obtain ⟨n, hn, hne'⟩ := List.mem_map.mp he'm.1
  have hnid := id_of_setProps E n.props req (by rw [← hne'] at he'm; exact he'm.2)
  have hn_e : n = e := by
    have := mem_matchEntity g E n hn hnid.1
    rw [hE] at this
    simpa using this
  subst hn_e
  have hspec := setProps_spec E n.props req hnid.1 hnid.2
  -- the parent after the call is `p`, unchanged
  have hp'm := mem_of_mem_matchEntity _ P p' hp'
  obtain ⟨m, hm, hmp'⟩ := List.mem_map.mp hp'm.1
  have hm_p : m = p ∧ p' = p := by
    by_cases hmid : assocGet m.props "id" = some (Value.str E)
    · exfalso
      have hme : m = n := by
        have := mem_matchEntity g E m hm hmid
        rw [hE] at this
        simpa using this
      subst hme
      have h1 : assocGet p'.props "id" = some (Value.str E) := by
        rw [← hmp']
        exact hspec.1
      rw [hp'm.2] at h1
      simp only [Option.some.injEq, Value.str.injEq] at h1
      subst h1
      rw [hP] at hE
      simp only [List.cons.injEq, and_true] at hE
      exact hne (by rw [hE])
    · have hpm' : p' = m := by rw [← hmp', hFid m hmid]
      have := mem_matchEntity g P m hm (by rw [← hpm']; exact hp'm.2)
      rw [hP] at this
      simp only [List.mem_singleton] at this
      exact ⟨this, by rw [hpm', this]⟩
  obtain ⟨hmp, hp'p⟩ := hm_p
  subst hp'p
  have he'nid : e'.nid = n.nid := by rw [← hne']
  -- sums over the children of the parent
  have hoth := otherChildren_map g E _ hF hFid p' n e' hE he'nid
  have hcount : ((g.edges.filter (fun ed => decide (ed.2 = n.nid))).filter
      (fun ed => decide (ed.1 = p'.nid))).length = 1 := by
    rw [hedge]
    simp
  have hsum : ∀ R, ((childrenOf g p').map (wholeQuota R)).sum
      = ((otherChildren g p' n).map (wholeQuota R)).sum + wholeQuota R n := by
    intro R
    have := sum_children_split g p' n (wholeQuota R) hnd hem.1 g.edges
    rw [hcount] at this
    simpa [childrenOf, otherChildren] using this
  have hnd' : ((g.nodes.map (fun n => ({ n with props := setProps E n.props req } : Node))).map
      Node.nid).Nodup := by
    rw [List.map_map]
    exact hnd
  have hsum' : ∀ R, ((childrenOf
      ⟨g.nodes.map (fun n => ({ n with props := setProps E n.props req } : Node)), g.edges⟩
        p').map (exactQuota R)).sum
      = ((otherChildren g p' n).map (exactQuota R)).sum + exactQuota R e' := by
    intro R
    have := sum_children_split
      ⟨g.nodes.map (fun n => ({ n with props := setProps E n.props req } : Node)), g.edges⟩
      p' e' (exactQuota R) hnd' he'm.1 g.edges
    rw [he'nid, hcount] at this
    rw [← hoth]
    simpa [childrenOf, otherChildren, he'nid] using this
  have hchild : n ∈ childrenOf g p' := by
    apply mem_childrenOf_of_edge g p' n hnd hem.1
    have : (p'.nid, n.nid) ∈ g.edges.filter (fun ed => decide (ed.2 = n.nid)) := by
      rw [hedge]
      simp
    exact (List.mem_filter.mp this).1
  -- the quantities of a kind in the range where nothing is rounded
  have hwhole : ∀ R, wholeTotals g R p' →
      0 ≤ wholeQuota R p' ∧ wholeQuota R p' < 2 ^ 53 ∧
      quotaOf R p' = Float64.ofInt (wholeQuota R p') ∧
      0 ≤ wholeQuota R n ∧ wholeQuota R n < 2 ^ 53 ∧
      quotaOf R n = Float64.ofInt (wholeQuota R n) ∧
      0 ≤ ((otherChildren g p' n).map (wholeQuota R)).sum ∧
      ((childrenOf g p').map (wholeQuota R)).sum < 2 ^ 53 ∧
      totalUtilized g R p' = Float64.ofInt ((childrenOf g p').map (wholeQuota R)).sum ∧
      (quotaOf R p').isWhole = true ∧ (quotaOf R n).isWhole = true ∧
      (∀ c ∈ otherChildren g p' n, (quotaOf R c).isWhole = true) := by
    intro R hw
    obtain ⟨hall, hlt⟩ := hw
    rw [Float64.two53_lit] at hlt
    obtain ⟨a1, a2, a3⟩ := Float64.isWhole_spec _ (hall p' (List.mem_cons_self _ _))
    obtain ⟨b1, b2, b3⟩ := Float64.isWhole_spec _ (hall n (List.mem_cons_of_mem _ hchild))
    have hkidsw : ∀ c ∈ childrenOf g p', (quotaOf R c).isWhole = true :=
      fun c hc => hall c (List.mem_cons_of_mem _ hc)
    have hoth0 : 0 ≤ ((otherChildren g p' n).map (wholeQuota R)).sum := by
      apply List.sum_nonneg
      intro x hx
      obtain ⟨d, hd, hxd⟩ := List.mem_map.mp hx
      rw [← hxd]
      unfold otherChildren at hd
      exact (Float64.isWhole_spec _ (hkidsw d (List.mem_filter.mp hd).1)).1
    have hfold : totalUtilized g R p'
        = Float64.ofInt ((childrenOf g p').map (wholeQuota R)).sum := by
      unfold totalUtilized utilizedList
      have := foldl_whole R (childrenOf g p') 0 (le_refl 0) hkidsw (by simpa using hlt)
      simpa using this
    refine ⟨a1, a2, a3, b1, b2, b3, hoth0, hlt, hfold, hall p' (List.mem_cons_self _ _),
      hall n (List.mem_cons_of_mem _ hchild), ?_⟩
    intro c hc
    unfold otherChildren at hc
    exact hkidsw c (List.mem_filter.mp hc).1
  -- what the parent check gives for a kind of the request, in whole numbers
  have hkind : ∀ R ∈ SupportedResourceQuotas, R ∈ req.map Prod.fst →
      wholeTotals g R p' → wholeRequest req R →
      (quotaOf R e').isWhole = true ∧
      ((∃ t, assocGet p'.props R = some (.num t)) →
        wholeQuota R e' ≤ wholeQuota R p' - ((otherChildren g p' n).map (wholeQuota R)).sum) ∧
      ((¬ ∃ t, assocGet p'.props R = some (.num t)) → wholeQuota R e' ≤ wholeQuota R n) := by
    intro R hR hRreq hw hwr
    obtain ⟨a1, a2, a3, b1, b2, b3, hoth0, hlt, hfold, _, _, _⟩ := hwhole R hw
    obtain ⟨q, hqmem, hget⟩ := hspec.2.2 R hRreq
    obtain ⟨c1, c2, c3⟩ := Float64.isWhole_spec q (hwr (R, q) hqmem rfl)
    have hqe : quotaOf R e' = q := by
      rw [← hne']
      simp [quotaOf, hget]
    have hWe : wholeQuota R e' = q.toInt := by
      unfold wholeQuota
      rw [hqe]
    have hS := hsum R
    have B1 : (wholeQuota R p').natAbs < 2 ^ 53 :=
      natAbs_lt_two53 _ (by linarith) (by linarith)
    have B2 : (((childrenOf g p').map (wholeQuota R)).sum).natAbs < 2 ^ 53 :=
      natAbs_lt_two53 _ (by linarith) (by linarith)
    have B3 : (wholeQuota R p' - ((childrenOf g p').map (wholeQuota R)).sum).natAbs < 2 ^ 53 :=
      natAbs_lt_two53 _ (by linarith) (by linarith)
    have B4 : (wholeQuota R n).natAbs < 2 ^ 53 :=
      natAbs_lt_two53 _ (by linarith) (by linarith)
    have B5 : (wholeQuota R p' - ((childrenOf g p').map (wholeQuota R)).sum
        + wholeQuota R n).natAbs < 2 ^ 53 :=
      natAbs_lt_two53 _ (by linarith) (by linarith)
    have B6 : (q.toInt).natAbs < 2 ^ 53 := natAbs_lt_two53 _ (by linarith) (by linarith)
    have B7 : (0 + wholeQuota R n).natAbs < 2 ^ 53 :=
      natAbs_lt_two53 _ (by linarith) (by linarith)
    have h1 := hcp (R, q) hqmem
    simp only at h1
    rw [mapGet_available g P p' [] hP availP hav R, htotal, mapGet_readQuotaProps] at h1
    simp only [hR, if_true] at h1
    rw [← quotaOf_eq, b3, c3] at h1
    rw [hWe]
    refine ⟨by rw [hqe]; exact hwr (R, q) hqmem rfl, ?_, ?_⟩
    · rintro ⟨t, ht⟩
      have hav' : availableValue g R p' = some (t - totalUtilized g R p') := by
        simp [availableValue, ht]
      have hqp : quotaOf R p' = t := by simp [quotaOf, ht]
      rw [hav', Option.getD_some, ← hqp, a3, hfold, Float64.ofInt_sub _ _ B1 B2,
        Float64.ofInt_add _ _ B3 B4, Float64.ofInt_lt _ _ B5 B6] at h1
      omega
    · intro hno
      have hav' : availableValue g R p' = none := by
        unfold availableValue
        rcases ht : assocGet p'.props R with _ | (s | t)
        · rfl
        · rfl
        · exact absurd ⟨t, ht⟩ hno
      have h0 : (0 : Float64) = Float64.ofInt 0 := rfl
      rw [hav', Option.getD_none, h0, Float64.ofInt_add _ _ (by decide) B4,
        Float64.ofInt_lt _ _ B7 B6] at h1
      omega
  have hother : ∀ R, R ∉ req.map Prod.fst → quotaOf R e' = quotaOf R n := by
    intro R hR
    rw [← hne']
    simp [quotaOf, hspec.2.1 R hR]
  -- from whole numbers back to the exact values
  have hpost : ∀ R ∈ SupportedResourceQuotas, R ∈ req.map Prod.fst →
      wholeTotals g R p' → wholeRequest req R →
      wholeQuota R e' ≤ wholeQuota R p' - ((otherChildren g p' n).map (wholeQuota R)).sum →
      contained ⟨g.nodes.map (fun n => ({ n with props := setProps E n.props req } : Node)),
        g.edges⟩ p' e' R := by
    intro R hR hRreq hw hwr hle
    obtain ⟨_, _, _, _, _, _, _, _, _, wp, _, woth⟩ := hwhole R hw
    have we := (hkind R hR hRreq hw hwr).1
    rw [contained_iff_whole _ p' e' R wp we (by rw [hoth]; exact woth), hoth]
    exact hle
  refine ⟨he'nid, rfl, ?_, ?_⟩
  · intro R hR hRreq ht hw hwr
    have hc := hpost R hR hRreq hw hwr ((hkind R hR hRreq hw hwr).2.1 ht)
    refine ⟨hc, ?_⟩
    have hle := hc.2.2.2
    rw [hoth] at hle
    rw [hsum' R]
    omega
  · intro hpre R hR hcond
    have hpreR := hpre R hR
    by_cases hRreq : R ∈ req.map Prod.fst
    · obtain ⟨hw, hwr⟩ := hcond hRreq
      obtain ⟨_, _, _, _, _, _, _, _, _, wp, wn, woth⟩ := hwhole R hw
      have hpreW := (contained_iff_whole g p' n R wp wn woth).mp hpreR
      obtain ⟨_, h1, h2⟩ := hkind R hR hRreq hw hwr
      apply hpost R hR hRreq hw hwr
      by_cases ht : ∃ t, assocGet p'.props R = some (.num t)
      · exact h1 ht
      · have := h2 ht
        omega
    · unfold contained at hpreR ⊢
      rw [hoth]
      unfold exactQuota at hpreR ⊢
      rw [hother R hRreq]
      exact hpreR

/-- C1 (amended), at the store `demoStore`: 4 cpu and 50 mem for `o/a` under `o/default`, which
holds 8 cpu and 100 mem and whose other child `o/b` holds 2 cpu and 30 mem. -/
theorem containment_after_set_witness :
    (demoStore.nodes.map Node.nid).Nodup ∧
    matchEntity demoStore "o/a" = [demoA] ∧
    matchEntity demoStore "o/default" = [demoRoot] ∧
    demoStore.edges.filter (fun ed => decide (ed.2 = demoA.nid)) = [(demoRoot.nid, demoA.nid)] ∧
    demoRoot.nid ≠ demoA.nid ∧
    (∀ rq ∈ [("cpu", (4 : Float64)), ("mem", 50)], propertyName rq.1 = true) ∧
    SetResourceQuotasNil demoStore "o/a" [("cpu", 4), ("mem", 50)]
      = (setResourceQuotas demoStore "o/a" [("cpu", 4), ("mem", 50)], none) ∧
    wholeTotals demoStore "cpu" demoRoot ∧ wholeTotals demoStore "mem" demoRoot ∧
    wholeRequest [("cpu", 4), ("mem", 50)] "cpu" ∧
    wholeRequest [("cpu", 4), ("mem", 50)] "mem" ∧
    (matchEntity (setResourceQuotas demoStore "o/a" [("cpu", 4), ("mem", 50)]) "o/a").map
        (fun e' => (e'.nid, wholeQuota "cpu" e', wholeQuota "mem" e')) = [(2, 4, 50)] ∧
    (matchEntity (setResourceQuotas demoStore "o/a" [("cpu", 4), ("mem", 50)]) "o/default").map
        (fun p' => (p'.nid, wholeQuota "cpu" p', wholeQuota "mem" p')) = [(1, 8, 100)] ∧
    ∀ e' ∈ matchEntity (setResourceQuotas demoStore "o/a" [("cpu", 4), ("mem", 50)]) "o/a",
      ∀ p' ∈ matchEntity (setResourceQuotas demoStore "o/a" [("cpu", 4), ("mem", 50)])
          "o/default",
        e'.nid = demoA.nid ∧ p' = demoRoot ∧
        (∀ R ∈ SupportedResourceQuotas, R ∈ [("cpu", (4 : Float64)), ("mem", 50)].map Prod.fst →
          (∃ t, assocGet demoRoot.props R = some (.num t)) →
          wholeTotals demoStore R demoRoot → wholeRequest [("cpu", 4), ("mem", 50)] R →
            contained (setResourceQuotas demoStore "o/a" [("cpu", 4), ("mem", 50)]) p' e' R ∧
            0 ≤ exactQuota R p' - ((childrenOf
              (setResourceQuotas demoStore "o/a" [("cpu", 4), ("mem", 50)]) p').map
                (exactQuota R)).sum) ∧
        ((∀ R ∈ SupportedResourceQuotas, contained demoStore demoRoot demoA R) →
          ∀ R ∈ SupportedResourceQuotas,
            (R ∈ [("cpu", (4 : Float64)), ("mem", 50)].map Prod.fst →
              wholeTotals demoStore R demoRoot ∧ wholeRequest [("cpu", 4), ("mem", 50)] R) →
            contained (setResourceQuotas demoStore "o/a" [("cpu", 4), ("mem", 50)]) p' e' R) :=
  ⟨by decide, by decide, by decide, by decide, by decide, by decide, by decide, by decide,
   by decide, by decide, by decide, by decide, by decide,
   containment_after_set demoStore _ "o/a" "o/default" [("cpu", 4), ("mem", 50)] demoA demoRoot
     (by decide) (by decide) (by decide) (by decide) (by decide) (by decide) (by decide)⟩

/-- C1 as stated fails: after `Add` of the root `o/r` with `2 ^ 53 + 2` mem and of its children
`o/a` and `o/b` with `2 ^ 53` and 1 mem, `SetResourceQuotas(o/b, {mem: 3})` returns no error:
the `float64` sum of the children is `2 ^ 53`, the available quantity of the root is read as
2 and with the 1 mem `o/b` holds the request of 3 is admitted. Afterwards `o/b` holds 3 mem,
more than the total of the root minus the total of the other child, which is 2, and
`GetAvailableResources(o/r)` returns -2 mem in the committed state. -/
theorem containment_fails_by_rounding :
    overRun1.2 = none ∧ overRun2.2 = none ∧ overRun3.2 = none ∧
    overSet.2 = none ∧
    (matchEntity overSet.1 "o/r").map
        (fun p => (wholeQuota "mem" p, (childrenOf overSet.1 p).map (wholeQuota "mem")))
      = [(9007199254740994, [9007199254740992, 3])] ∧
    (matchEntity overSet.1 "o/b").map
        (fun e => (parentsOf overSet.1 e).map
          (fun p => (stringId p, decide (contained overSet.1 p e "mem"))))
      = [[(some "o/r", false)]] ∧
    (3 : Int) > 9007199254740994 - 9007199254740992 ∧
    GetAvailableResources overSet.1 "o/r" = .ok [("mem", -2)] := by
  refine ⟨by decide, by decide, by decide, by decide, by decide, by decide, by decide,
    by decide⟩

/-! ## The floor -/

/-- C2 fails on the code. From the empty store: `Add` of the root `o/default` with 10 cpu,
`AddApp` of `o/default/web` twice, `SetResourceQuotas` of the app to 10 cpu and
`SetResourceQuotas` of the root to 0 mem all succeed. The second `AddApp` creates a second node
with the id of the app, the `SET` writes both nodes while the checks read one, and after the last
call the root holds 10 cpu while its two children hold 20. -/
theorem floor_broken_by_duplicate_app :
    dupRun1.2 = none ∧ dupRun2.2 = none ∧ dupRun3.2 = none ∧ dupRun4.2 = none ∧
    dupRun5.2 = none ∧
    (matchEntity dupRun5.1 "o/default").map
      (fun n => (quotaOf "cpu" n, totalUtilized dupRun5.1 "cpu" n)) = [(10, 20)] ∧
    (matchEntity dupRun5.1 "o/default/web").map (quotaOf "cpu") = [10, 10] := by
  decide


/-! ## Reading records back -/

theorem resolveAvailable_id (tx : Graph) (ns ns' : Namespace)
    (h : resolveAvailable tx ns = .ok ns') :
    ns'.orgId = ns.orgId ∧ ns'.name = ns.name ∧ ns'.resourceQuotas = ns.resourceQuotas := by
  unfold resolveAvailable at h
  cases ha : GetAvailableResources tx ns.GetId with
  | error e => rw [ha] at h; cases h
  | ok available =>
    rw [ha] at h
    simp only [Namespace.SetAvailable] at h
    split at h
    · cases h
    · simp only [Except.ok.injEq] at h
      subst h
      exact ⟨rfl, rfl, rfl⟩

theorem readNamespace_id (properties : Props) (id : String) (ns : Namespace)
    (h : readNamespace properties id = .ok (some ns)) :
    assocGet properties "org_id" = some (.str ns.orgId) ∧
    assocGet properties "name" = some (.str ns.name) ∧
    ns.resourceQuotas = readQuotaProps properties := by
  unfold readNamespace at h
  split at h
  · rename_i orgId ho
    split at h
    · rename_i name hn
      split at h
      · split at h
        · split at h
          · simp only [Except.ok.injEq, Option.some.injEq] at h
            subst h
            exact ⟨ho, hn, rfl⟩
          · cases h
        · cases h
      · cases h
    · cases h
  · cases h


/-! ## The removal guard -/

/-- C7 fails on the code. The store `renamedStore` is reached from `demoStore` by the handler
`SetNamespaceResources` for `o/a` with the request `name: 0`, which returns no error, `name`
being no resource kind, and overwrites the name of `o/a`. There the root `o/default` exists and
has its two child namespaces, the hierarchy lookup fails on the record of `o/a`, the handler
`RemoveNamespace` skips its guard, `Remove` is called and the root is deleted with its edges. -/
theorem remove_guard_skipped_on_error :
    (SetNamespaceResources demoStore "o" "a" [("name", 0)]).2 = none ∧
    matchNamespace renamedStore (MakeNamespaceId "o" "default") = [demoRoot] ∧
    (childrenOf renamedStore demoRoot).map (fun c => (c.nid, c.isNamespace))
      = [(2, true), (3, true)] ∧
    GetHierarchy renamedStore 5 (MakeNamespaceId "o" "default")
      = some (.error (.badRecord "o/default" "name")) ∧
    (RemoveNamespace renamedStore 5 "o" "default").map
      (fun r => (r.2, matchNamespace r.1 (MakeNamespaceId "o" "default"), r.1.edges,
        r.1.nodes.map Node.nid))
      = some (none, [], [(2, 4)], [2, 3, 4]) := by
  refine ⟨by decide, by decide, by decide, by rfl, by decide⟩


/-! ## Tree reconstruction -/

theorem matchNamespace_eq_filter (g : Graph) (id : String) :
    matchNamespace g id = (matchEntity g id).filter (fun n => n.isNamespace) := by
  unfold matchNamespace matchEntity
  rw [List.filter_filter]

theorem matchNamespace_of_entity (g : Graph) (id : String) (n : Node)
    (h : matchEntity g id = [n]) (hn : n.isNamespace = true) : matchNamespace g id = [n] := by
  rw [matchNamespace_eq_filter, h]
  simp [hn]

theorem childrenOf_eq (g : Graph) (n : Node) :
    childrenOf g n
      = (g.edges.filter (fun ed => decide (ed.1 = n.nid))).filterMap
          (fun ed => findNode g ed.2) := by
  unfold childrenOf
  exact filterMap_ite g.edges (fun ed => ed.1 = n.nid) (fun ed => findNode g ed.2)

theorem readQuotaProps_memOnly (n : Node) (m : Float64) (h : totalMemOnly n m) :
    readQuotaProps n.props = [("mem", m)] := by
  obtain ⟨h1, h2, h3⟩ := h
  simp [readQuotaProps, SupportedResourceQuotas, h1, h2, h3, mapSet, assocSet]

theorem illTyped_memOnly (n : Node) (m : Float64) (h : totalMemOnly n m) (res : String)
    (hres : res ∈ SupportedResourceQuotas) : illTyped res n = false := by
  obtain ⟨h1, h2, h3⟩ := h
  simp only [SupportedResourceQuotas, List.mem_cons, List.mem_singleton, List.not_mem_nil,
    or_false] at hres
  rcases hres with h | h | h <;> subst h <;> simp [illTyped, h1, h2, h3]

theorem availableStep_single (g : Graph) (id res : String) (n : Node) (acc : ResourceQuotas)
    (hm : matchEntity g id = [n]) (hill : illTyped res n = false)
    (hkids : (childrenOf g n).any (illTyped res) = false) :
    availableStep g id acc res
      = match availableValue g res n with
        | none => .ok acc
        | some a => .ok (mapSet acc res a) := by
  unfold availableStep getAvailableResourcesCypher
  rw [hm]
  simp only [List.any_cons, List.any_nil, hill, hkids, Bool.or_false, Bool.false_eq_true,
    if_false, List.map_cons, List.map_nil]
  cases availableValue g res n <;> rfl

/-- The available resources of an entity whose total is `{mem: m}` and whose children have
totals of that form too. -/
theorem available_memOnly (g : Graph) (id : String) (n : Node) (m : Float64)
    (hm : matchEntity g id = [n]) (hT : totalMemOnly n m)
    (hkids : ∀ c ∈ childrenOf g n, ∃ x, totalMemOnly c x) :
    GetAvailableResources g id = .ok [("mem", m - totalUtilized g "mem" n)] := by
  have hk : ∀ res ∈ SupportedResourceQuotas, (childrenOf g n).any (illTyped res) = false := by
    intro res hres
    rw [List.any_eq_false]
    intro c hc
    obtain ⟨x, hx⟩ := hkids c hc
    simp [illTyped_memOnly c x hx res hres]
  have hmem : "mem" ∈ SupportedResourceQuotas := by decide
  have hcpu : "cpu" ∈ SupportedResourceQuotas := by decide
  have hdisk : "disk" ∈ SupportedResourceQuotas := by decide
  have s1 := fun acc => availableStep_single g id "mem" n acc hm
    (illTyped_memOnly n m hT _ hmem) (hk _ hmem)
  have s2 := fun acc => availableStep_single g id "cpu" n acc hm
    (illTyped_memOnly n m hT _ hcpu) (hk _ hcpu)
  have s3 := fun acc => availableStep_single g id "disk" n acc hm
    (illTyped_memOnly n m hT _ hdisk) (hk _ hdisk)
  obtain ⟨h1, h2, h3⟩ := hT
  have v1 : availableValue g "mem" n = some (m - totalUtilized g "mem" n) := by
    simp [availableValue, h1]
  have v2 : availableValue g "cpu" n = none := by simp [availableValue, h2]
  have v3 : availableValue g "disk" n = none := by simp [availableValue, h3]
  simp only [v1, v2, v3] at s1 s2 s3
  unfold GetAvailableResources SupportedResourceQuotas
  simp only [List.foldlM_cons, List.foldlM_nil, s1, s2, s3, bind, Except.bind, pure,
    Except.pure]
  rfl

theorem setAvailable_mem (o n pv lb : String) (m x : Float64) :
    (memNamespace o n pv lb m []).SetAvailable [("mem", x)]
      = .ok (memNamespace o n pv lb m [("mem", x)]) := by
  have : firstUnsupported [("mem", x)] = none := by
    simp [firstUnsupported, SupportedResourceQuotas]
  simp [Namespace.SetAvailable, this, memNamespace, mapsCopy, mapSet, assocSet]

theorem readNamespace_record (n : Node) (id orgId name pv lb : String) (m : Float64)
    (hrec : namespaceRecord n orgId name pv lb) (hT : totalMemOnly n m) :
    readNamespace n.props id = .ok (some (memNamespace orgId name pv lb m [])) := by
  obtain ⟨_, h1, h2, h3, h4, h5⟩ := hrec
  simp [readNamespace, h1, h2, h3, h4, h5, readQuotaProps_memOnly n m hT, memNamespace,
    NewNamespace]

theorem childrenOf_of_edges (g : Graph) (n : Node) (kids : List Node)
    (hnd : (g.nodes.map Node.nid).Nodup) (hkids : ∀ c ∈ kids, c ∈ g.nodes)
    (hedges : g.edges.filter (fun ed => decide (ed.1 = n.nid))
      = kids.map (fun c => (n.nid, c.nid))) :
    childrenOf g n = kids := by
  rw [childrenOf_eq, hedges]
  clear hedges
  induction kids with
  | nil => rfl
  | cons c rest ih =>
    have hc := findNode_of_mem g c hnd (hkids c (by simp))
    simp only [List.map_cons, List.filterMap_cons, hc]
    rw [ih (fun c' hc' => hkids c' (List.mem_cons_of_mem _ hc'))]

theorem memNamespace_id (o n pv lb : String) (m : Float64) (av : ResourceQuotas) :
    (memNamespace o n pv lb m av).GetId = MakeNamespaceId o n := rfl

theorem resolve_memNamespace (g : Graph) (o n pv lb : String) (m x : Float64)
    (hav : GetAvailableResources g (MakeNamespaceId o n) = .ok [("mem", x)]) :
    resolveAvailable g (memNamespace o n pv lb m [])
      = .ok (memNamespace o n pv lb m [("mem", x)]) := by
  unfold resolveAvailable
  rw [memNamespace_id, hav]
  exact setAvailable_mem o n pv lb m x

/-- A namespace without children, read back and populated: a node without apps and without
child nodes. -/
theorem populate_leaf (g : Graph) (fuel : Nat) (c : Node) (o n pv lb : String) (a : Float64)
    (hnd : (g.nodes.map Node.nid).Nodup)
    (hc : matchEntity g (MakeNamespaceId o n) = [c])
    (hrec : namespaceRecord c o n pv lb) (hT : totalMemOnly c a)
    (hleaf : g.edges.filter (fun ed => decide (ed.1 = c.nid)) = []) :
    resolveAvailable g (memNamespace o n pv lb a [])
      = .ok (memNamespace o n pv lb a [("mem", a - 0)]) ∧
    populateTree g (fuel + 1) (memNamespace o n pv lb a [("mem", a - 0)])
      = some (.ok (.mk (memNamespace o n pv lb a [("mem", a - 0)]) [] [])) := by
  have hkids : childrenOf g c = [] :=
    childrenOf_of_edges g c [] hnd (by simp) (by simpa using hleaf)
  have hns := matchNamespace_of_entity g _ c hc hrec.1
  have hav := available_memOnly g _ c a hc hT (by rw [hkids]; simp)
  have htu : totalUtilized g "mem" c = 0 := by
    simp [totalUtilized, utilizedList, collectQuotas, hkids]
  rw [htu] at hav
  constructor
  · exact resolve_memNamespace g o n pv lb a _ hav
  · simp [populateTree, populateTreeNode, FindChildren, getChildAppsCypher, getChildren,
      getChildNamespacesCypher, memNamespace_id, hns, hkids, optionalRows, readApps,
      readNamespaces, resolveAll, mapTree]

/-- C8 (amended). A store with distinct internal identities; a namespace `r` with the id `o/nm`,
a readable record and the total `{mem: T}`; its outgoing edges go to exactly two namespaces `c₁`
and `c₂`, each the only entity with its id, with a readable record, with the totals `{mem: a}`
and `{mem: b}`, and without outgoing edges. With any bound of at least 2 on the depth,
`GetHierarchy(o/nm)` returns a tree whose root has for mem the available quantity
`T - (0 + a + b)` and the utilized quantity `T - (T - (0 + a + b))`, in `float64` arithmetic,
the total `{mem: T}`, no apps, and exactly two child nodes, with the totals `{mem: a}` and
`{mem: b}` and no children of their own. When `T`, `a` and `b` are whole numbers, none negative,
with `T` and `a + b` below `2 ^ 53`, the available quantity is `T - a - b` and the utilized
quantity `a + b`. -/
theorem hierarchy_two_children (g : Graph) (fuel : Nat) (r c₁ c₂ : Node)
    (o nm pv lb o₁ n₁ pv₁ lb₁ o₂ n₂ pv₂ lb₂ : String) (T a b : Float64)
    (hnd : (g.nodes.map Node.nid).Nodup)
    (hr : matchEntity g (MakeNamespaceId o nm) = [r])
    (hc₁ : matchEntity g (MakeNamespaceId o₁ n₁) = [c₁])
    (hc₂ : matchEntity g (MakeNamespaceId o₂ n₂) = [c₂])
    (hrec : namespaceRecord r o nm pv lb)
    (hrec₁ : namespaceRecord c₁ o₁ n₁ pv₁ lb₁)
    (hrec₂ : namespaceRecord c₂ o₂ n₂ pv₂ lb₂)
    (hT : totalMemOnly r T) (ha : totalMemOnly c₁ a) (hb : totalMemOnly c₂ b)
    (hedges : g.edges.filter (fun ed => decide (ed.1 = r.nid))
      = [(r.nid, c₁.nid), (r.nid, c₂.nid)])
    (hleaf₁ : g.edges.filter (fun ed => decide (ed.1 = c₁.nid)) = [])
    (hleaf₂ : g.edges.filter (fun ed => decide (ed.1 = c₂.nid)) = []) :
    ∃ tree, GetHierarchy g (fuel + 2) (MakeNamespaceId o nm) = some (.ok tree) ∧
      mapGet tree.Root.Namespace.GetAvailable "mem" = T - (0 + a + b) ∧
      mapGet tree.Root.Namespace.GetUtilized "mem" = T - (T - (0 + a + b)) ∧
      tree.Root.Namespace.GetResourceQuotas = [("mem", T)] ∧
      tree.Root.Apps = [] ∧
      tree.Root.Children.map (fun n => (n.Namespace.GetResourceQuotas, n.Children.length))
        = [([("mem", a)], 0), ([("mem", b)], 0)] ∧
      (∀ x y z : Int, T = Float64.ofInt x → a = Float64.ofInt y → b = Float64.ofInt z →
        0 ≤ x → x < 2 ^ 53 → 0 ≤ y → 0 ≤ z → y + z < 2 ^ 53 →
        mapGet tree.Root.Namespace.GetAvailable "mem" = Float64.ofInt (x - y - z) ∧
        mapGet tree.Root.Namespace.GetUtilized "mem" = Float64.ofInt (y + z)) := by
  have hm₁ := (mem_of_mem_matchEntity g _ c₁ (by rw [hc₁]; simp)).1
  have hm₂ := (mem_of_mem_matchEntity g _ c₂ (by rw [hc₂]; simp)).1
  have hkids : childrenOf g r = [c₁, c₂] :=
    childrenOf_of_edges g r [c₁, c₂] hnd
      (by intro c hc; simp only [List.mem_cons, List.mem_singleton, List.not_mem_nil,
            or_false] at hc; rcases hc with h | h <;> subst h <;> assumption)
      (by simpa using hedges)
  have hns := matchNamespace_of_entity g _ r hr hrec.1
  have hav := available_memOnly g _ r T hr hT (by
    intro c hc
    rw [hkids] at hc
    simp only [List.mem_cons, List.mem_singleton, List.not_mem_nil, or_false] at hc
    rcases hc with h | h
    · exact ⟨a, h ▸ ha⟩
    · exact ⟨b, h ▸ hb⟩)
  have htu : totalUtilized g "mem" r = 0 + a + b := by
    simp [totalUtilized, utilizedList, collectQuotas, hkids, ha.1, hb.1]
  rw [htu] at hav
  obtain ⟨hres₁, hpop₁⟩ := populate_leaf g fuel c₁ o₁ n₁ pv₁ lb₁ a hnd hc₁ hrec₁ ha hleaf₁
  obtain ⟨hres₂, hpop₂⟩ := populate_leaf g fuel c₂ o₂ n₂ pv₂ lb₂ b hnd hc₂ hrec₂ hb hleaf₂
  have hget : get g (MakeNamespaceId o nm)
      = .ok (memNamespace o nm pv lb T [("mem", T - (0 + a + b))]) := by
    unfold get getNamespaceCypher
    rw [hns]
    simp only [List.map_cons, List.map_nil, readNamespaces,
      readNamespace_record r _ o nm pv lb T hrec hT]
    exact resolve_memNamespace g o nm pv lb T _ hav
  have hptn : populateTreeNode g (memNamespace o nm pv lb T [("mem", T - (0 + a + b))])
      = .ok ([], [memNamespace o₁ n₁ pv₁ lb₁ a [("mem", a - 0)],
                  memNamespace o₂ n₂ pv₂ lb₂ b [("mem", b - 0)]]) := by
    simp [populateTreeNode, FindChildren, getChildAppsCypher, getChildren,
      getChildNamespacesCypher, memNamespace_id, hns, hkids, hrec₁.1, hrec₂.1, optionalRows,
      readApps, readNamespaces, readNamespace_record c₁ _ o₁ n₁ pv₁ lb₁ a hrec₁ ha,
      readNamespace_record c₂ _ o₂ n₂ pv₂ lb₂ b hrec₂ hb, resolveAll, hres₁, hres₂]
  have hA : mapGet (memNamespace o nm pv lb T [("mem", T - (0 + a + b))]).GetAvailable "mem"
      = T - (0 + a + b) := by
    simp [Namespace.GetAvailable, memNamespace, mapsCopy, mapSet, assocSet, mapGet, assocGet]
  have hU : mapGet (memNamespace o nm pv lb T [("mem", T - (0 + a + b))]).GetUtilized "mem"
      = T - (T - (0 + a + b)) := by
    simp [Namespace.GetUtilized, memNamespace, mapsCopy, mapSet, assocSet, mapGet, assocGet]
  refine ⟨⟨.mk (memNamespace o nm pv lb T [("mem", T - (0 + a + b))]) []
      [.mk (memNamespace o₁ n₁ pv₁ lb₁ a [("mem", a - 0)]) [] [],
       .mk (memNamespace o₂ n₂ pv₂ lb₂ b [("mem", b - 0)]) [] []]⟩,
    ?_, hA, hU, ?_, ?_, ?_, ?_⟩
  · unfold GetHierarchy
    rw [hget]
    simp only
    have hstep : ∀ ns : Namespace, populateTree g (fuel + 2) ns
        = match populateTreeNode g ns with
          | .error e => some (.error e)
          | .ok (apps, children) =>
            match mapTree (populateTree g (fuel + 1)) children with
            | none => none
            | some (.error e) => some (.error e)
            | some (.ok nodes) => some (.ok (.mk ns apps nodes)) := fun _ => rfl
    rw [hstep, hptn]
    simp only [mapTree, hpop₁, hpop₂]
  · simp [NamespaceTreeNode.Namespace, Namespace.GetResourceQuotas, memNamespace, mapsCopy,
      mapSet, assocSet]
  · rfl
  · simp [NamespaceTreeNode.Children, NamespaceTreeNode.Namespace,
      Namespace.GetResourceQuotas, memNamespace, mapsCopy, mapSet, assocSet]
  · intro x y z hx hy hz hx0 hx1 hy0 hz0 hyz
    have hx1' := hx1
    have hyz' := hyz
    rw [← two53_cast] at hx1' hyz'
    have bx : x.natAbs < 2 ^ 53 := natAbs_lt_of_bounds x _ hx0 hx1'
    have by0 : y.natAbs < 2 ^ 53 :=
      natAbs_lt_of_bounds y _ hy0 (lt_of_le_of_lt (by linarith) hyz')
    have bz : z.natAbs < 2 ^ 53 :=
      natAbs_lt_of_bounds z _ hz0 (lt_of_le_of_lt (by linarith) hyz')
    have byz : (y + z).natAbs < 2 ^ 53 := natAbs_lt_of_bounds _ _ (by linarith) hyz'
    have hsum : (0 : Float64) + a + b = Float64.ofInt (y + z) := by
      rw [hy, hz]
      have h0 : (0 : Float64) = Float64.ofInt 0 := rfl
      rw [h0, Float64.ofInt_add 0 y (by decide) by0, Int.zero_add,
        Float64.ofInt_add y z by0 bz]
    have hdiff : T - (0 + a + b) = Float64.ofInt (x - y - z) := by
      rw [hsum, hx, Float64.ofInt_sub x (y + z) bx byz]
      congr 1
      ring
    have bd : (x - y - z).natAbs < 2 ^ 53 := by
      have h1 : x - y - z < ((2 ^ 53 : Nat) : Int) := by linarith
      have h2 : -((2 ^ 53 : Nat) : Int) < x - y - z := by linarith
      omega
    refine ⟨?_, ?_⟩
    · show mapGet (memNamespace o nm pv lb T [("mem", T - (0 + a + b))]).GetAvailable "mem" = _
      rw [hA, hdiff]
    · show mapGet (memNamespace o nm pv lb T [("mem", T - (0 + a + b))]).GetUtilized "mem" = _
      rw [hU, hdiff, hx, Float64.ofInt_sub x (x - y - z) bx bd]
      congr 1
      ring

/-- The store `treeStore` is the one the handler `AddNamespace` builds from the empty database:
the root `o/default` with 100 mem, then `o/a` with 40 mem and `o/b` with 30 mem under it. -/
theorem treeStore_built : treeBuilt = treeStore := by decide

/-- C8 (amended), at the store `treeStore`: a root with 100 mem and children with 40 and 30
mem; the available quantity of the root is 30 and the utilized quantity 70. -/
theorem hierarchy_two_children_witness :
    (treeStore.nodes.map Node.nid).Nodup ∧
    matchEntity treeStore (MakeNamespaceId "o" "default") = [treeRoot] ∧
    matchEntity treeStore (MakeNamespaceId "o" "a") = [treeA] ∧
    matchEntity treeStore (MakeNamespaceId "o" "b") = [treeB] ∧
    namespaceRecord treeRoot "o" "default" "v1" "null" ∧
    namespaceRecord treeA "o" "a" "v1" "null" ∧
    namespaceRecord treeB "o" "b" "v1" "null" ∧
    totalMemOnly treeRoot 100 ∧ totalMemOnly treeA 40 ∧ totalMemOnly treeB 30 ∧
    treeStore.edges.filter (fun ed => decide (ed.1 = treeRoot.nid))
      = [(treeRoot.nid, treeA.nid), (treeRoot.nid, treeB.nid)] ∧
    treeStore.edges.filter (fun ed => decide (ed.1 = treeA.nid)) = [] ∧
    treeStore.edges.filter (fun ed => decide (ed.1 = treeB.nid)) = [] ∧
    (100 : Float64) - (0 + 40 + 30) = 30 ∧ (100 : Float64) - (100 - (0 + 40 + 30)) = 70 ∧
    ∃ tree, GetHierarchy treeStore (0 + 2) (MakeNamespaceId "o" "default") = some (.ok tree) ∧
      mapGet tree.Root.Namespace.GetAvailable "mem" = 100 - (0 + 40 + 30) ∧
      mapGet tree.Root.Namespace.GetUtilized "mem" = 100 - (100 - (0 + 40 + 30)) ∧
      tree.Root.Namespace.GetResourceQuotas = [("mem", 100)] ∧
      tree.Root.Apps = [] ∧
      tree.Root.Children.map (fun n => (n.Namespace.GetResourceQuotas, n.Children.length))
        = [([("mem", 40)], 0), ([("mem", 30)], 0)] ∧
      (∀ x y z : Int, (100 : Float64) = Float64.ofInt x → (40 : Float64) = Float64.ofInt y →
        (30 : Float64) = Float64.ofInt z →
        0 ≤ x → x < 2 ^ 53 → 0 ≤ y → 0 ≤ z → y + z < 2 ^ 53 →
        mapGet tree.Root.Namespace.GetAvailable "mem" = Float64.ofInt (x - y - z) ∧
        mapGet tree.Root.Namespace.GetUtilized "mem" = Float64.ofInt (y + z)) :=
  ⟨by decide, by decide, by decide, by decide, by decide, by decide, by decide, by decide,
   by decide, by decide, by decide, by decide, by decide, by decide, by decide,
   hierarchy_two_children treeStore 0 treeRoot treeA treeB
     "o" "default" "v1" "null" "o" "a" "v1" "null" "o" "b" "v1" "null" 100 40 30
     (by decide) (by decide) (by decide) (by decide) (by decide) (by decide) (by decide)
     (by decide) (by decide) (by decide) (by decide) (by decide) (by decide)⟩

/-- C8 as stated fails: after `Add` of the root `o/r` with `2 ^ 53 + 2` mem and of its two
children with `2 ^ 53` and 1 mem, `GetHierarchy(o/r)` returns a root with the available
quantity 2, where `T - a - b` is 1, and the utilized quantity `2 ^ 53`, where `a + b` is
`2 ^ 53 + 1`: the sum of the children is rounded. -/
theorem hierarchy_two_children_rounded :
    overRun1.2 = none ∧ overRun2.2 = none ∧ overRun3.2 = none ∧
    (GetHierarchy overRun3.1 3 "o/r").map (fun r => r.map (fun tree =>
        (tree.Root.Namespace.GetResourceQuotas,
         tree.Root.Children.map (fun n => n.Namespace.GetResourceQuotas))))
      = some (.ok ([("mem", .fin (9007199254740994 * Float64.unit))],
          [[("mem", .fin (9007199254740992 * Float64.unit))],
           [("mem", .fin (1 * Float64.unit))]])) ∧
    (GetHierarchy overRun3.1 3 "o/r").map (fun r => r.map (fun tree =>
        (mapGet tree.Root.Namespace.GetAvailable "mem",
         mapGet tree.Root.Namespace.GetUtilized "mem")))
      = some (.ok (.fin (2 * Float64.unit), .fin (9007199254740992 * Float64.unit))) ∧
    (9007199254740994 : Int) - 9007199254740992 - 1 = 1 ∧
    (9007199254740992 : Int) + 1 = 9007199254740993 := by
  decide

/-! ## The value of `GetAvailableResources` -/

theorem availableStep_typed (g : Graph) (id res : String) (n : Node) (rest : List Node)
    (acc : ResourceQuotas) (hm : matchEntity g id = n :: rest) (hty : quotasTyped g)
    (hres : res ∈ SupportedResourceQuotas) :
    availableStep g id acc res
      = match availableValue g res n with
        | none => .ok acc
        | some a => .ok (mapSet acc res a) := by
  have hany : ((n :: rest).any
      fun m => illTyped res m || (childrenOf g m).any (illTyped res)) = false := by
    rw [List.any_eq_false]
    intro m hmem
    have hmg : m ∈ g.nodes := by
      have : m ∈ matchEntity g id := by rw [hm]; exact hmem
      exact (mem_of_mem_matchEntity g id m this).1
    have hkids : (childrenOf g m).any (illTyped res) = false := by
      rw [List.any_eq_false]
      intro c hc
      simp [hty c (mem_of_mem_childrenOf g m c hc) res hres]
    simp [hty m hmg res hres, hkids]
  unfold availableStep getAvailableResourcesCypher
  rw [hm, hany]
  simp only [Bool.false_eq_true, if_false, List.map_cons]
  cases availableValue g res n <;> rfl

/-- The map `GetAvailableResources` returns for an existing entity: one entry for each supported
resource for which the first entity with the id has a stored total, in the order of
`SupportedResourceQuotas`. -/
theorem GetAvailableResources_eq (g : Graph) (id : String) (n : Node) (rest : List Node)
    (hm : matchEntity g id = n :: rest) (hty : quotasTyped g) :
    GetAvailableResources g id
      = .ok (SupportedResourceQuotas.filterMap
          (fun k => (availableValue g k n).map (fun a => (k, a)))) := by
  have s1 := fun acc => availableStep_typed g id "mem" n rest acc hm hty (by decide)
  have s2 := fun acc => availableStep_typed g id "cpu" n rest acc hm hty (by decide)
  have s3 := fun acc => availableStep_typed g id "disk" n rest acc hm hty (by decide)
  unfold GetAvailableResources SupportedResourceQuotas
  simp only [List.foldlM_cons, List.foldlM_nil, s1, s2, s3, bind, Except.bind, pure,
    Except.pure, List.filterMap_cons, List.filterMap_nil]
  cases availableValue g "mem" n <;> cases availableValue g "cpu" n <;>
    cases availableValue g "disk" n <;> simp [mapSet, assocSet]

/-- C11 (amended). For every existing entity `E` in a store whose resource properties are
numbers, `GetAvailableResources(E)` returns a map; for every supported kind `k` for which the
entity has a stored total `t` the map holds `t - total_utilized`, a `float64` difference, where
`total_utilized` is the `float64` sum of the totals for `k` of the direct children (child
namespaces and apps alike, a child without a total for `k` not counted), added one after the
other from 0, not clamped; for a supported kind without a stored total, and for every other
kind, the map has no entry. When the total is a whole number `x` below `2 ^ 53` in magnitude and
the totals of the children are whole numbers `ys`, none negative, with a sum below `2 ^ 53`, the
entry is the `float64` nearest to `x` minus the sum of `ys`. -/
theorem available_value (g : Graph) (E : String) (n : Node) (rest : List Node)
    (hm : matchEntity g E = n :: rest) (hty : quotasTyped g) :
    ∃ av, GetAvailableResources g E = .ok av ∧
      (∀ k ∈ SupportedResourceQuotas, ∀ t, assocGet n.props k = some (.num t) →
        assocGet av k = some (t - totalUtilized g k n)) ∧
      (∀ k ∈ SupportedResourceQuotas, assocGet n.props k = none → assocGet av k = none) ∧
      (∀ k, k ∉ SupportedResourceQuotas → assocGet av k = none) ∧
      (∀ k ∈ SupportedResourceQuotas, ∀ (x : Int) (ys : List Int),
        assocGet n.props k = some (.num (Float64.ofInt x)) →
        utilizedList g k n = ys.map Float64.ofInt →
        x.natAbs < 2 ^ 53 → (∀ y ∈ ys, 0 ≤ y) → ys.sum < 2 ^ 53 →
        assocGet av k = some (Float64.ofInt (x - ys.sum))) := by
  have hval : ∀ k ∈ SupportedResourceQuotas, ∀ t, assocGet n.props k = some (.num t) →
      assocGet (SupportedResourceQuotas.filterMap
          (fun k => (availableValue g k n).map (fun a => (k, a)))) k
        = some (t - totalUtilized g k n) := by
    intro k hk t ht
    have hv : availableValue g k n = some (t - totalUtilized g k n) := by
      simp [availableValue, ht]
    simp only [SupportedResourceQuotas, List.mem_cons, List.mem_singleton, List.not_mem_nil,
      or_false] at hk
    rcases hk with h | h | h <;> subst h <;>
      simp only [SupportedResourceQuotas, List.filterMap_cons, List.filterMap_nil, hv,
        Option.map_some'] <;>
      cases availableValue g "mem" n <;> cases availableValue g "cpu" n <;>
      cases availableValue g "disk" n <;> simp_all [assocGet]
  refine ⟨_, GetAvailableResources_eq g E n rest hm hty, hval, ?_, ?_, ?_⟩
  · intro k hk ht
    have hv : availableValue g k n = none := by simp [availableValue, ht]
    simp only [SupportedResourceQuotas, List.mem_cons, List.mem_singleton, List.not_mem_nil,
      or_false] at hk
    rcases hk with h | h | h <;> subst h <;>
      simp only [SupportedResourceQuotas, List.filterMap_cons, List.filterMap_nil, hv,
        Option.map_none'] <;>
      cases availableValue g "mem" n <;> cases availableValue g "cpu" n <;>
      cases availableValue g "disk" n <;> simp_all [assocGet]
  · intro k hk
    apply assocGet_eq_none_of_not_mem
    intro hmem
    apply hk
    simp only [List.mem_map, List.mem_filterMap] at hmem
    obtain ⟨⟨k', a⟩, ⟨k'', hk'', hopt⟩, hfst⟩ := hmem
    cases hav : availableValue g k'' n with
    | none => rw [hav] at hopt; cases hopt
    | some a' =>
      rw [hav] at hopt
      simp only [Option.map_some', Option.some.injEq, Prod.mk.injEq] at hopt
      simp only at hfst
      rw [← hfst, ← hopt.1]
      exact hk''
  · intro k hk x ys ht hys hx hy hs
    rw [hval k hk _ ht]
    have hfold : totalUtilized g k n = Float64.ofInt ys.sum := by
      unfold totalUtilized
      rw [hys]
      have := foldl_add_ofInt ys 0 (le_refl 0) hy (by simpa using hs)
      simpa using this
    have hsum : 0 ≤ ys.sum := List.sum_nonneg hy
    have hs' := hs
    rw [← two53_cast] at hs'
    rw [hfold, Float64.ofInt_sub x ys.sum hx (natAbs_lt_of_bounds _ _ hsum hs')]

/-- C11 (amended), at the store `demoStore`: the available resources of `o/a`, which holds 40
mem and 3 cpu and whose app holds 10 mem and 1 cpu, are 30 mem and 2 cpu. -/
theorem available_value_witness :
    matchEntity demoStore "o/a" = demoA :: [] ∧ quotasTyped demoStore ∧
    GetAvailableResources demoStore "o/a" = .ok [("mem", 30), ("cpu", 2)] ∧
    ∃ av, GetAvailableResources demoStore "o/a" = .ok av ∧
      (∀ k ∈ SupportedResourceQuotas, ∀ t, assocGet demoA.props k = some (.num t) →
        assocGet av k = some (t - totalUtilized demoStore k demoA)) ∧
      (∀ k ∈ SupportedResourceQuotas, assocGet demoA.props k = none → assocGet av k = none) ∧
      (∀ k, k ∉ SupportedResourceQuotas → assocGet av k = none) ∧
      (∀ k ∈ SupportedResourceQuotas, ∀ (x : Int) (ys : List Int),
        assocGet demoA.props k = some (.num (Float64.ofInt x)) →
        utilizedList demoStore k demoA = ys.map Float64.ofInt →
        x.natAbs < 2 ^ 53 → (∀ y ∈ ys, 0 ≤ y) → ys.sum < 2 ^ 53 →
        assocGet av k = some (Float64.ofInt (x - ys.sum))) :=
  ⟨by decide, by decide, by decide,
   available_value demoStore "o/a" demoA [] (by decide) (by decide)⟩

/-- C11 as stated fails, in two ways. After `Add` of the root `o/r` with `2 ^ 53 + 2` mem
alone, `GetAvailableResources(o/r)` returns a map with the entry for mem only: it has no entry
for cpu and for disk, where the claim gives 0. After `Add` of three children with `2 ^ 53`, 1
and 2 mem, each admitted, the children hold `2 ^ 53 + 3` mem, one more than the root, and
`GetAvailableResources(o/r)` returns 0 mem, where the claim gives -1: the sum of the children
is rounded to `2 ^ 53 + 2`. -/
theorem available_omitted_or_rounded :
    overRun1.2 = none ∧
    GetAvailableResources overRun1.1 "o/r" = .ok [("mem", 9007199254740994)] ∧
    assocGet ([("mem", 9007199254740994)] : ResourceQuotas) "cpu" = none ∧
    overRun2.2 = none ∧ overRun3.2 = none ∧ overRun4.2 = none ∧
    (matchEntity overRun4.1 "o/r").map
        (fun n => (quotaOf "mem" n, utilizedList overRun4.1 "mem" n))
      = [(.fin (9007199254740994 * Float64.unit),
          [.fin (9007199254740992 * Float64.unit), .fin (1 * Float64.unit),
           .fin (2 * Float64.unit)])] ∧
    (9007199254740994 : Int) - (9007199254740992 + 1 + 2) = -1 ∧
    GetAvailableResources overRun4.1 "o/r" = .ok [("mem", .fin 0)] ∧
    Float64.fin 0 ≠ .fin (-1 * Float64.unit) := by
  decide

/-! ## `SetResourceQuotas` without the parent check -/

/-- When the parent lookup returns an error, the call is decided by the reads of the entity and
the child-utilization check alone. -/
theorem set_of_lookup_error (g : Graph) (E : String) (req total avail : ResourceQuotas)
    (e : Err) (hpe : getParentEntity g E = .error e)
    (hq : getQuotas g E = .ok total) (hav : GetAvailableResources g E = .ok avail) :
    SetResourceQuotas g E req
      = match checkUtilized total avail req with
        | .error e' => .error e'
        | .ok () => .ok (setResourceQuotas g E req) := by
  unfold SetResourceQuotas parentAdmission
  rw [hq, hpe]
  simp only
  rw [hav]
  try rfl

theorem getParentEntity_of_root (g : Graph) (E : String) (n : Node) (rest : List Node)
    (hm : matchEntity g E = n :: rest) (hroot : parentsOf g n = []) :
    getParentEntity g E = .error .noProperties := by
  unfold getParentEntity getParentEntityCypher
  rw [hm]
  simp [hroot, optionalRows, readEntityId]

/-- C12 (amended). An entity `E` without a parent (the first entity with the id has no incoming
edge), in a store whose resource properties are numbers, with `total` the quotas read for it and
`avail` its available resources: `SetResourceQuotas(E, req)` makes no parent-capacity check; it
returns no error if and only if the `float64` test `total[k] - avail[k] > req[k]` is false for
every entry of the request, however large the requested quantities, and it then commits the
writes of the request (stated for keys that are property names). When no requested quantity and
no difference `total[k] - avail[k]` is not-a-number, the test is false exactly when
`req[k] >= total[k] - avail[k]`. -/
theorem root_set_iff (g : Graph) (E : String) (n : Node) (rest : List Node)
    (req : ResourceQuotas)
    (hm : matchEntity g E = n :: rest) (hroot : parentsOf g n = []) (hty : quotasTyped g) :
    ∃ total avail, getQuotas g E = .ok total ∧ GetAvailableResources g E = .ok avail ∧
      parentAdmission g E total req = .ok () ∧
      ((SetResourceQuotasNil g E req).2 = none ↔
        ∀ rq ∈ req, ¬ (mapGet total rq.1 - mapGet avail rq.1 > rq.2)) ∧
      ((∀ rq ∈ req, rq.2 ≠ Float64.nan ∧
          mapGet total rq.1 - mapGet avail rq.1 ≠ Float64.nan) →
        ((SetResourceQuotasNil g E req).2 = none ↔
          ∀ rq ∈ req, mapGet total rq.1 - mapGet avail rq.1 ≤ rq.2)) ∧
      ((∀ rq ∈ req, propertyName rq.1 = true) → (SetResourceQuotasNil g E req).2 = none →
        (SetResourceQuotasNil g E req).1 = setResourceQuotas g E req) := by
  have hq : getQuotas g E = .ok (readQuotaProps n.props) := by
    simp [getQuotas, getEntityCypher, hm, readQuotas]
  have hav := GetAvailableResources_eq g E n rest hm hty
  have hpe := getParentEntity_of_root g E n rest hm hroot
  have hset := set_of_lookup_error g E req _ _ _ hpe hq hav
  have hiff : (SetResourceQuotasNil g E req).2 = none ↔
      ∀ rq ∈ req, ¬ (mapGet (readQuotaProps n.props) rq.1
        - mapGet (SupportedResourceQuotas.filterMap
            (fun k => (availableValue g k n).map (fun a => (k, a)))) rq.1 > rq.2) := by
    rw [← checkUtilized_ok_iff]
    unfold SetResourceQuotasNil commitOrRollback
    rw [hset]
    cases hc : checkUtilized (readQuotaProps n.props) _ req with
    | error e' => simp
    | ok u => simp
  refine ⟨_, _, hq, hav, ?_, hiff, ?_, ?_⟩
  · simp [parentAdmission, hpe]
  · intro hnum
    rw [hiff]
    constructor
    · intro h rq hrq
      exact (Float64.not_gt_iff_le _ _ (hnum rq hrq).2 (hnum rq hrq).1).mp (h rq hrq)
    · intro h rq hrq
      exact (Float64.not_gt_iff_le _ _ (hnum rq hrq).2 (hnum rq hrq).1).mpr (h rq hrq)
  · intro _
    unfold SetResourceQuotasNil commitOrRollback
    rw [hset]
    cases hc : checkUtilized (readQuotaProps n.props) _ req with
    | error e' => simp
    | ok u => simp

/-- C12 (amended), at the store `demoStore`: the root `o/default` holds 100 mem of which its
children use 70; a request of 1000000 mem is committed. -/
theorem root_set_iff_witness :
    matchEntity demoStore "o/default" = demoRoot :: [] ∧ parentsOf demoStore demoRoot = [] ∧
    quotasTyped demoStore ∧
    (SetResourceQuotasNil demoStore "o/default" [("mem", 1000000)]).2 = none ∧
    ∃ total avail, getQuotas demoStore "o/default" = .ok total ∧
      GetAvailableResources demoStore "o/default" = .ok avail ∧
      parentAdmission demoStore "o/default" total [("mem", 1000000)] = .ok () ∧
      ((SetResourceQuotasNil demoStore "o/default" [("mem", 1000000)]).2 = none ↔
        ∀ rq ∈ [("mem", (1000000 : Float64))],
          ¬ (mapGet total rq.1 - mapGet avail rq.1 > rq.2)) ∧
      ((∀ rq ∈ [("mem", (1000000 : Float64))], rq.2 ≠ Float64.nan ∧
          mapGet total rq.1 - mapGet avail rq.1 ≠ Float64.nan) →
        ((SetResourceQuotasNil demoStore "o/default" [("mem", 1000000)]).2 = none ↔
          ∀ rq ∈ [("mem", (1000000 : Float64))],
            mapGet total rq.1 - mapGet avail rq.1 ≤ rq.2)) ∧
      ((∀ rq ∈ [("mem", (1000000 : Float64))], propertyName rq.1 = true) →
        (SetResourceQuotasNil demoStore "o/default" [("mem", 1000000)]).2 = none →
        (SetResourceQuotasNil demoStore "o/default" [("mem", 1000000)]).1
          = setResourceQuotas demoStore "o/default" [("mem", 1000000)]) :=
  ⟨by decide, by decide, by decide, by decide,
   root_set_iff demoStore "o/default" demoRoot [] [("mem", 1000000)] (by decide) (by decide)
     (by decide)⟩

/-- C12 as stated fails: `Add` of the root `o/r` with a mem total that is not-a-number returns
no error, and then `SetResourceQuotas(o/r, {mem: -5})` returns no error and commits -5,
although `-5 >= total[mem] - available[mem]` does not hold: the difference is not-a-number and
every comparison with it is false. -/
theorem root_set_nan_admits :
    nanRun1.2 = none ∧
    (matchEntity nanRun1.1 "o/r").map (fun n => (parentsOf nanRun1.1 n, quotaOf "mem" n))
      = [([], Float64.nan)] ∧
    getQuotas nanRun1.1 "o/r" = .ok [("mem", Float64.nan)] ∧
    GetAvailableResources nanRun1.1 "o/r" = .ok [("mem", Float64.nan)] ∧
    nanRun2.2 = none ∧
    (matchEntity nanRun2.1 "o/r").map (quotaOf "mem") = [-5] ∧
    ¬ (mapGet [("mem", Float64.nan)] "mem" - mapGet [("mem", Float64.nan)] "mem"
        ≤ (-5 : Float64)) := by
  decide

/-- C20. Whenever the parent lookup of `SetResourceQuotas(E, req)` returns an error, whatever
the error, the parent-capacity check is skipped: with `total` the quotas read for `E` and `avail`
its available resources, the call returns the error of the child-utilization check when that
check fails, and otherwise commits the writes of the request, as it does for a root; so it
returns no error if and only if the test `total[k] - avail[k] > req[k]` of that check is false
for every entry, whatever the parent of `E` has left; when no requested quantity and no
difference `total[k] - avail[k]` is not-a-number, that is if and only if
`req[k] >= total[k] - avail[k]` for every entry. -/
theorem parent_lookup_error_skips_check (g : Graph) (E : String)
    (req total avail : ResourceQuotas) (e : Err)
    (hpe : getParentEntity g E = .error e)
    (hq : getQuotas g E = .ok total) (hav : GetAvailableResources g E = .ok avail) :
    parentAdmission g E total req = .ok () ∧
    SetResourceQuotasNil g E req
      = (match checkUtilized total avail req with
         | .error e' => (g, some e')
         | .ok () => (setResourceQuotas g E req, none)) ∧
    ((SetResourceQuotasNil g E req).2 = none ↔
      ∀ rq ∈ req, ¬ (mapGet total rq.1 - mapGet avail rq.1 > rq.2)) ∧
    ((∀ rq ∈ req, rq.2 ≠ Float64.nan ∧
        mapGet total rq.1 - mapGet avail rq.1 ≠ Float64.nan) →
      ((SetResourceQuotasNil g E req).2 = none ↔
        ∀ rq ∈ req, mapGet total rq.1 - mapGet avail rq.1 ≤ rq.2)) := by
  have hset := set_of_lookup_error g E req total avail e hpe hq hav
  have hiff : (SetResourceQuotasNil g E req).2 = none ↔
      ∀ rq ∈ req, ¬ (mapGet total rq.1 - mapGet avail rq.1 > rq.2) := by
    rw [← checkUtilized_ok_iff]
    unfold SetResourceQuotasNil commitOrRollback
    rw [hset]
    cases hc : checkUtilized total avail req with
    | error e' => simp
    | ok u => simp
  refine ⟨by simp [parentAdmission, hpe], ?_, hiff, ?_⟩
  · unfold SetResourceQuotasNil commitOrRollback
    rw [hset]
    cases hc : checkUtilized total avail req with
    | error e' => rfl
    | ok u => rfl
  · intro hnum
    rw [hiff]
    constructor
    · intro h rq hrq
      exact (Float64.not_gt_iff_le _ _ (hnum rq hrq).2 (hnum rq hrq).1).mp (h rq hrq)
    · intro h rq hrq
      exact (Float64.not_gt_iff_le _ _ (hnum rq hrq).2 (hnum rq hrq).1).mpr (h rq hrq)

/-- C20, at the store `lostParentStore`: `o/a` is still a child of the former root, which
holds 100 mem and whose identifier is no longer a string, the parent lookup fails with the
invalid-id error, and a request of 1000 mem for `o/a` is committed. -/
theorem parent_lookup_error_skips_check_witness :
    getParentEntity lostParentStore "o/a" = .error .invalidIdType ∧
    getQuotas lostParentStore "o/a" = .ok [("mem", 40), ("cpu", 3)] ∧
    GetAvailableResources lostParentStore "o/a" = .ok [("mem", 30), ("cpu", 2)] ∧
    (parentsOf lostParentStore demoA).map (fun p => quotaOf "mem" p) = [100] ∧
    (matchEntity (SetResourceQuotasNil lostParentStore "o/a" [("mem", 1000)]).1 "o/a").map
      (quotaOf "mem") = [1000] ∧
    parentAdmission lostParentStore "o/a" [("mem", 40), ("cpu", 3)] [("mem", 1000)] = .ok () ∧
    SetResourceQuotasNil lostParentStore "o/a" [("mem", 1000)]
      = (match checkUtilized [("mem", 40), ("cpu", 3)] [("mem", 30), ("cpu", 2)]
            [("mem", 1000)] with
         | .error e' => (lostParentStore, some e')
         | .ok () => (setResourceQuotas lostParentStore "o/a" [("mem", 1000)], none)) ∧
    ((SetResourceQuotasNil lostParentStore "o/a" [("mem", 1000)]).2 = none ↔
      ∀ rq ∈ [("mem", (1000 : Float64))],
        ¬ (mapGet [("mem", 40), ("cpu", 3)] rq.1 - mapGet [("mem", 30), ("cpu", 2)] rq.1
            > rq.2)) ∧
    ((∀ rq ∈ [("mem", (1000 : Float64))], rq.2 ≠ Float64.nan ∧
        mapGet [("mem", 40), ("cpu", 3)] rq.1 - mapGet [("mem", 30), ("cpu", 2)] rq.1
          ≠ Float64.nan) →
      ((SetResourceQuotasNil lostParentStore "o/a" [("mem", 1000)]).2 = none ↔
        ∀ rq ∈ [("mem", (1000 : Float64))],
          mapGet [("mem", 40), ("cpu", 3)] rq.1 - mapGet [("mem", 30), ("cpu", 2)] rq.1
            ≤ rq.2)) :=
  ⟨by decide, by decide, by decide, by decide, by decide,
   parent_lookup_error_skips_check lostParentStore "o/a" [("mem", 1000)]
     [("mem", 40), ("cpu", 3)] [("mem", 30), ("cpu", 2)] .invalidIdType
     (by decide) (by decide) (by decide)⟩

/-! ## Validation of resource names in the domain -/

theorem supported_iff (resource : String) :
    SupportedResourceQuotas.contains resource = true ↔
      (resource = "mem" ∨ resource = "cpu" ∨ resource = "disk") := by
  simp [SupportedResourceQuotas]

theorem namespace_addResourceQuota_eq (n : Namespace) (resource : String) (quota : Float64) :
    n.AddResourceQuota resource quota
      = if resource = "mem" ∨ resource = "cpu" ∨ resource = "disk" then
          .ok { n with resourceQuotas := assocSet n.resourceQuotas resource quota }
        else .error (.unsupportedResource resource) := by
  unfold Namespace.AddResourceQuota
  by_cases h : resource = "mem" ∨ resource = "cpu" ∨ resource = "disk"
  · rw [if_pos ((supported_iff resource).mpr h), if_pos h]
    rfl
  · rw [if_neg (fun c => h ((supported_iff resource).mp c)), if_neg h]

theorem app_addResourceQuota_eq (a : App) (resource : String) (quota : Float64) :
    a.AddResourceQuota resource quota
      = if resource = "mem" ∨ resource = "cpu" ∨ resource = "disk" then
          .ok { a with resourceQuotas := assocSet a.resourceQuotas resource quota }
        else .error (.unsupportedResource resource) := by
  unfold App.AddResourceQuota
  by_cases h : resource = "mem" ∨ resource = "cpu" ∨ resource = "disk"
  · rw [if_pos ((supported_iff resource).mpr h), if_pos h]
    rfl
  · rw [if_neg (fun c => h ((supported_iff resource).mp c)), if_neg h]

/-- C19. For every `Namespace` and every `App`, `AddResourceQuota(resource, quota)` returns an
error if and only if the resource is none of `mem`, `cpu`, `disk`, and then leaves the receiver
as it was; otherwise it returns no error, the receiver holds the quota for the resource, the
quotas of all other resources are as before and so is the rest of the receiver. -/
theorem add_resource_quota_spec (n : Namespace) (a : App) (resource : String) (quota : Float64) :
    ((n.AddResourceQuotaStmt resource quota).2 ≠ none ↔
      (resource ≠ "mem" ∧ resource ≠ "cpu" ∧ resource ≠ "disk")) ∧
    ((n.AddResourceQuotaStmt resource quota).2 ≠ none →
      (n.AddResourceQuotaStmt resource quota)
        = (n, some (.unsupportedResource resource))) ∧
    ((n.AddResourceQuotaStmt resource quota).2 = none →
      assocGet (n.AddResourceQuotaStmt resource quota).1.resourceQuotas resource = some quota ∧
      (∀ k, k ≠ resource →
        assocGet (n.AddResourceQuotaStmt resource quota).1.resourceQuotas k
          = assocGet n.resourceQuotas k) ∧
      (n.AddResourceQuotaStmt resource quota).1
        = { n with resourceQuotas := (n.AddResourceQuotaStmt resource quota).1.resourceQuotas }) ∧
    ((a.AddResourceQuotaStmt resource quota).2 ≠ none ↔
      (resource ≠ "mem" ∧ resource ≠ "cpu" ∧ resource ≠ "disk")) ∧
    ((a.AddResourceQuotaStmt resource quota).2 ≠ none →
      (a.AddResourceQuotaStmt resource quota)
        = (a, some (.unsupportedResource resource))) ∧
    ((a.AddResourceQuotaStmt resource quota).2 = none →
      assocGet (a.AddResourceQuotaStmt resource quota).1.resourceQuotas resource = some quota ∧
      (∀ k, k ≠ resource →
        assocGet (a.AddResourceQuotaStmt resource quota).1.resourceQuotas k
          = assocGet a.resourceQuotas k) ∧
      (a.AddResourceQuotaStmt resource quota).1
        = { a with resourceQuotas :=
              (a.AddResourceQuotaStmt resource quota).1.resourceQuotas }) := by
  unfold Namespace.AddResourceQuotaStmt App.AddResourceQuotaStmt
  rw [namespace_addResourceQuota_eq, app_addResourceQuota_eq]
  by_cases h : resource = "mem" ∨ resource = "cpu" ∨ resource = "disk"
  · have hno : ¬ (resource ≠ "mem" ∧ resource ≠ "cpu" ∧ resource ≠ "disk") := by tauto
    simp only [if_pos h]
    refine ⟨?_, ?_, ?_, ?_, ?_, ?_⟩
    · simp [hno]
    · intro hc
      exact absurd rfl hc
    · intro _
      exact ⟨assocGet_assocSet_same _ _ _,
        fun k hk => assocGet_assocSet_other _ _ _ _ (fun e => hk e.symm), trivial⟩
    · simp [hno]
    · intro hc
      exact absurd rfl hc
    · intro _
      exact ⟨assocGet_assocSet_same _ _ _,
        fun k hk => assocGet_assocSet_other _ _ _ _ (fun e => hk e.symm), trivial⟩
  · have hyes : resource ≠ "mem" ∧ resource ≠ "cpu" ∧ resource ≠ "disk" := by tauto
    simp only [if_neg h]
    refine ⟨?_, ?_, ?_, ?_, ?_, ?_⟩
    · simp [hyes]
    · intro _
      trivial
    · intro hc
      cases hc
    · simp [hyes]
    · intro _
      trivial
    · intro hc
      cases hc


/-! ## Existence checks of `Add` and `Remove` -/

/-- C16 (amended). For every id that no namespace of the store carries, `Remove(id)` returns no
error and leaves the store as it was. -/
theorem remove_absent (g : Graph) (id : String) (h : matchNamespace g id = []) :
    Remove g id = (g, none) := by
  have hnone : ∀ n ∈ g.nodes, (n.isNamespace && hasId id n) = false := by
    intro n hn
    by_contra hc
    have : n ∈ matchNamespace g id := by
      unfold matchNamespace
      rw [List.mem_filter]
      exact ⟨hn, by simpa using hc⟩
    rw [h] at this
    simp at this
  unfold Remove removeNamespaceCypher
  rw [h]
  have h1 : g.nodes.filter (fun n => !(n.isNamespace && hasId id n)) = g.nodes := by
    rw [List.filter_eq_self]
    intro n hn
    simp [hnone n hn]
  have h2 : g.edges.filter (fun e =>
      !(([] : List Node).any (fun n => n.nid = e.1 || n.nid = e.2))) = g.edges := by
    rw [List.filter_eq_self]
    intro e _
    simp
  rw [h1, h2]

/-- C16 (amended), at the store `demoStore`: no namespace has the id `o/zzz`. -/
theorem remove_absent_witness :
    matchNamespace demoStore "o/zzz" = [] ∧ Remove demoStore "o/zzz" = (demoStore, none) :=
  ⟨by decide, remove_absent demoStore "o/zzz" (by decide)⟩

/-- C16 as stated fails: `Remove` of the id `o/ghost`, which no entity of `demoStore` carries,
returns no error. -/
theorem remove_absent_returns_nil :
    matchEntity demoStore "o/ghost" = [] ∧ (Remove demoStore "o/ghost").2 = none := by
  decide

/-- C14 (amended). A request of the handler `AddNamespace` for a namespace whose id no
namespace of the store carries, with a parent name whose namespace is not in the store: the
handler returns `NotFound`, the store's `Add` is not reached and the store is as before, with no
node and no edge created. -/
theorem add_namespace_parent_missing (g : Graph) (req : AddNamespaceReq)
    (seccomp : Option Status)
    (hN : matchNamespace g (MakeNamespaceId req.OrgId req.Name) = [])
    (hname : req.ParentName ≠ "")
    (hP : matchNamespace g (MakeNamespaceId req.OrgId req.ParentName) = []) :
    AddNamespace g req seccomp = (g, some .notFound) := by
  unfold AddNamespace lookupParent
  rw [get_of_no_namespace g _ hN]
  simp only [hname, ne_eq, not_false_eq_true, if_true]
  rw [get_of_no_namespace g _ hP]

/-- C14 (amended), at the store `demoStore`: the namespace `o/c` under the parent `o/zzz`. -/
theorem add_namespace_parent_missing_witness :
    matchNamespace demoStore (MakeNamespaceId "o" "c") = [] ∧
    "zzz" ≠ "" ∧
    matchNamespace demoStore (MakeNamespaceId "o" "zzz") = [] ∧
    AddNamespace demoStore ⟨"o", "c", "zzz", "v1", "null", [("mem", 1)]⟩ none
      = (demoStore, some .notFound) :=
  ⟨by decide, by decide, by decide,
   add_namespace_parent_missing demoStore ⟨"o", "c", "zzz", "v1", "null", [("mem", 1)]⟩ none
     (by decide) (by decide) (by decide)⟩

/-- C14 as stated fails: at `demoStore` the store's `Add` of the namespace `o/c` with 1 mem and
the parent `o/zzz`, which is not in the store, returns no error; the node `o/c` is created, the
`MATCH` of the parent finds nothing and no edge is created, so `o/c` is a root with 1 mem. -/
theorem add_with_missing_parent_succeeds :
    matchNamespace demoStore (MakeNamespaceId "o" "zzz") = [] ∧
    (Add demoStore (demoNamespace "o" "c" [("mem", 1)])
      (some (demoNamespace "o" "zzz" []))).2 = none ∧
    (matchNamespace (Add demoStore (demoNamespace "o" "c" [("mem", 1)])
      (some (demoNamespace "o" "zzz" []))).1 "o/c").map (fun n => (n.nid, quotaOf "mem" n))
      = [(5, 1)] ∧
    (Add demoStore (demoNamespace "o" "c" [("mem", 1)])
      (some (demoNamespace "o" "zzz" []))).1.edges = demoStore.edges := by
  decide

/-- C15 (amended). A request of the handler `AddNamespace` for an id under which `Get` finds
a namespace: the handler returns `AlreadyExists`, the store's `Add` is not reached and the store
is as before. -/
theorem add_namespace_existing (g : Graph) (req : AddNamespaceReq) (seccomp : Option Status)
    (ns : Namespace) (h : Get g (MakeNamespaceId req.OrgId req.Name) = .ok ns) :
    AddNamespace g req seccomp = (g, some .alreadyExists) := by
  unfold AddNamespace
  rw [h]

/-- C15 (amended), at the store `demoStore`: a second namespace `o/a`. -/
theorem add_namespace_existing_witness :
    Get demoStore (MakeNamespaceId "o" "a") = .ok demoTreeA ∧
    AddNamespace demoStore ⟨"o", "a", "default", "v1", "null", []⟩ none
      = (demoStore, some .alreadyExists) :=
  ⟨by decide,
   add_namespace_existing demoStore ⟨"o", "a", "default", "v1", "null", []⟩ none demoTreeA
     (by decide)⟩

/-- C15 as stated fails: at `demoStore` the store's `Add` of a namespace `o/a`, an id that is
taken, returns no error and creates a second node with that id. -/
theorem add_existing_id_succeeds :
    matchEntity demoStore "o/a" = [demoA] ∧
    (Add demoStore (demoNamespace "o" "a" []) none).2 = none ∧
    (matchEntity (Add demoStore (demoNamespace "o" "a" []) none).1 "o/a").map Node.nid
      = [2, 5] := by
  decide


/-! ## Copies of Go maps and the utilized quotas -/

theorem assocSet_of_not_mem {β : Type} (m : List (String × β)) (k : String) (v : β)
    (h : k ∉ m.map Prod.fst) : assocSet m k v = m ++ [(k, v)] := by
  induction m with
  | nil => rfl
  | cons kv rest ih =>
    obtain ⟨k', v'⟩ := kv
    simp only [List.map_cons, List.mem_cons, not_or] at h
    have hk : ¬ k' = k := fun e => h.1 e.symm
    simp [assocSet, hk, ih h.2]

theorem mapsCopy_append (dst src : ResourceQuotas)
    (hnd : (src.map Prod.fst).Nodup)
    (hdis : ∀ k ∈ src.map Prod.fst, k ∉ dst.map Prod.fst) :
    mapsCopy dst src = dst ++ src := by
  induction src generalizing dst with
  | nil => simp [mapsCopy]
  | cons kv rest ih =>
    obtain ⟨k, v⟩ := kv
    simp only [List.map_cons, List.nodup_cons] at hnd
    have hk : k ∉ dst.map Prod.fst := hdis k (by simp)
    have hstep : mapsCopy dst ((k, v) :: rest) = mapsCopy (mapSet dst k v) rest := rfl
    rw [hstep, mapSet, assocSet_of_not_mem dst k v hk, ih _ hnd.2]
    · simp
    · intro k' hk' hmem
      simp only [List.map_append, List.map_cons, List.map_nil, List.mem_append,
        List.mem_singleton] at hmem
      rcases hmem with hmem | hmem
      · exact hdis k' (by simp [hk']) hmem
      · subst hmem
        exact hnd.1 hk'

/-- A copy of a Go map into an empty map is that map. -/
theorem mapsCopy_nil (src : ResourceQuotas) (hnd : (src.map Prod.fst).Nodup) :
    mapsCopy [] src = src := by
  rw [mapsCopy_append [] src hnd (by simp)]
  rfl

theorem mapGet_cons_same (k : String) (v : Float64) (rest : ResourceQuotas) :
    mapGet ((k, v) :: rest) k = v := by
  simp [mapGet, assocGet]

theorem mapGet_cons_other (k k' : String) (v : Float64) (rest : ResourceQuotas) (h : k ≠ k') :
    mapGet ((k, v) :: rest) k' = mapGet rest k' := by
  simp [mapGet, assocGet, h]

theorem mapGet_of_not_mem (m : ResourceQuotas) (k : String) (h : k ∉ m.map Prod.fst) :
    mapGet m k = 0 := by
  simp [mapGet, assocGet_eq_none_of_not_mem m k h]

theorem mem_of_mem_assocSet {β : Type} (m : List (String × β)) (k : String) (v : β)
    (kv : String × β) (h : kv ∈ assocSet m k v) : kv = (k, v) ∨ kv ∈ m := by
  induction m with
  | nil =>
    simp only [assocSet, List.mem_singleton] at h
    exact Or.inl h
  | cons kv' rest ih =>
    obtain ⟨k', v'⟩ := kv'
    by_cases hk : k' = k
    · simp only [assocSet, hk, if_true, List.mem_cons] at h
      rcases h with h | h
      · exact Or.inl h
      · exact Or.inr (List.mem_cons_of_mem _ h)
    · simp only [assocSet, hk, if_false, List.mem_cons] at h
      rcases h with h | h
      · exact Or.inr (by rw [h]; exact List.mem_cons_self _ _)
      · rcases ih h with h' | h'
        · exact Or.inl h'
        · exact Or.inr (List.mem_cons_of_mem _ h')

theorem mem_of_assocGet {β : Type} (m : List (String × β)) (k : String) (v : β)
    (h : assocGet m k = some v) : (k, v) ∈ m := by
  induction m with
  | nil => cases h
  | cons kv rest ih =>
    obtain ⟨k', v'⟩ := kv
    by_cases hk : k' = k
    · simp only [assocGet, hk, if_true, Option.some.injEq] at h
      rw [hk, h]
      exact List.mem_cons_self _ _
    · simp only [assocGet, hk, if_false] at h
      exact List.mem_cons_of_mem _ (ih h)

/-- The entries of a copy of Go maps come from the two maps. -/
theorem mapsCopy_values (P : Float64 → Prop) (dst src : ResourceQuotas)
    (hdst : ∀ kv ∈ dst, P kv.2) (hsrc : ∀ kv ∈ src, P kv.2) :
    ∀ kv ∈ mapsCopy dst src, P kv.2 := by
  induction src generalizing dst with
  | nil => exact hdst
  | cons kv rest ih =>
    have hstep : mapsCopy dst (kv :: rest) = mapsCopy (mapSet dst kv.1 kv.2) rest := rfl
    rw [hstep]
    apply ih
    · intro kv' hkv'
      rcases mem_of_mem_assocSet dst kv.1 kv.2 kv' hkv' with h | h
      · rw [h]
        exact hsrc kv (List.mem_cons_self _ _)
      · exact hdst kv' h
    · intro kv' hkv'
      exact hsrc kv' (List.mem_cons_of_mem _ hkv')

/-- A read of a Go map whose entries are values of the type is one. -/
theorem mapGet_isValue (m : ResourceQuotas) (hv : ∀ kv ∈ m, kv.2.isValue = true) (k : String) :
    (mapGet m k).isValue = true := by
  unfold mapGet
  cases h : assocGet m k with
  | none => exact Float64.isValue_zero
  | some v => exact hv (k, v) (mem_of_assocGet m k v h)

/-- The loop of `GetUtilized`: every entry of the available map is subtracted once. -/
theorem utilized_foldl (av acc : ResourceQuotas) (hnd : (av.map Prod.fst).Nodup) (k : String) :
    mapGet (av.foldl (fun quotas ra => mapSet quotas ra.1 (mapGet quotas ra.1 - ra.2)) acc) k
      = if k ∈ av.map Prod.fst then mapGet acc k - mapGet av k else mapGet acc k := by
  induction av generalizing acc with
  | nil => simp
  | cons ra rest ih =>
    obtain ⟨r, a⟩ := ra
    simp only [List.map_cons, List.nodup_cons] at hnd
    simp only [List.foldl_cons]
    rw [ih _ hnd.2]
    by_cases hk : r = k
    · subst hk
      rw [if_neg hnd.1, mapGet_mapSet_same, if_pos (by simp), mapGet_cons_same]
    · have hmem : k ∈ ((r, a) :: rest).map Prod.fst ↔ k ∈ rest.map Prod.fst := by
        simp only [List.map_cons, List.mem_cons]
        constructor
        · rintro (h | h)
          · exact absurd h.symm hk
          · exact h
        · exact Or.inr
      rw [mapGet_mapSet_other _ _ _ _ hk, mapGet_cons_other _ _ _ _ hk]
      by_cases hin : k ∈ rest.map Prod.fst
      · rw [if_pos hin, if_pos (hmem.mpr hin)]
      · rw [if_neg hin, if_neg (fun h => hin (hmem.mp h))]

/-- The utilized quantity of a `Namespace` value whose available map is a Go map: the total
minus the available quantity for a kind of the available map, the total for any other kind. -/
theorem getUtilized_cases (n : Namespace) (hnd : (n.available.map Prod.fst).Nodup)
    (k : String) :
    mapGet n.GetUtilized k
      = if k ∈ n.available.map Prod.fst
        then mapGet n.GetResourceQuotas k - mapGet n.GetAvailable k
        else mapGet n.GetResourceQuotas k := by
  unfold Namespace.GetUtilized Namespace.GetResourceQuotas Namespace.GetAvailable
  rw [utilized_foldl n.available _ hnd k, mapsCopy_nil n.available hnd]

/-- For every `Namespace` value whose available map is a Go map and whose totals are values of
the type, `GetUtilized()[k] = GetResourceQuotas()[k] - GetAvailable()[k]`. -/
theorem getUtilized_eq (n : Namespace) (hnd : (n.available.map Prod.fst).Nodup)
    (hv : ∀ kv ∈ n.resourceQuotas, kv.2.isValue = true) (k : String) :
    mapGet n.GetUtilized k = mapGet n.GetResourceQuotas k - mapGet n.GetAvailable k := by
  rw [getUtilized_cases n hnd k]
  by_cases hin : k ∈ n.available.map Prod.fst
  · rw [if_pos hin]
  · rw [if_neg hin]
    have h0 : mapGet n.GetAvailable k = 0 := by
      unfold Namespace.GetAvailable
      rw [mapsCopy_nil n.available hnd]
      exact mapGet_of_not_mem _ _ hin
    have hval : (mapGet n.GetResourceQuotas k).isValue = true := by
      unfold Namespace.GetResourceQuotas
      exact mapGet_isValue _
        (mapsCopy_values (fun q => q.isValue = true) [] n.resourceQuotas (by simp) hv) k
    rw [h0, Float64.sub_zero_of_isValue _ hval]

/-! ## Namespaces read back from the store -/

theorem readQuotaProps_eq (properties : Props) :
    readQuotaProps properties
      = SupportedResourceQuotas.filterMap (fun k =>
          match assocGet properties k with
          | some (.num q) => some (k, q)
          | _ => none) := by
  unfold readQuotaProps SupportedResourceQuotas
  simp only [List.foldl_cons, List.foldl_nil, List.filterMap_cons, List.filterMap_nil]
  rcases h1 : assocGet properties "mem" with _ | (_ | _) <;>
    rcases h2 : assocGet properties "cpu" with _ | (_ | _) <;>
    rcases h3 : assocGet properties "disk" with _ | (_ | _) <;>
    simp [mapSet, assocSet]

/-- The entries of the map `GetAvailableResources` returns for the node `n`. -/
theorem availableEntries_props (g : Graph) (n : Node) :
    ((SupportedResourceQuotas.filterMap
        (fun k => (availableValue g k n).map (fun a => (k, a)))).map Prod.fst).Nodup ∧
    firstUnsupported (SupportedResourceQuotas.filterMap
        (fun k => (availableValue g k n).map (fun a => (k, a)))) = none := by
  unfold SupportedResourceQuotas
  simp only [List.filterMap_cons, List.filterMap_nil]
  cases availableValue g "mem" n <;> cases availableValue g "cpu" n <;>
    cases availableValue g "disk" n <;>
    simp [firstUnsupported, SupportedResourceQuotas]

theorem mapGet_availableEntries (g : Graph) (n : Node) (k : String)
    (hk : k ∈ SupportedResourceQuotas) (t : Float64)
    (ht : assocGet n.props k = some (.num t)) :
    mapGet (SupportedResourceQuotas.filterMap
        (fun k => (availableValue g k n).map (fun a => (k, a)))) k
      = t - totalUtilized g k n := by
  have hv : availableValue g k n = some (t - totalUtilized g k n) := by
    simp [availableValue, ht]
  simp only [SupportedResourceQuotas, List.mem_cons, List.mem_singleton, List.not_mem_nil,
    or_false] at hk
  rcases hk with h | h | h <;> subst h <;>
    simp only [SupportedResourceQuotas, List.filterMap_cons, List.filterMap_nil, hv,
      Option.map_some'] <;>
    cases availableValue g "mem" n <;> cases availableValue g "cpu" n <;>
    cases availableValue g "disk" n <;> simp_all [mapGet, assocGet]

theorem mem_availableEntries (g : Graph) (n : Node) (k : String)
    (hk : k ∈ SupportedResourceQuotas) (t : Float64)
    (ht : assocGet n.props k = some (.num t)) :
    k ∈ (SupportedResourceQuotas.filterMap
        (fun k => (availableValue g k n).map (fun a => (k, a)))).map Prod.fst := by
  have hv : availableValue g k n = some (t - totalUtilized g k n) := by
    simp [availableValue, ht]
  simp only [SupportedResourceQuotas, List.mem_cons, List.mem_singleton, List.not_mem_nil,
    or_false] at hk
  rcases hk with h | h | h <;> subst h <;>
    simp only [SupportedResourceQuotas, List.filterMap_cons, List.filterMap_nil, hv,
      Option.map_some'] <;>
    cases availableValue g "mem" n <;> cases availableValue g "cpu" n <;>
    cases availableValue g "disk" n <;> simp_all

theorem readNamespace_available (properties : Props) (id : String) (ns : Namespace)
    (h : readNamespace properties id = .ok (some ns)) : ns.available = [] := by
  unfold readNamespace at h
  split at h
  · split at h
    · split at h
      · split at h
        · split at h
          · simp only [Except.ok.injEq, Option.some.injEq] at h
            rw [← h]
            rfl
          · cases h
        · cases h
      · cases h
    · cases h
  · cases h

/-- A namespace read from the record of the node `m` and resolved against the store, `m` being
the first entity with the id of the record: its total is the stored total of `m`, and for every
supported kind with a stored total `t` its available quantity is `t - total_utilized` and its
utilized quantity `t - (t - total_utilized)`, with `total_utilized` the `float64` sum of the
totals of the children of `m`. -/
theorem resolved_spec (g : Graph) (m : Node) (rest : List Node) (id : String)
    (ns₀ ns : Namespace) (hty : quotasTyped g)
    (hread : readNamespace m.props id = .ok (some ns₀))
    (hm : matchEntity g ns₀.GetId = m :: rest)
    (hres : resolveAvailable g ns₀ = .ok ns) :
    ns.orgId = ns₀.orgId ∧ ns.name = ns₀.name ∧
    ns.resourceQuotas = readQuotaProps m.props ∧
    ns.available = SupportedResourceQuotas.filterMap
      (fun k => (availableValue g k m).map (fun a => (k, a))) ∧
    ∀ k ∈ SupportedResourceQuotas, ∀ t, assocGet m.props k = some (.num t) →
      mapGet ns.GetResourceQuotas k = t ∧
      mapGet ns.GetAvailable k = t - totalUtilized g k m ∧
      mapGet ns.GetUtilized k = t - (t - totalUtilized g k m) := by
  obtain ⟨h1, h2, h3⟩ := resolveAvailable_id g ns₀ ns hres
  obtain ⟨_, _, h4⟩ := readNamespace_id m.props id ns₀ hread
  have hav0 : ns₀.available = [] := readNamespace_available m.props id ns₀ hread
  obtain ⟨hnd, hfu⟩ := availableEntries_props g m
  have havail : ns.available = SupportedResourceQuotas.filterMap
      (fun k => (availableValue g k m).map (fun a => (k, a))) := by
    unfold resolveAvailable at hres
    rw [GetAvailableResources_eq g _ m rest hm hty] at hres
    simp only [Namespace.SetAvailable, hfu, Except.ok.injEq] at hres
    rw [← hres]
    simp only [hav0]
    exact mapsCopy_nil _ hnd
  refine ⟨h1, h2, by rw [h3, h4], havail, ?_⟩
  intro k hk t ht
  have hq : mapGet ns.GetResourceQuotas k = t := by
    unfold Namespace.GetResourceQuotas
    rw [h3, h4]
    have hndq : ((readQuotaProps m.props).map Prod.fst).Nodup := by
      rw [readQuotaProps_eq]
      unfold SupportedResourceQuotas
      simp only [List.filterMap_cons, List.filterMap_nil]
      rcases h1 : assocGet m.props "mem" with _ | (_ | _) <;>
        rcases h2 : assocGet m.props "cpu" with _ | (_ | _) <;>
        rcases h3 : assocGet m.props "disk" with _ | (_ | _) <;> simp
    rw [mapsCopy_nil _ hndq, mapGet_readQuotaProps]
    simp [hk, quotaOfProps, ht]
  have ha : mapGet ns.GetAvailable k = t - totalUtilized g k m := by
    unfold Namespace.GetAvailable
    rw [havail, mapsCopy_nil _ hnd]
    exact mapGet_availableEntries g m k hk t ht
  refine ⟨hq, ha, ?_⟩
  rw [getUtilized_cases ns (by rw [havail]; exact hnd),
    if_pos (by rw [havail]; exact mem_availableEntries g m k hk t ht), hq, ha]

theorem get_ok (g : Graph) (id : String) (m : Node) (rest : List Node) (ns : Namespace)
    (hm : matchNamespace g id = m :: rest) (hget : get g id = .ok ns) :
    ∃ ns₀, readNamespace m.props id = .ok (some ns₀) ∧ resolveAvailable g ns₀ = .ok ns := by
  unfold get getNamespaceCypher at hget
  rw [hm] at hget
  simp only [List.map_cons, readNamespaces] at hget
  cases hr : readNamespace m.props id with
  | error e => rw [hr] at hget; cases hget
  | ok r =>
    cases r with
    | none => rw [hr] at hget; cases hget
    | some ns₀ =>
      rw [hr] at hget
      simp only at hget
      cases hrest : readNamespaces (List.map (fun n => some n.props) rest) id with
      | error e => rw [hrest] at hget; cases hget
      | ok l =>
        rw [hrest] at hget
        exact ⟨ns₀, rfl, hget⟩

/-- The exact case of the utilized quantity: for whole numbers in the range where nothing is
rounded, `t - (t - total_utilized)` is the sum of the totals of the children. -/
theorem utilized_exact (g : Graph) (k : String) (m : Node) (x : Int) (ys : List Int)
    (hys : utilizedList g k m = ys.map Float64.ofInt)
    (hx0 : 0 ≤ x) (hx1 : x < 2 ^ 53) (hy : ∀ y ∈ ys, 0 ≤ y) (hs : ys.sum < 2 ^ 53) :
    totalUtilized g k m = Float64.ofInt ys.sum ∧
    Float64.ofInt x - totalUtilized g k m = Float64.ofInt (x - ys.sum) ∧
    Float64.ofInt x - (Float64.ofInt x - totalUtilized g k m) = Float64.ofInt ys.sum := by
  have hfold : totalUtilized g k m = Float64.ofInt ys.sum := by
    unfold totalUtilized
    rw [hys]
    have := foldl_add_ofInt ys 0 (le_refl 0) hy (by simpa using hs)
    simpa using this
  have hsum : 0 ≤ ys.sum := List.sum_nonneg hy
  have hx1' := hx1
  have hs' := hs
  rw [← two53_cast] at hx1' hs'
  have bx : x.natAbs < 2 ^ 53 := natAbs_lt_of_bounds x _ hx0 hx1'
  have bs : ys.sum.natAbs < 2 ^ 53 := natAbs_lt_of_bounds _ _ hsum hs'
  have bd : (x - ys.sum).natAbs < 2 ^ 53 := by
    have h1 : x - ys.sum < ((2 ^ 53 : Nat) : Int) := by linarith
    have h2 : -((2 ^ 53 : Nat) : Int) < x - ys.sum := by linarith
    omega
  have hdiff : Float64.ofInt x - totalUtilized g k m = Float64.ofInt (x - ys.sum) := by
    rw [hfold, Float64.ofInt_sub x ys.sum bx bs]
  refine ⟨hfold, hdiff, ?_⟩
  rw [hdiff, Float64.ofInt_sub x (x - ys.sum) bx bd]
  congr 1
  ring

/-- C18 (amended). For every `Namespace` value `n` whose available map is a Go map (distinct
keys) and whose totals are values of the type, and every kind `k`,
`n.GetUtilized()[k] = n.GetResourceQuotas()[k] - n.GetAvailable()[k]` in `float64` arithmetic,
absent entries read as 0. And for every namespace `ns` that `Get(id)` returns, read from the node
`m` which is also the first entity that carries the id of its record, in a store whose resource
properties are numbers: for every supported kind `k` for which `m` has a stored total `t`,
`ns.GetUtilized()[k]` is `t - (t - total_utilized)`, with `total_utilized` the `float64` sum of
the totals for `k` of the direct children of `m`; when `t` and the totals of the children are
whole numbers, none negative, with `t` and the sum of the children below `2 ^ 53`, it is the sum
of the totals of the children. -/
theorem utilized_spec (n : Namespace) (hn : (n.available.map Prod.fst).Nodup)
    (hv : ∀ kv ∈ n.resourceQuotas, kv.2.isValue = true)
    (g : Graph) (id o nm : String) (m : Node) (rest rest' : List Node) (ns : Namespace)
    (hty : quotasTyped g)
    (hm : matchNamespace g id = m :: rest)
    (ho : assocGet m.props "org_id" = some (.str o))
    (hnm : assocGet m.props "name" = some (.str nm))
    (hme : matchEntity g (MakeNamespaceId o nm) = m :: rest')
    (hget : Get g id = .ok ns) :
    (∀ k, mapGet n.GetUtilized k = mapGet n.GetResourceQuotas k - mapGet n.GetAvailable k) ∧
    (∀ k ∈ SupportedResourceQuotas, ∀ t, assocGet m.props k = some (.num t) →
      mapGet ns.GetUtilized k = t - (t - totalUtilized g k m)) ∧
    (∀ k ∈ SupportedResourceQuotas, ∀ (x : Int) (ys : List Int),
      assocGet m.props k = some (.num (Float64.ofInt x)) →
      utilizedList g k m = ys.map Float64.ofInt →
      0 ≤ x → x < 2 ^ 53 → (∀ y ∈ ys, 0 ≤ y) → ys.sum < 2 ^ 53 →
      mapGet ns.GetUtilized k = Float64.ofInt ys.sum) := by
  obtain ⟨ns₀, hread, hres⟩ := get_ok g id m rest ns hm hget
  obtain ⟨h1, h2, _⟩ := readNamespace_id m.props id ns₀ hread
  rw [ho] at h1
  rw [hnm] at h2
  simp only [Option.some.injEq, Value.str.injEq] at h1 h2
  have hid : ns₀.GetId = MakeNamespaceId o nm := by
    simp [Namespace.GetId, ← h1, ← h2]
  rw [← hid] at hme
  have hspec := (resolved_spec g m rest' id ns₀ ns hty hread hme hres).2.2.2.2
  refine ⟨fun k => getUtilized_eq n hn hv k, ?_, ?_⟩
  · intro k hk t ht
    exact (hspec k hk t ht).2.2
  · intro k hk x ys ht hys hx0 hx1 hy hs
    rw [(hspec k hk _ ht).2.2]
    exact (utilized_exact g k m x ys hys hx0 hx1 hy hs).2.2

/-- C18 (amended), at the store `demoStore`: the namespace `o/a` as `Get` returns it; it has
40 mem of which its app uses 10. -/
theorem utilized_spec_witness :
    (demoTreeA.available.map Prod.fst).Nodup ∧
    (∀ kv ∈ demoTreeA.resourceQuotas, kv.2.isValue = true) ∧
    quotasTyped demoStore ∧
    matchNamespace demoStore "o/a" = demoA :: [] ∧
    assocGet demoA.props "org_id" = some (.str "o") ∧
    assocGet demoA.props "name" = some (.str "a") ∧
    matchEntity demoStore (MakeNamespaceId "o" "a") = demoA :: [] ∧
    Get demoStore "o/a" = .ok demoTreeA ∧
    mapGet demoTreeA.GetUtilized "mem" = 10 ∧
    (∀ k, mapGet demoTreeA.GetUtilized k
      = mapGet demoTreeA.GetResourceQuotas k - mapGet demoTreeA.GetAvailable k) ∧
    (∀ k ∈ SupportedResourceQuotas, ∀ t, assocGet demoA.props k = some (.num t) →
      mapGet demoTreeA.GetUtilized k = t - (t - totalUtilized demoStore k demoA)) ∧
    (∀ k ∈ SupportedResourceQuotas, ∀ (x : Int) (ys : List Int),
      assocGet demoA.props k = some (.num (Float64.ofInt x)) →
      utilizedList demoStore k demoA = ys.map Float64.ofInt →
      0 ≤ x → x < 2 ^ 53 → (∀ y ∈ ys, 0 ≤ y) → ys.sum < 2 ^ 53 →
      mapGet demoTreeA.GetUtilized k = Float64.ofInt ys.sum) :=
  ⟨by decide, by decide, by decide, by decide, by decide, by decide, by decide, by decide,
   by decide,
   utilized_spec demoTreeA (by decide) (by decide) demoStore "o/a" "o" "a" demoA [] []
     demoTreeA (by decide) (by decide) (by decide) (by decide) (by decide) (by decide)⟩

/-- C18 as stated fails in its second part: after `Add` of the root `o/r` with `2 ^ 53 + 2`
mem and of its two children with `2 ^ 53` and 1 mem, the namespace `Get(o/r)` returns has the
available quantity 2 and `GetUtilized()[mem]` is `2 ^ 53`, while the totals of its direct
children sum to `2 ^ 53 + 1`. -/
theorem utilized_rounded :
    overRun1.2 = none ∧ overRun2.2 = none ∧ overRun3.2 = none ∧
    (Get overRun3.1 "o/r").toOption.map
      (fun ns => (mapGet ns.GetResourceQuotas "mem", mapGet ns.GetAvailable "mem",
        mapGet ns.GetUtilized "mem"))
      = some (.fin (9007199254740994 * Float64.unit), .fin (2 * Float64.unit),
          .fin (9007199254740992 * Float64.unit)) ∧
    (matchNamespace overRun3.1 "o/r").map (fun m => utilizedList overRun3.1 "mem" m)
      = [[.fin (9007199254740992 * Float64.unit), .fin (1 * Float64.unit)]] ∧
    (9007199254740992 : Int) + 1 = 9007199254740993 ∧
    Float64.fin (9007199254740992 * Float64.unit)
      ≠ .fin (9007199254740993 * Float64.unit) := by
  decide

/-! ## Every node of the hierarchy -/

theorem hasId_iff_stringId (id : String) (n : Node) :
    hasId id n = true ↔ stringId n = some id := by
  unfold hasId stringId
  rcases h : assocGet n.props "id" with _ | (_ | _) <;> simp

theorem filter_hasId_of_unique (l : List Node) (id : String) (n : Node)
    (hnd : (l.filterMap stringId).Nodup) (hn : n ∈ l) (hid : stringId n = some id) :
    l.filter (hasId id) = [n] := by
  induction l with
  | nil => simp at hn
  | cons x rest ih =>
    by_cases hx : stringId x = some id
    · have hxid : hasId id x = true := (hasId_iff_stringId id x).mpr hx
      rw [List.filterMap_cons_some hx, List.nodup_cons] at hnd
      have hrest : rest.filter (hasId id) = [] := by
        rw [List.filter_eq_nil_iff]
        intro y hy hyid
        apply hnd.1
        rw [List.mem_filterMap]
        exact ⟨y, hy, (hasId_iff_stringId id y).mp hyid⟩
      have hnx : n = x := by
        rcases List.mem_cons.mp hn with h | h
        · exact h
        · exfalso
          apply hnd.1
          rw [List.mem_filterMap]
          exact ⟨n, h, hid⟩
      rw [List.filter_cons_of_pos hxid, hrest, hnx]
    · have hxid : ¬ hasId id x = true := fun c => hx ((hasId_iff_stringId id x).mp c)
      have hnd' : (rest.filterMap stringId).Nodup := by
        cases hsx : stringId x with
        | none => rw [List.filterMap_cons_none hsx] at hnd; exact hnd
        | some s =>
          rw [List.filterMap_cons_some hsx, List.nodup_cons] at hnd
          exact hnd.2
      have hn' : n ∈ rest := by
        rcases List.mem_cons.mp hn with h | h
        · subst h
          exact absurd hid hx
        · exact h
      rw [List.filter_cons_of_neg hxid]
      exact ih hnd' hn'

/-- With unique identifiers, a node that carries an id is the only entity with that id. -/
theorem matchEntity_of_unique (g : Graph) (id : String) (n : Node) (hu : idsUnique g)
    (hn : n ∈ g.nodes) (hid : assocGet n.props "id" = some (.str id)) :
    matchEntity g id = [n] := by
  unfold matchEntity
  exact filter_hasId_of_unique g.nodes id n hu hn (by simp [stringId, hid])

theorem readApps_optionalRows (l : List Node) (ns : Namespace) :
    readApps (optionalRows l) ns = readApps (l.map (fun a => some a.props)) ns := by
  cases l with
  | nil => simp [optionalRows, readApps]
  | cons a rest => rfl

theorem readNamespaces_mem (rows : List (Option Props)) (id : String) (l : List Namespace)
    (h : readNamespaces rows id = .ok l) :
    ∀ ns₀ ∈ l, ∃ properties, some properties ∈ rows ∧
      readNamespace properties id = .ok (some ns₀) := by
  induction rows generalizing l with
  | nil =>
    simp only [readNamespaces, Except.ok.injEq] at h
    subst h
    simp
  | cons row rest ih =>
    cases row with
    | none =>
      simp only [readNamespaces] at h
      intro ns₀ hns
      obtain ⟨p, hp, hr⟩ := ih l h ns₀ hns
      exact ⟨p, List.mem_cons_of_mem _ hp, hr⟩
    | some properties =>
      simp only [readNamespaces] at h
      cases ha : readNamespace properties id with
      | error e => rw [ha] at h; cases h
      | ok r =>
        cases r with
        | none =>
          rw [ha] at h
          simp only [Except.ok.injEq] at h
          subst h
          simp
        | some ns =>
          rw [ha] at h
          simp only at h
          cases hr : readNamespaces rest id with
          | error e => rw [hr] at h; cases h
          | ok l' =>
            rw [hr] at h
            simp only [Except.ok.injEq] at h
            subst h
            intro ns₀ hns
            rcases List.mem_cons.mp hns with hh | hh
            · subst hh
              exact ⟨properties, by simp, ha⟩
            · obtain ⟨p, hp, hrp⟩ := ih l' hr ns₀ hh
              exact ⟨p, List.mem_cons_of_mem _ hp, hrp⟩

theorem resolveAll_mem (tx : Graph) (l l' : List Namespace) (h : resolveAll tx l = .ok l') :
    ∀ c ∈ l', ∃ ns₀ ∈ l, resolveAvailable tx ns₀ = .ok c := by
  induction l generalizing l' with
  | nil =>
    simp only [resolveAll, Except.ok.injEq] at h
    subst h
    simp
  | cons ns rest ih =>
    simp only [resolveAll] at h
    cases ha : resolveAvailable tx ns with
    | error e => rw [ha] at h; cases h
    | ok ns' =>
      rw [ha] at h
      simp only at h
      cases hr : resolveAll tx rest with
      | error e => rw [hr] at h; cases h
      | ok rest' =>
        rw [hr] at h
        simp only [Except.ok.injEq] at h
        subst h
        intro c hc
        rcases List.mem_cons.mp hc with hh | hh
        · subst hh
          exact ⟨ns, by simp, ha⟩
        · obtain ⟨ns₀, hmem, hres⟩ := ih rest' hr c hh
          exact ⟨ns₀, List.mem_cons_of_mem _ hmem, hres⟩

theorem mapTree_mem (f : Namespace → Option (Except Err NamespaceTreeNode))
    (l : List Namespace) (nodes : List NamespaceTreeNode)
    (h : mapTree f l = some (.ok nodes)) :
    ∀ t ∈ nodes, ∃ c ∈ l, f c = some (.ok t) := by
  induction l generalizing nodes with
  | nil =>
    simp only [mapTree, Option.some.injEq, Except.ok.injEq] at h
    subst h
    simp
  | cons c rest ih =>
    simp only [mapTree] at h
    cases hc : f c with
    | none => rw [hc] at h; cases h
    | some r =>
      cases r with
      | error e => rw [hc] at h; cases h
      | ok node =>
        rw [hc] at h
        simp only at h
        cases hr : mapTree f rest with
        | none => rw [hr] at h; cases h
        | some r' =>
          cases r' with
          | error e => rw [hr] at h; cases h
          | ok nodes' =>
            rw [hr] at h
            simp only [Option.some.injEq, Except.ok.injEq] at h
            subst h
            intro t ht
            rcases List.mem_cons.mp ht with hh | hh
            · subst hh
              exact ⟨c, by simp, hc⟩
            · obtain ⟨c', hmem, hf⟩ := ih nodes' hr t hh
              exact ⟨c', List.mem_cons_of_mem _ hmem, hf⟩

theorem optionalRows_mem (l : List Node) (properties : Props)
    (h : some properties ∈ optionalRows l) : ∃ c ∈ l, c.props = properties := by
  cases l with
  | nil => simp [optionalRows] at h
  | cons a rest =>
    simp only [optionalRows, List.mem_map] at h
    obtain ⟨c, hc, hp⟩ := h
    exact ⟨c, hc, by simpa using hp⟩

theorem resolved_of_record (g : Graph) (hu : idsUnique g) (hc : recordsConsistent g)
    (hty : quotasTyped g) (m : Node) (hm : m ∈ g.nodes) (hns : m.isNamespace = true)
    (id : String) (ns₀ ns : Namespace)
    (hread : readNamespace m.props id = .ok (some ns₀))
    (hres : resolveAvailable g ns₀ = .ok ns) :
    assocGet m.props "id" = some (.str ns.GetId) ∧ matchNamespace g ns.GetId = [m] ∧
    ns.resourceQuotas = readQuotaProps m.props ∧
    (∀ k ∈ SupportedResourceQuotas, ∀ t, assocGet m.props k = some (.num t) →
      mapGet ns.GetResourceQuotas k = t ∧
      mapGet ns.GetAvailable k = t - totalUtilized g k m ∧
      mapGet ns.GetUtilized k = t - (t - totalUtilized g k m)) ∧
    (∀ k ∈ SupportedResourceQuotas, ∀ (x : Int) (ys : List Int),
      assocGet m.props k = some (.num (Float64.ofInt x)) →
      utilizedList g k m = ys.map Float64.ofInt →
      0 ≤ x → x < 2 ^ 53 → (∀ y ∈ ys, 0 ≤ y) → ys.sum < 2 ^ 53 →
      mapGet ns.GetAvailable k = Float64.ofInt (x - ys.sum) ∧
      mapGet ns.GetUtilized k = Float64.ofInt ys.sum) := by
  obtain ⟨h1, h2, _⟩ := readNamespace_id m.props id ns₀ hread
  have hcm := hc m hm hns
  unfold consistentRecord at hcm
  rw [h1, h2] at hcm
  simp only at hcm
  have hid₀ : assocGet m.props "id" = some (.str ns₀.GetId) := hcm
  have hme : matchEntity g ns₀.GetId = m :: [] := matchEntity_of_unique g _ m hu hm hid₀
  obtain ⟨r1, r2, r3, _, r4⟩ := resolved_spec g m [] id ns₀ ns hty hread hme hres
  have hid : ns.GetId = ns₀.GetId := by
    simp [Namespace.GetId, r1, r2]
  rw [hid]
  refine ⟨hid₀, matchNamespace_of_entity g _ m hme hns, r3, r4, ?_⟩
  intro k hk x ys ht hys hx0 hx1 hy hs
  obtain ⟨_, ha, hu'⟩ := r4 k hk _ ht
  obtain ⟨_, e2, e3⟩ := utilized_exact g k m x ys hys hx0 hx1 hy hs
  exact ⟨by rw [ha, e2], by rw [hu', e3]⟩

theorem findChildren_of_single (g : Graph) (ns : Namespace) (m : Node) (apps : List App)
    (hm : matchNamespace g ns.GetId = [m]) (h : FindChildren g ns = .ok apps) :
    readApps (((childrenOf g m).filter (fun c => !c.isNamespace)).map (fun a => some a.props)) ns
      = .ok apps := by
  unfold FindChildren getChildAppsCypher at h
  rw [hm] at h
  simp only [List.map_cons, List.map_nil, List.flatten_cons, List.flatten_nil,
    List.append_nil] at h
  rw [readApps_optionalRows] at h
  exact h

theorem getChildren_of_single (g : Graph) (ns : Namespace) (m : Node)
    (children : List Namespace)
    (hm : matchNamespace g ns.GetId = [m]) (h : getChildren g ns = .ok children) :
    ∀ c ∈ children, ∃ n ∈ g.nodes, n.isNamespace = true ∧
      ∃ ns₀, readNamespace n.props ns.GetId = .ok (some ns₀) ∧
        resolveAvailable g ns₀ = .ok c := by
  unfold getChildren getChildNamespacesCypher at h
  rw [hm] at h
  simp only [List.map_cons, List.map_nil, List.flatten_cons, List.flatten_nil,
    List.append_nil] at h
  cases hr : readNamespaces
      (optionalRows ((childrenOf g m).filter (fun c => c.isNamespace))) ns.GetId with
  | error e => rw [hr] at h; cases h
  | ok l =>
    rw [hr] at h
    simp only at h
    intro c hcmem
    obtain ⟨ns₀, hmem, hres⟩ := resolveAll_mem g l children h c hcmem
    obtain ⟨properties, hrow, hread⟩ := readNamespaces_mem _ _ l hr ns₀ hmem
    obtain ⟨n, hn, hp⟩ := optionalRows_mem _ properties hrow
    rw [List.mem_filter] at hn
    refine ⟨n, mem_of_mem_childrenOf g m n hn.1, hn.2, ns₀, ?_, hres⟩
    rw [hp]
    exact hread

theorem populateTree_resolved (g : Graph) (hu : idsUnique g) (hc : recordsConsistent g)
    (hty : quotasTyped g) :
    ∀ (fuel : Nat) (ns : Namespace) (t : NamespaceTreeNode),
      (∃ m ∈ g.nodes, m.isNamespace = true ∧
        ∃ id ns₀, readNamespace m.props id = .ok (some ns₀) ∧
          resolveAvailable g ns₀ = .ok ns) →
      populateTree g fuel ns = some (.ok t) → AllResolved g t := by
  intro fuel
  induction fuel with
  | zero =>
    intro ns t _ h
    simp [populateTree] at h
  | succ fuel ih =>
    intro ns t horigin h
    obtain ⟨m, hm, hns, id, ns₀, hread, hres⟩ := horigin
    obtain ⟨hid, hmatch, hq, hval, hexact⟩ :=
      resolved_of_record g hu hc hty m hm hns id ns₀ ns hread hres
    simp only [populateTree] at h
    cases hp : populateTreeNode g ns with
    | error e => rw [hp] at h; cases h
    | ok r =>
      obtain ⟨apps, children⟩ := r
      rw [hp] at h
      simp only at h
      cases hmt : mapTree (populateTree g fuel) children with
      | none => rw [hmt] at h; cases h
      | some r' =>
        cases r' with
        | error e => rw [hmt] at h; cases h
        | ok nodes =>
          rw [hmt] at h
          simp only [Option.some.injEq, Except.ok.injEq] at h
          subst h
          unfold populateTreeNode at hp
          cases hf : FindChildren g ns with
          | error e => rw [hf] at hp; cases hp
          | ok apps' =>
            rw [hf] at hp
            simp only at hp
            cases hg : getChildren g ns with
            | error e => rw [hg] at hp; cases hp
            | ok children' =>
              rw [hg] at hp
              simp only [Except.ok.injEq, Prod.mk.injEq] at hp
              obtain ⟨ha, hch⟩ := hp
              subst ha
              subst hch
              refine AllResolved.mk ns apps' nodes m
                ⟨hm, hns, hid, hq, hval, hexact,
                  findChildren_of_single g ns m apps' hmatch hf⟩ ?_
              intro t' ht'
              obtain ⟨c, hcmem, hpc⟩ := mapTree_mem _ children' nodes hmt t' ht'
              obtain ⟨n, hn, hnns, c₀, hcread, hcres⟩ :=
                getChildren_of_single g ns m children' hmatch hg c hcmem
              exact ih c t' ⟨n, hn, hnns, ns.GetId, c₀, hcread, hcres⟩ hpc

/-- C13 (amended). In a store with unique identifiers, namespace records whose id is made
of their org and name, and numeric resource properties, every node of the tree `GetHierarchy`
returns, the root and every descendant, carries the state of one namespace node `m` of the
store: its total is the stored total of `m`; for every supported kind for which `m` has a total
`t`, `GetAvailable` is `t - total_utilized` and `GetUtilized` is `t - (t - total_utilized)` in
`float64` arithmetic, `total_utilized` being the `float64` sum of the totals of the direct
children of `m`, and these are `t` minus the sum of the children and that sum when the
quantities are whole numbers, none negative, below `2 ^ 53`; and its apps are the records of the
apps attached directly to `m`, in order. -/
theorem hierarchy_nodes_resolved (g : Graph) (fuel : Nat) (rootId : String)
    (tree : NamespaceTree) (hu : idsUnique g) (hc : recordsConsistent g) (hty : quotasTyped g)
    (hh : GetHierarchy g fuel rootId = some (.ok tree)) : AllResolved g tree.Root := by
  unfold GetHierarchy at hh
  cases hg : get g rootId with
  | error e => rw [hg] at hh; cases hh
  | ok root =>
    rw [hg] at hh
    simp only at hh
    cases hp : populateTree g fuel root with
    | none => rw [hp] at hh; cases hh
    | some r =>
      cases r with
      | error e => rw [hp] at hh; cases hh
      | ok rootNode =>
        rw [hp] at hh
        simp only [Option.some.injEq, Except.ok.injEq] at hh
        subst hh
        cases hm : matchNamespace g rootId with
        | nil =>
          unfold get getNamespaceCypher at hg
          rw [hm] at hg
          simp [readNamespaces] at hg
        | cons m rest =>
          obtain ⟨ns₀, hread, hres⟩ := get_ok g rootId m rest root hm hg
          have hmem : m ∈ matchNamespace g rootId := by rw [hm]; simp
          unfold matchNamespace at hmem
          rw [List.mem_filter] at hmem
          have hns : m.isNamespace = true := by
            have := hmem.2
            simp only [Bool.and_eq_true] at this
            exact this.1
          exact populateTree_resolved g hu hc hty fuel root rootNode
            ⟨m, hmem.1, hns, rootId, ns₀, hread, hres⟩ hp

/-- C13 (amended), at the store `demoStore`: the tree of `o/default`, whose nodes are the root
with its children `o/a` (with the app `web`) and `o/b`. -/
theorem hierarchy_nodes_resolved_witness :
    idsUnique demoStore ∧ recordsConsistent demoStore ∧ quotasTyped demoStore ∧
    GetHierarchy demoStore 5 "o/default" = some (.ok demoTree) ∧
    AllResolved demoStore demoTree.Root :=
  ⟨by decide, by decide, by decide, by rfl,
   hierarchy_nodes_resolved demoStore 5 "o/default" demoTree (by decide) (by decide)
     (by decide) (by rfl)⟩

/-- C13 as stated fails: after `Add` of the root `o/r` with `2 ^ 53 + 2` mem and of its two
children with `2 ^ 53` and 1 mem, no two entities share an id, and the root of the tree
`GetHierarchy(o/r)` returns has the available quantity 2 and the utilized quantity `2 ^ 53`,
where the total minus the sum of the totals of the children is 1 and that sum is
`2 ^ 53 + 1`. -/
theorem hierarchy_node_rounded :
    overRun1.2 = none ∧ overRun2.2 = none ∧ overRun3.2 = none ∧
    idsUnique overRun3.1 ∧ recordsConsistent overRun3.1 ∧
    (GetHierarchy overRun3.1 3 "o/r").map (fun r => r.map (fun tree =>
        (mapGet tree.Root.Namespace.GetResourceQuotas "mem",
         mapGet tree.Root.Namespace.GetAvailable "mem",
         mapGet tree.Root.Namespace.GetUtilized "mem")))
      = some (.ok (.fin (9007199254740994 * Float64.unit), .fin (2 * Float64.unit),
          .fin (9007199254740992 * Float64.unit))) ∧
    (matchNamespace overRun3.1 "o/r").map (fun m => utilizedList overRun3.1 "mem" m)
      = [[.fin (9007199254740992 * Float64.unit), .fin (1 * Float64.unit)]] ∧
    (9007199254740994 : Int) - (9007199254740992 + 1) = 1 ∧
    (9007199254740992 : Int) + 1 = 9007199254740993 := by
  decide

/-! ## Non-negative quotas -/

theorem stored_num (g : Graph) (hnn : storedNonNegative g) (c : Node) (hc : c ∈ g.nodes)
    (k : String) (q : Float64) (h : assocGet c.props k = some (.num q)) :
    q.isFinite = true ∧ (0 : Float64) ≤ q := by
  have := hnn c hc (k, .num q) (mem_of_assocGet _ _ _ h)
  simpa [Value.nonNeg] using this

theorem totalUtilized_nonneg (g : Graph) (hnn : storedNonNegative g) (n : Node)
    (k : String) : (0 : Float64) ≤ totalUtilized g k n := by
  unfold totalUtilized
  apply Float64.foldl_add_nonneg
  · decide
  · intro x hx
    unfold utilizedList collectQuotas at hx
    rw [List.mem_filterMap] at hx
    obtain ⟨c, hc, hq⟩ := hx
    rcases h : assocGet c.props k with _ | (_ | q)
    · rw [h] at hq
      cases hq
    · rw [h] at hq
      cases hq
    · rw [h] at hq
      simp only [Option.some.injEq] at hq
      rw [← hq]
      exact (stored_num g hnn c (mem_of_mem_childrenOf g n c hc) k q h).2

/-- The quantity `total[k] - available[k]` that `SetResourceQuotas` compares a request with is
never negative when the stored quantities are finite and not negative. -/
theorem utilized_nonneg (g : Graph) (hnn : storedNonNegative g) (E : String) (n : Node)
    (rest : List Node) (hm : matchEntity g E = n :: rest) (av : ResourceQuotas)
    (h : GetAvailableResources g E = .ok av) (k : String) :
    (0 : Float64) ≤ mapGet (readQuotaProps n.props) k - mapGet av k := by
  have hn : n ∈ g.nodes := (mem_of_mem_matchEntity g E n (by rw [hm]; simp)).1
  rw [mapGet_readQuotaProps, mapGet_available g E n rest hm av h k]
  by_cases hk : k ∈ SupportedResourceQuotas
  · rw [if_pos hk, if_pos hk]
    unfold quotaOfProps availableValue
    rcases ht : assocGet n.props k with _ | (_ | t)
    · simp only [Option.getD_none]
      rw [Float64.zero_sub_zero]
      decide
    · simp only [Option.getD_none]
      rw [Float64.zero_sub_zero]
      decide
    · simp only [Option.getD_some]
      obtain ⟨hfin, h0⟩ := stored_num g hnn n hn k t ht
      exact Float64.sub_sub_nonneg t _ hfin h0 (totalUtilized_nonneg g hnn n k)
  · rw [if_neg hk, if_neg hk, Float64.zero_sub_zero]
    decide

theorem setProps_nonneg (id : String) (req : ResourceQuotas)
    (hreq : ∀ rq ∈ req, rq.2.isFinite = true ∧ (0 : Float64) ≤ rq.2) :
    ∀ properties : Props, (∀ p ∈ properties, p.2.nonNeg = true) →
      ∀ p ∈ setProps id properties req, p.2.nonNeg = true := by
  induction req with
  | nil =>
    intro properties hp
    exact hp
  | cons rq rest ih =>
    obtain ⟨r, q⟩ := rq
    intro properties hp
    simp only [setProps]
    apply ih (fun x hx => hreq x (List.mem_cons_of_mem _ hx))
    intro p hmem
    by_cases hid : assocGet properties "id" = some (Value.str id)
    · rw [if_pos hid] at hmem
      rcases mem_of_mem_assocSet _ _ _ _ hmem with h1 | h1
      · rw [h1]
        have := hreq (r, q) (by simp)
        simpa [Value.nonNeg] using this
      · exact hp p h1
    · rw [if_neg hid] at hmem
      exact hp p hmem

/-- A successful `SetResourceQuotas` with finite quantities over a store with non-negative
quantities: the request has no negative quantity, and the store after the writes has none. -/
theorem set_ok_nonneg (tx g' : Graph) (E : String) (req : ResourceQuotas)
    (hfin : finiteRequest req)
    (hnn : storedNonNegative tx) (h : SetResourceQuotas tx E req = .ok g') :
    (∀ rq ∈ req, (0 : Float64) ≤ rq.2) ∧ storedNonNegative g' := by
  obtain ⟨total, avail, hq, _, hav, hcu, hg⟩ := SetResourceQuotas_ok tx g' E req h
  obtain ⟨n, rest, hm⟩ := matchEntity_of_available tx E avail hav
  have htot : total = readQuotaProps n.props := by
    unfold getQuotas getEntityCypher at hq
    rw [hm] at hq
    simp only [List.map_cons, readQuotas, Except.ok.injEq] at hq
    exact hq.symm
  have hreq : ∀ rq ∈ req, (0 : Float64) ≤ rq.2 := by
    intro rq hrq
    have h1 := (checkUtilized_ok_iff total avail req).mp hcu rq hrq
    have h2 := utilized_nonneg tx hnn E n rest hm avail hav rq.1
    rw [← htot] at h2
    exact Float64.nonneg_of_not_gt _ _ (hfin rq hrq).2 h2 h1
  refine ⟨hreq, ?_⟩
  rw [hg, setResourceQuotas_eq]
  intro n' hn' p hp
  simp only [List.mem_map] at hn'
  obtain ⟨n₀, hn₀, heq⟩ := hn'
  rw [← heq] at hp
  exact setProps_nonneg E req (fun rq hrq => ⟨(hfin rq hrq).2, hreq rq hrq⟩) n₀.props
    (hnn n₀ hn₀) p hp

theorem commit_nonneg (g tx : Graph) (E : String) (req : ResourceQuotas)
    (hfin : finiteRequest req)
    (hg : storedNonNegative g) (htx : storedNonNegative tx) :
    storedNonNegative (commitOrRollback g (SetResourceQuotas tx E req)).1 := by
  cases h : SetResourceQuotas tx E req with
  | error e => exact hg
  | ok g' => exact (set_ok_nonneg tx g' E req hfin htx h).2

theorem addAndConnect_nonneg (g : Graph) (ns : Namespace) (parent : Option Namespace)
    (hg : storedNonNegative g) : storedNonNegative (addAndConnect g ns parent) := by
  have hnodes : (addAndConnect g ns parent).nodes = (addNamespaceCypher g ns).nodes := by
    cases parent <;> rfl
  intro n hn p hp
  rw [hnodes] at hn
  simp only [addNamespaceCypher, List.mem_append, List.mem_singleton] at hn
  rcases hn with hn | hn
  · exact hg n hn p hp
  · rw [hn] at hp
    simp only [List.mem_cons, List.mem_singleton, List.not_mem_nil, or_false] at hp
    rcases hp with h | h | h | h | h <;> rw [h] <;> rfl

theorem addAppCypher_nonneg (g : Graph) (app : App) (hg : storedNonNegative g) :
    storedNonNegative (addAppCypher g app) := by
  unfold addAppCypher
  generalize matchNamespace g app.ns.GetId = l
  induction l generalizing g with
  | nil => exact hg
  | cons x rest ih =>
    simp only [List.foldl_cons]
    apply ih
    intro n hn p hp
    simp only [List.mem_append, List.mem_singleton] at hn
    rcases hn with hn | hn
    · exact hg n hn p hp
    · rw [hn] at hp
      simp only [List.mem_cons, List.mem_singleton, List.not_mem_nil, or_false] at hp
      rcases hp with h | h | h <;> rw [h] <;> rfl

theorem reachable_nonneg (g : Graph) (hr : Reachable g) : storedNonNegative g := by
  induction hr with
  | empty =>
    intro n hn
    simp [Graph.empty] at hn
  | add g ns parent _ hfin ih =>
    exact commit_nonneg g _ _ _ hfin ih (addAndConnect_nonneg g ns parent ih)
  | addApp g app _ hfin ih =>
    exact commit_nonneg g _ _ _ hfin ih (addAppCypher_nonneg g app ih)
  | setQuotas g entityId quotas _ hfin ih =>
    exact commit_nonneg g g _ _ hfin ih ih
  | remove g id _ ih =>
    intro n hn p hp
    simp only [Remove, removeNamespaceCypher, List.mem_filter] at hn
    exact ih n hn.1 p hp
  | removeApp g id _ ih =>
    intro n hn p hp
    simp only [RemoveApp, removeAppCypher, List.mem_filter] at hn
    exact ih n hn.1 p hp

/-- A transaction whose request has finite quantities, one of them negative, run over a working
copy with non-negative quantities, is rolled back. -/
theorem commit_negative (g tx : Graph) (E : String) (req : ResourceQuotas)
    (hfin : finiteRequest req)
    (htx : storedNonNegative tx) (hneg : ∃ rq ∈ req, rq.2 < 0) :
    ∃ e, commitOrRollback g (SetResourceQuotas tx E req) = (g, some e) := by
  obtain ⟨rq, hrq, hlt⟩ := hneg
  cases h : SetResourceQuotas tx E req with
  | error e => exact ⟨e, rfl⟩
  | ok g' =>
    have := (set_ok_nonneg tx g' E req hfin htx h).1 rq hrq
    exact absurd hlt (Float64.not_lt_zero_of_nonneg _ this)

/-- C17 (amended). In every state of the store reachable from the empty database through
`Add`, `AddApp` and `SetResourceQuotas` (and the removals) with requests whose keys are property
names and whose quantities are finite numbers: for every entity id and every such request in
which some kind has a negative quantity, `SetResourceQuotas` returns an error and the store is
the one from before, and so do `Add` of a namespace and `AddApp` of an app whose quotas are such
a request, which create nothing; and every quantity stored on a node is a finite number that is
not negative. The code has no explicit check `quota < 0`: the request is compared with the
quantity in use `total - available`, which is never negative in such a state. -/
theorem quotas_non_negative (g : Graph) (hr : Reachable g) :
    (∀ (E : String) (req : ResourceQuotas), finiteRequest req → (∃ rq ∈ req, rq.2 < 0) →
      ∃ e, SetResourceQuotasNil g E req = (g, some e)) ∧
    (∀ (ns : Namespace) (parent : Option Namespace), finiteRequest ns.GetResourceQuotas →
      (∃ rq ∈ ns.GetResourceQuotas, rq.2 < 0) → ∃ e, Add g ns parent = (g, some e)) ∧
    (∀ app : App, finiteRequest app.GetResourceQuotas →
      (∃ rq ∈ app.GetResourceQuotas, rq.2 < 0) → ∃ e, AddApp g app = (g, some e)) ∧
    (∀ n ∈ g.nodes, ∀ k q, assocGet n.props k = some (.num q) →
      q.isFinite = true ∧ (0 : Float64) ≤ q) := by
  have hnn := reachable_nonneg g hr
  refine ⟨?_, ?_, ?_, ?_⟩
  · intro E req hfin hneg
    exact commit_negative g g E req hfin hnn hneg
  · intro ns parent hfin hneg
    exact commit_negative g _ _ _ hfin (addAndConnect_nonneg g ns parent hnn) hneg
  · intro app hfin hneg
    exact commit_negative g _ _ _ hfin (addAppCypher_nonneg g app hnn) hneg
  · intro n hn k q hq
    exact stored_num g hnn n hn k q hq

/-- C17 (amended), at the store after `Add` of the root `o/default` with 10 cpu and `AddApp` of
`o/default/web`: a request of -1 cpu for the root is among the rejected ones. -/
theorem quotas_non_negative_witness :
    Reachable dupRun2.1 ∧
    SetResourceQuotasNil dupRun2.1 "o/default" [("cpu", -1)]
      = (dupRun2.1, some (.belowUtilized "cpu" (-1) 0)) ∧
    ((∀ (E : String) (req : ResourceQuotas), finiteRequest req → (∃ rq ∈ req, rq.2 < 0) →
      ∃ e, SetResourceQuotasNil dupRun2.1 E req = (dupRun2.1, some e)) ∧
    (∀ (ns : Namespace) (parent : Option Namespace), finiteRequest ns.GetResourceQuotas →
      (∃ rq ∈ ns.GetResourceQuotas, rq.2 < 0) →
        ∃ e, Add dupRun2.1 ns parent = (dupRun2.1, some e)) ∧
    (∀ app : App, finiteRequest app.GetResourceQuotas →
      (∃ rq ∈ app.GetResourceQuotas, rq.2 < 0) →
        ∃ e, AddApp dupRun2.1 app = (dupRun2.1, some e)) ∧
    (∀ n ∈ dupRun2.1.nodes, ∀ k q, assocGet n.props k = some (.num q) →
      q.isFinite = true ∧ (0 : Float64) ≤ q)) :=
  ⟨Reachable.addApp _ _ (Reachable.add _ _ _ Reachable.empty (by decide)) (by decide),
   by decide,
   quotas_non_negative dupRun2.1
     (Reachable.addApp _ _ (Reachable.add _ _ _ Reachable.empty (by decide)) (by decide))⟩

/-- C17 as stated fails: from the empty store, `Add` of the root `o/r` with a mem total that is
not-a-number returns no error, and then `SetResourceQuotas(o/r, {mem: -5})` returns no error:
the request with a negative quantity is committed and the stored total is -5. Both comparisons
of the admission are false when the total is not-a-number. -/
theorem negative_committed_after_nan :
    nanRun1.2 = none ∧ nanRun2.2 = none ∧
    (-5 : Float64) < 0 ∧
    (matchEntity nanRun2.1 "o/r").map (quotaOf "mem") = [-5] ∧
    ¬ ((0 : Float64) ≤ -5) := by
  decide

/-! ## The frame of `Remove` -/

theorem filter_cons_keep {α : Type} (p : α → Bool) (a : α) (l : List α) (h : p a = true) :
    (a :: l).filter p = a :: l.filter p := List.filter_cons_of_pos h

theorem filter_cons_drop {α : Type} (p : α → Bool) (a : α) (l : List α) (h : p a = false) :
    (a :: l).filter p = l.filter p := List.filter_cons_of_neg (by rw [h]; simp)

theorem find_filter_of_imp (l : List Node) (p q : Node → Bool)
    (h : ∀ x ∈ l, p x = true → q x = true) :
    (l.filter q).find? p = l.find? p := by
  induction l with
  | nil => rfl
  | cons x rest ih =>
    have ih' := ih (fun y hy => h y (List.mem_cons_of_mem _ hy))
    by_cases hp : p x = true
    · have hq := h x (by simp) hp
      rw [List.filter_cons_of_pos hq, List.find?_cons_of_pos _ hp, List.find?_cons_of_pos _ hp]
    · by_cases hq : q x = true
      · rw [List.filter_cons_of_pos hq, List.find?_cons_of_neg _ hp,
          List.find?_cons_of_neg _ hp]
        exact ih'
      · rw [List.filter_cons_of_neg hq, List.find?_cons_of_neg _ hp]
        exact ih'

/-- An edge that `removeNamespaceCypher` keeps ends in nodes it keeps: the lookup of an
endpoint gives the same node before and after. -/
theorem findNode_removed (g : Graph) (id : String) (i : Nat)
    (hi : ∀ n ∈ matchNamespace g id, n.nid ≠ i) :
    findNode (removeNamespaceCypher g id) i = findNode g i := by
  unfold findNode removeNamespaceCypher
  apply find_filter_of_imp
  intro x hx hxi
  simp only [decide_eq_true_eq] at hxi
  by_contra hc
  have hrem : (x.isNamespace && hasId id x) = true := by
    simpa using hc
  exact hi x (by unfold matchNamespace; exact List.mem_filter.mpr ⟨hx, hrem⟩) hxi

/-- The rows of an edge pattern around a node that is not deleted, after the deletion: the rows
from before without the deleted nodes. The functions `a` and `b` select the two ends of an edge,
in either order. -/
theorem rows_removed (g : Graph) (id : String) (hnd : (g.nodes.map Node.nid).Nodup)
    (x : Node) (hx : ∀ n ∈ matchNamespace g id, n.nid ≠ x.nid)
    (a b : Nat × Nat → Nat)
    (hab : ∀ e, (a e = e.1 ∧ b e = e.2) ∨ (a e = e.2 ∧ b e = e.1))
    (es : List (Nat × Nat)) :
    (es.filter (fun e =>
        !((matchNamespace g id).any (fun n => n.nid = e.1 || n.nid = e.2)))).filterMap
      (fun e => if a e = x.nid then findNode (removeNamespaceCypher g id) (b e) else none)
    = (es.filterMap (fun e => if a e = x.nid then findNode g (b e) else none)).filter
        (fun c => !(c.isNamespace && hasId id c)) := by
  induction es with
  | nil => rfl
  | cons e rest ih =>
    by_cases hkeep : (matchNamespace g id).any (fun n => n.nid = e.1 || n.nid = e.2) = true
    · have hk : (!((matchNamespace g id).any (fun n => n.nid = e.1 || n.nid = e.2))) = false := by
        rw [hkeep]; rfl
      rw [filter_cons_drop (fun e =>
        !((matchNamespace g id).any (fun n => n.nid = e.1 || n.nid = e.2))) e rest hk, ih]
      by_cases hax : a e = x.nid
      · -- the edge leaves towards a deleted node
        rw [List.any_eq_true] at hkeep
        obtain ⟨n, hn, hne⟩ := hkeep
        simp only [Bool.or_eq_true, decide_eq_true_eq] at hne
        have hb : n.nid = b e := by
          rcases hab e with ⟨h1, h2⟩ | ⟨h1, h2⟩
          · rcases hne with h | h
            · exact absurd (h.trans (h1.symm.trans hax)) (hx n hn)
            · rw [h2]; exact h
          · rcases hne with h | h
            · rw [h2]; exact h
            · exact absurd (h.trans (h1.symm.trans hax)) (hx n hn)
        have hnmem : n ∈ g.nodes := (List.mem_filter.mp hn).1
        have hfind : findNode g (b e) = some n := by
          rw [← hb]
          exact findNode_of_mem g n hnd hnmem
        have hrem : (n.isNamespace && hasId id n) = true := (List.mem_filter.mp hn).2
        rw [List.filterMap_cons_some (by rw [if_pos hax]; exact hfind)]
        rw [filter_cons_drop (fun c => !(c.isNamespace && hasId id c)) n _
          (by show (!(n.isNamespace && hasId id n)) = false; rw [hrem]; rfl)]
      · rw [List.filterMap_cons_none (by rw [if_neg hax])]
    · have hk : (!((matchNamespace g id).any (fun n => n.nid = e.1 || n.nid = e.2))) = true := by
        simpa using hkeep
      rw [filter_cons_keep (fun e =>
        !((matchNamespace g id).any (fun n => n.nid = e.1 || n.nid = e.2))) e rest hk]
      have hnone : ∀ n ∈ matchNamespace g id, n.nid ≠ e.1 ∧ n.nid ≠ e.2 := by
        intro n hn
        rw [List.any_eq_true] at hkeep
        constructor
        · intro h
          exact hkeep ⟨n, hn, by simp [h]⟩
        · intro h
          exact hkeep ⟨n, hn, by simp [h]⟩
      by_cases hax : a e = x.nid
      · have hbn : ∀ n ∈ matchNamespace g id, n.nid ≠ b e := by
          intro n hn
          rcases hab e with ⟨_, h2⟩ | ⟨_, h2⟩
          · rw [h2]; exact (hnone n hn).2
          · rw [h2]; exact (hnone n hn).1
        have hf := findNode_removed g id (b e) hbn
        cases hfind : findNode g (b e) with
        | none =>
          rw [List.filterMap_cons_none (by rw [if_pos hax, hf]; exact hfind),
            List.filterMap_cons_none (by rw [if_pos hax]; exact hfind)]
          exact ih
        | some c =>
          rw [List.filterMap_cons_some (by rw [if_pos hax, hf]; exact hfind),
            List.filterMap_cons_some (by rw [if_pos hax]; exact hfind)]
          have hc := findNode_some g (b e) c hfind
          have hkeepc : (!(c.isNamespace && hasId id c)) = true := by
            by_contra hcon
            have hrem : (c.isNamespace && hasId id c) = true := by simpa using hcon
            exact hbn c (by unfold matchNamespace; exact List.mem_filter.mpr ⟨hc.1, hrem⟩) hc.2
          rw [filter_cons_keep (fun c => !(c.isNamespace && hasId id c)) c _ hkeepc, ih]
      · rw [List.filterMap_cons_none (by rw [if_neg hax]),
          List.filterMap_cons_none (by rw [if_neg hax])]
        exact ih

/-- C22. The store-level `Remove(id)`, in a store with distinct node identities, returns no
error and deletes exactly the namespace nodes with the id and the edges incident to them: a node
is in the store afterwards if and only if it was there before and is not a namespace with the
id, with the same properties (so the same total quotas) and in the same order; an edge is there
afterwards if and only if it was there before and neither of its ends is a deleted node; the
entities found under any other id, and their total quotas, are the same; and around every node
that is not deleted the children and the parents afterwards are those from before without the
deleted nodes, so a node whose parents were all deleted is left without a parent. -/
theorem remove_frame (g : Graph) (id : String) (hnd : (g.nodes.map Node.nid).Nodup) :
    (Remove g id).2 = none ∧
    (∀ n, n ∈ (Remove g id).1.nodes ↔ n ∈ g.nodes ∧ n ∉ matchNamespace g id) ∧
    (Remove g id).1.nodes.Sublist g.nodes ∧
    (∀ e, e ∈ (Remove g id).1.edges ↔
      e ∈ g.edges ∧ ∀ n ∈ matchNamespace g id, n.nid ≠ e.1 ∧ n.nid ≠ e.2) ∧
    (Remove g id).1.edges.Sublist g.edges ∧
    (∀ other, other ≠ id →
      matchEntity (Remove g id).1 other = matchEntity g other ∧
      getQuotas (Remove g id).1 other = getQuotas g other) ∧
    (∀ x, (∀ n ∈ matchNamespace g id, n.nid ≠ x.nid) →
      childrenOf (Remove g id).1 x
        = (childrenOf g x).filter (fun c => !(c.isNamespace && hasId id c)) ∧
      parentsOf (Remove g id).1 x
        = (parentsOf g x).filter (fun p => !(p.isNamespace && hasId id p)) ∧
      ((∀ p ∈ parentsOf g x, p ∈ matchNamespace g id) → parentsOf (Remove g id).1 x = [])) := by
  have hnodes : ∀ n, n ∈ (Remove g id).1.nodes ↔ n ∈ g.nodes ∧ n ∉ matchNamespace g id := by
    intro n
    simp only [Remove, removeNamespaceCypher, matchNamespace, List.mem_filter]
    constructor
    · rintro ⟨h1, h2⟩
      refine ⟨h1, fun hc => ?_⟩
      rw [hc.2] at h2
      simp at h2
    · rintro ⟨h1, h2⟩
      refine ⟨h1, ?_⟩
      by_contra hc
      exact h2 ⟨h1, by simpa using hc⟩
  refine ⟨rfl, hnodes, List.filter_sublist _, ?_, List.filter_sublist _, ?_, ?_⟩
  · intro e
    simp only [Remove, removeNamespaceCypher, List.mem_filter]
    constructor
    · rintro ⟨h1, h2⟩
      refine ⟨h1, fun n hn => ?_⟩
      have h3 : ¬ (matchNamespace g id).any (fun n => n.nid = e.1 || n.nid = e.2) = true := by
        simpa using h2
      rw [List.any_eq_true] at h3
      exact ⟨fun h => h3 ⟨n, hn, by simp [h]⟩, fun h => h3 ⟨n, hn, by simp [h]⟩⟩
    · rintro ⟨h1, h2⟩
      refine ⟨h1, ?_⟩
      have h3 : ¬ (matchNamespace g id).any (fun n => n.nid = e.1 || n.nid = e.2) = true := by
        rw [List.any_eq_true]
        rintro ⟨n, hn, hne⟩
        simp only [Bool.or_eq_true, decide_eq_true_eq] at hne
        rcases hne with h | h
        · exact (h2 n hn).1 h
        · exact (h2 n hn).2 h
      simpa using h3
  · intro other hother
    have hm : matchEntity (Remove g id).1 other = matchEntity g other := by
      simp only [Remove, removeNamespaceCypher, matchEntity, List.filter_filter]
      apply List.filter_congr
      intro n _
      by_cases hn : hasId other n = true
      · have hnot : hasId id n = false := by
          by_contra hc
          have hc' : hasId id n = true := by simpa using hc
          rw [hasId_iff_stringId] at hn hc'
          rw [hn] at hc'
          exact hother (Option.some.inj hc')
        simp [hn, hnot]
      · simp [hn]
    refine ⟨hm, ?_⟩
    unfold getQuotas getEntityCypher
    rw [hm]
  · intro x hx
    have hch : childrenOf (Remove g id).1 x
        = (childrenOf g x).filter (fun c => !(c.isNamespace && hasId id c)) :=
      rows_removed g id hnd x hx Prod.fst Prod.snd (fun e => Or.inl ⟨rfl, rfl⟩) g.edges
    have hpa : parentsOf (Remove g id).1 x
        = (parentsOf g x).filter (fun p => !(p.isNamespace && hasId id p)) :=
      rows_removed g id hnd x hx Prod.snd Prod.fst (fun e => Or.inr ⟨rfl, rfl⟩) g.edges
    refine ⟨hch, hpa, fun hall => ?_⟩
    rw [hpa, List.filter_eq_nil_iff]
    intro p hp
    have := (List.mem_filter.mp (hall p hp)).2
    simp [this]

/-- C22, at the store `demoStore`: `Remove` of the root `o/default` leaves the namespaces
`o/a` and `o/b` and the app `o/a/web` as they were, with the edge from `o/a` to its app;
`o/a` and `o/b` have no parent afterwards. -/
theorem remove_frame_witness :
    (demoStore.nodes.map Node.nid).Nodup ∧
    (Remove demoStore "o/default").1 = ⟨[demoA, demoB, demoWeb], [(2, 4)]⟩ ∧
    parentsOf demoStore demoA = [demoRoot] ∧
    parentsOf (Remove demoStore "o/default").1 demoA = [] ∧
    ((Remove demoStore "o/default").2 = none ∧
    (∀ n, n ∈ (Remove demoStore "o/default").1.nodes ↔
      n ∈ demoStore.nodes ∧ n ∉ matchNamespace demoStore "o/default") ∧
    (Remove demoStore "o/default").1.nodes.Sublist demoStore.nodes ∧
    (∀ e, e ∈ (Remove demoStore "o/default").1.edges ↔
      e ∈ demoStore.edges ∧ ∀ n ∈ matchNamespace demoStore "o/default", n.nid ≠ e.1 ∧ n.nid ≠ e.2) ∧
    (Remove demoStore "o/default").1.edges.Sublist demoStore.edges ∧
    (∀ other, other ≠ "o/default" →
      matchEntity (Remove demoStore "o/default").1 other = matchEntity demoStore other ∧
      getQuotas (Remove demoStore "o/default").1 other = getQuotas demoStore other) ∧
    (∀ x, (∀ n ∈ matchNamespace demoStore "o/default", n.nid ≠ x.nid) →
      childrenOf (Remove demoStore "o/default").1 x
        = (childrenOf demoStore x).filter (fun c => !(c.isNamespace && hasId "o/default" c)) ∧
      parentsOf (Remove demoStore "o/default").1 x
        = (parentsOf demoStore x).filter (fun p => !(p.isNamespace && hasId "o/default" p)) ∧
      ((∀ p ∈ parentsOf demoStore x, p ∈ matchNamespace demoStore "o/default") →
        parentsOf (Remove demoStore "o/default").1 x = []))) :=
  ⟨by decide, by decide, by decide, by decide, remove_frame demoStore "o/default" (by decide)⟩


/-! ## The shape of the hierarchy -/

/-- C21 fails on the code. From `demoStore` the handlers add `o/c` under `o/a`, accept the
request `id: 0` for `o/a`, which overwrites the identifier of that node, and add `o/a` under
`o/default` again; every call returns no error. In the store reached, node identities are
distinct, every namespace has one incoming edge at most and the namespaces below the root
`o/default` are less than 3 levels deep, so the edges between namespaces form a finite tree
below the root: the root, the former `o/a` with its child `o/c`, `o/b` and the new `o/a`.
`GetHierarchy(o/default)` returns a tree with four nodes, for `o/default`, `o/a`, `o/b` and
`o/a`: the namespace `o/c` has no node, the new `o/a` has two, and the first of them is a child
of the root without children although the namespace it was read from has the child `o/c`. -/
theorem hierarchy_shadowed_namespace :
    shadowRun1.2 = none ∧ shadowRun2.2 = none ∧ shadowRun3.2 = none ∧
    (shadowRun3.1.nodes.map Node.nid).Nodup ∧
    singleParent shadowRun3.1 ∧
    (matchNamespace shadowRun3.1 "o/default").map
        (fun r => (depthWithin shadowRun3.1 3 r,
          (subtreeNodes shadowRun3.1 3 r).map
            (fun n => (n.nid, assocGet n.props "id", assocGet n.props "name"))))
      = [(true,
          [(1, some (.str "o/default"), some (.str "default")),
           (2, some (.num 0), some (.str "a")),
           (5, some (.str "o/c"), some (.str "c")),
           (3, some (.str "o/b"), some (.str "b")),
           (6, some (.str "o/a"), some (.str "a"))])] ∧
    (GetHierarchy shadowRun3.1 5 "o/default").map (fun r => r.map (fun tree =>
        (tree.Root.namespaces.map Namespace.GetId,
         tree.Root.Children.map (fun c => (c.Namespace.GetId, c.Children.length)))))
      = some (.ok (["o/default", "o/a", "o/b", "o/a"],
          [("o/a", 0), ("o/b", 0), ("o/a", 0)])) := by
  refine ⟨by decide, by decide, by decide, by decide, by decide, by decide, by decide⟩

end Meridian
